import Mathlib

set_option maxRecDepth 8000

/-!
# Verification of the bbvm-rs core (lexer, statement model, SSA code generator)

This development shallowly embeds the three components of the bbvm-rs
compiler and proves/refutes the frozen specification claims about them.

* `src/lexer.rs` / `src/token.rs`: token classification and the recursive,
  operand-collecting lexer are modelled by `getWord` / `classifyT` /
  `getTokenF` / `getNotFluff` (fuel-indexed, since the Rust recursion is
  bounded only by the input length).
* `src/convert.rs`: the `Converter` is modelled as a state machine that
  builds an explicit SSA control-flow graph (`Prog`: basic blocks with phi
  nodes, instructions and terminators).  LLVM `IntValue` handles become
  `Operand`s (constants / fresh registers / parameters).
* The semantics of the generated program is given by the small-step
  interpreter `execF` (fuel counts basic-block entries); values are 64-bit
  bit patterns represented as `Nat` below `2 ^ 64`, matching the `i64`
  type used by `Converter::new`.
-/

namespace BBVM

/-! ## Word splitting (Lexer::get_token, the word-extraction loop) -/

/-- `str::split_once(pred)`: split at the first character satisfying `p`,
returning the parts before and after it; `none` when no character matches. -/
def splitOnce (p : Char → Bool) : List Char → Option (List Char × List Char)
  | [] => none
  | c :: rest =>
    if p c then some ([], rest)
    else
      match splitOnce p rest with
      | none => none
      | some (a, b) => some (c :: a, b)

/-- `str::trim_start()` (leading whitespace removal). -/
def trimStart (s : List Char) : List Char := s.dropWhile Char.isWhitespace

/-- The separator predicate of `Lexer::get_token`:
`|c : char| c.is_whitespace() || c == ';'`. -/
def isSep (c : Char) : Bool := c.isWhitespace || c == ';'

theorem splitOnce_rest_length {p : Char → Bool} :
    ∀ {s a b : List Char}, splitOnce p s = some (a, b) → b.length < s.length := by
  intro s
  induction s with
  | nil => intro a b h; simp [splitOnce] at h
  | cons c rest ih =>
    intro a b h
    by_cases hc : p c
    · simp only [splitOnce, hc, if_pos, Option.some.injEq, Prod.mk.injEq] at h
      simp [← h.2, List.length_cons]
    · simp only [splitOnce, hc, if_neg, Bool.false_eq_true, not_false_iff] at h
      cases hr : splitOnce p rest with
      | none => rw [hr] at h; simp at h
      | some ab =>
        rw [hr] at h
        obtain ⟨a', b'⟩ := ab
        simp only [Option.some.injEq, Prod.mk.injEq] at h
        have := ih hr
        simp only [← h.2, List.length_cons]
        omega

theorem trimStart_length_le (s : List Char) : (trimStart s).length ≤ s.length := by
  induction s with
  | nil => simp [trimStart]
  | cons c rest ih =>
    by_cases hc : Char.isWhitespace c
    · simp only [trimStart, List.dropWhile_cons, hc, if_true, List.length_cons]
      simp only [trimStart] at ih
      omega
    · simp [trimStart, List.dropWhile_cons, hc]

/-- The word-extraction loop at the start of `Lexer::get_token`: skip
separators, skip `#`-comments (discarding through the next newline of the
*remaining* input), and return the first non-empty word together with the
lexer's updated input.  Returns `(none, input')` exactly when the Rust code
would `return Token::EOF` from inside the loop.

Defined by structural recursion on a fuel argument so that it reduces in
the kernel; each loop iteration consumes at least one character, so
`input.length + 1` fuel (supplied by the `getWord` wrapper) always
suffices. -/
def getWordF : Nat → List Char → Option (List Char) × List Char
  | 0, input => (none, input)
  | fuel + 1, input =>
    if input = [] then (none, input)
    else
      match splitOnce isSep (trimStart input) with
      | none => (none, input)
      | some (t, remaining) =>
        if t.take 1 = ['#'] then
          if remaining = [] then (none, remaining)
          else
            match splitOnce (fun c => c == '\n') remaining with
            | none => (none, remaining)
            | some (_, r2) => getWordF fuel r2
        else if t = [] then getWordF fuel remaining
        else (some t, remaining)

def getWord (input : List Char) : Option (List Char) × List Char :=
  getWordF (input.length + 1) input

/-- The fuel `input.length + 1` is always sufficient: `getWordF` never
hits the fuel-out base case, because every iteration strictly shortens
the input. -/
theorem getWordF_fuel_sufficient :
    ∀ (fuel : Nat) (input : List Char), input.length < fuel →
      getWordF fuel input = getWord input := by
  have key : ∀ (f1 : Nat) (input : List Char), input.length < f1 →
      ∀ f2, input.length < f2 → getWordF f1 input = getWordF f2 input := by
    intro f1
    induction f1 with
    | zero => intro input h; omega
    | succ f ih =>
      intro input h f2 h2
      cases f2 with
      | zero => omega
      | succ g =>
        simp only [getWordF]
        by_cases hemp : input = []
        · simp [hemp]
        · simp only [hemp, if_neg, if_false]
          cases hsp : splitOnce isSep (trimStart input) with
          | none => rfl
          | some tp =>
            obtain ⟨t, remaining⟩ := tp
            have hrem : remaining.length < (trimStart input).length :=
              splitOnce_rest_length hsp
            have htrim := trimStart_length_le input
            by_cases hcom : t.take 1 = ['#']
            · simp only [hcom, if_pos]
              by_cases hre : remaining = []
              · simp [hre]
              · simp only [hre, if_neg, if_false]
                cases hsp2 : splitOnce (fun c => c == '\n') remaining with
                | none => rfl
                | some tp2 =>
                  obtain ⟨t2, r2⟩ := tp2
                  have hr2 : r2.length < remaining.length := splitOnce_rest_length hsp2
                  exact ih r2 (by omega) g (by omega)
            · simp only [hcom, if_neg, if_false]
              by_cases ht : t = []
              · simp only [ht, if_pos]
                exact ih remaining (by omega) g (by omega)
              · simp [ht]
  intro fuel input h
  exact key fuel input h (input.length + 1) (by omega)

/-! ## Tokens (token.rs) -/

/-- `TwoParamType` (token.rs): the only two-operand statement kind. -/
inductive TwoParamType
  | copy
  deriving Repr, DecidableEq

/-- `OneParamType` (token.rs). -/
inductive OneParamType
  | clear
  | decr
  | incr
  deriving Repr, DecidableEq

/-- `Token` (token.rs), with identifier text as `List Char` and numbers as
the mathematical value of the parsed `i128`. -/
inductive Token
  | number (value : Int)
  | identifier (ident : List Char)
  | whileT (param : List Char) (num : Int)
  | twoParam (one two : List Char) (ty : TwoParamType)
  | oneParam (one : List Char) (ty : OneParamType)
  | fluff
  | endT
  | eof
  deriving Repr, DecidableEq

/-- `str::to_lowercase` restricted to the ASCII range (all keywords are
ASCII). -/
def lowercase (s : List Char) : List Char := s.map Char.toLower

/-- The `statement_token!` macro: the word matches when its lowercasing
equals one of the listed keywords. -/
def statementMatch (keys : List (List Char)) (ident : List Char) : Bool :=
  keys.any (fun k => k == lowercase ident)

/-- `TwoParam::identify` — `statement_token!(["copy"], ...)`. -/
def TwoParam.identify (s : List Char) : Bool := statementMatch [String.toList "copy"] s

/-- `OneParam::identify` — `statement_token!(["clear","decr","incr"], ...)`. -/
def OneParam.identify (s : List Char) : Bool :=
  statementMatch [String.toList "clear", String.toList "decr", String.toList "incr"] s

/-- `While::identify` — `ident.to_lowercase().eq("while")`. -/
def While.identify (s : List Char) : Bool := lowercase s == String.toList "while"

/-- `Fluff::identify` — `statement_token!(["do","not","to"], ...)`. -/
def Fluff.identify (s : List Char) : Bool :=
  statementMatch [String.toList "do", String.toList "not", String.toList "to"] s

/-- `End::identify` — `statement_token!(["end"], ...)`. -/
def End.identify (s : List Char) : Bool := statementMatch [String.toList "end"] s

/-- `Identifier::identify` — `Regex::new("[a-zA-Z]\\w*").is_match(ident)`.
`Regex::is_match` *searches*: the pattern matches at a position iff that
character is an ASCII letter (`\w*` can match the empty string), so the
unanchored match succeeds iff the word contains an ASCII letter anywhere. -/
def Identifier.identify (s : List Char) : Bool := s.any fun c => c.isAlpha

/-- `Number::identify` — `Regex::new("\\d+").is_match(ident)`: the
unanchored search succeeds iff the word contains a digit anywhere. -/
def Number.identify (s : List Char) : Bool := s.any fun c => c.isDigit

/-- `TwoParamType::from_str` — note: matches the *raw* token text, only the
exact lowercase spelling `"copy"` succeeds. -/
def TwoParamType.fromStr (s : List Char) : Option TwoParamType :=
  if s = String.toList "copy" then some .copy else none

/-- `OneParamType::from_str` — again only the exact lowercase spellings. -/
def OneParamType.fromStr (s : List Char) : Option OneParamType :=
  if s = String.toList "clear" then some .clear
  else if s = String.toList "decr" then some .decr
  else if s = String.toList "incr" then some .incr
  else none

/-- Value of a digit string. -/
def digitsToNat : List Char → Nat → Nat
  | [], acc => acc
  | c :: rest, acc => digitsToNat rest (acc * 10 + (c.toNat - '0'.toNat))

/-- `i128::from_str`: optional sign, then one or more decimal digits, value
within the signed 128-bit range; anything else is `Err` (and the lexer
`unwrap`s it). -/
def parseI128 (s : List Char) : Option Int :=
  let signed : Int × List Char :=
    match s with
    | [] => (1, [])
    | c :: r => if c = '+' then (1, r) else if c = '-' then (-1, r) else (1, c :: r)
  let ds := signed.2
  if ds = [] then none
  else if ds.all (fun c => c.isDigit) then
    let v : Int := signed.1 * (digitsToNat ds 0 : Int)
    if -(2 ^ 127) ≤ v ∧ v ≤ 2 ^ 127 - 1 then some v else none
  else none

/-- Fatal lexer outcomes (`panic!` in the Rust code). -/
inductive LexError
  | incorrect (token : List Char) (expected : List Char) (found : Token)
  | fromStrFail (token : List Char)
  | numberFail (word : List Char)
  | outOfFuel
  deriving Repr, DecidableEq

/-- The classification cascade of `Lexer::get_token` (after the word
loop), in source order: two-param → one-param → while → fluff → end →
identifier → number → EOF.  Operand collection calls `get_not_fluff`,
passed in as `gnf` (the lexer's recursive re-entry). -/
def classifyT (gnf : List Char → Except LexError (Token × List Char))
    (t rest : List Char) : Except LexError (Token × List Char) :=
  if TwoParam.identify t then
    match gnf rest with
    | .error e => .error e
    | .ok (tok1, r1) =>
      match tok1 with
      | .identifier one =>
        match gnf r1 with
        | .error e => .error e
        | .ok (tok2, r2) =>
          match tok2 with
          | .identifier two =>
            match TwoParamType.fromStr t with
            | some ty => .ok (.twoParam one two ty, r2)
            | none => .error (.fromStrFail t)
          | other => .error (.incorrect t (String.toList "identifier") other)
      | other => .error (.incorrect t (String.toList "identifier") other)
  else if OneParam.identify t then
    match gnf rest with
    | .error e => .error e
    | .ok (tok1, r1) =>
      match tok1 with
      | .identifier one =>
        match OneParamType.fromStr t with
        | some ty => .ok (.oneParam one ty, r1)
        | none => .error (.fromStrFail t)
      | other => .error (.incorrect t (String.toList "identifier") other)
  else if While.identify t then
    match gnf rest with
    | .error e => .error e
    | .ok (tok1, r1) =>
      match tok1 with
      | .identifier one =>
        match gnf r1 with
        | .error e => .error e
        | .ok (tok2, r2) =>
          match tok2 with
          | .number n => .ok (.whileT one n, r2)
          | other => .error (.incorrect t (String.toList "number") other)
      | other => .error (.incorrect t (String.toList "identifier") other)
  else if Fluff.identify t then .ok (.fluff, rest)
  else if End.identify t then .ok (.endT, rest)
  else if Identifier.identify t then .ok (.identifier t, rest)
  else if Number.identify t then
    match parseI128 t with
    | some v => .ok (.number v, rest)
    | none => .error (.numberFail t)
  else .ok (.eof, rest)

/-- `Lexer::get_token` (mode `false`) and `Lexer::get_not_fluff` (mode
`true`), merged into one fuel-structural function (the Rust functions are
mutually recursive through operand collection; fuel bounds the recursion
depth, and any fuel above `2 * input.length + 2` is sufficient since every
recursive call consumes at least one input character). -/
def lexF : Nat → Bool → List Char → Except LexError (Token × List Char)
  | 0, _, _ => .error .outOfFuel
  | fuel + 1, false, input =>
    match getWord input with
    | (none, rest) => .ok (.eof, rest)
    | (some t, rest) => classifyT (lexF fuel true) t rest
  | fuel + 1, true, input =>
    match lexF fuel false input with
    | .error e => .error e
    | .ok (.fluff, rest) => lexF fuel true rest
    | .ok other => .ok other

/-- `Lexer::get_token`. -/
def getTokenF (fuel : Nat) (input : List Char) : Except LexError (Token × List Char) :=
  lexF fuel false input

/-- `Lexer::get_not_fluff`. -/
def getNotFluff (fuel : Nat) (input : List Char) : Except LexError (Token × List Char) :=
  lexF fuel true input

/-! ## Statements (token.rs: `Statement`, `StatementImpl`) -/

/-- `Statement` (token.rs): `Token` minus `Number` and bare `Identifier`. -/
inductive Statement
  | whileS (param : List Char) (num : Int)
  | twoParam (one two : List Char) (ty : TwoParamType)
  | oneParam (one : List Char) (ty : OneParamType)
  | fluff
  | endS
  | eofS
  deriving Repr, DecidableEq

/-- `Statement::try_from(Token)`: fails on `Number` and bare `Identifier`. -/
def Statement.tryFrom : Token → Except (List Char) Statement
  | .number _ => .error (String.toList "not a statement")
  | .identifier _ => .error (String.toList "not a statement")
  | .whileT p n => .ok (.whileS p n)
  | .twoParam a b ty => .ok (.twoParam a b ty)
  | .oneParam a ty => .ok (.oneParam a ty)
  | .fluff => .ok .fluff
  | .endT => .ok .endS
  | .eof => .ok .eofS

/-- `StatementImpl::get_variables` per variant (token.rs). -/
def Statement.getVariables : Statement → List (List Char)
  | .whileS p _ => [p]
  | .twoParam a b _ => [a, b]
  | .oneParam a _ => [a]
  | .fluff => []
  | .endS => []
  | .eofS => []

/-! ## The SSA program built by the Converter (convert.rs)

LLVM objects are modelled explicitly: a `Prog` is a list of basic blocks in
creation order; each block holds its phi nodes (in creation order, with
their incoming edges as `(operand, predecessor block)` pairs, extendable by
`add_incoming`), its non-phi instructions, and an optional terminator
(`None` while the builder is still positioned in the block).  `IntValue`
handles are `Operand`s; instruction results are fresh registers. -/

/-- An LLVM `IntValue` handle: a 64-bit constant (bit pattern, `< 2 ^ 64`),
an instruction/phi result, or a function parameter. -/
inductive Operand
  | constV (n : Nat)
  | reg (r : Nat)
  | paramV (i : Nat)
  deriving Repr, DecidableEq

/-- Non-phi instructions emitted by the Converter: `build_int_add`,
`build_int_nuw_sub`, `build_int_compare(EQ)`, and the `printf` call of a
`(name, value)` report. -/
inductive Instr
  | add (res : Nat) (a b : Operand)
  | subNuw (res : Nat) (a b : Operand)
  | icmpEq (res : Nat) (a b : Operand)
  | printfI (name : List Char) (v : Operand)
  deriving Repr, DecidableEq

/-- Block terminators. -/
inductive Terminator
  | br (b : Nat)
  | condBr (c : Operand) (t f : Nat)
  | ret
  deriving Repr, DecidableEq

/-- One basic block: phi nodes, instructions, optional terminator. -/
structure BlockData where
  phis : List (Nat × List (Operand × Nat))
  instrs : List Instr
  term : Option Terminator
  deriving Repr, DecidableEq

/-- A function under construction: blocks in creation order. -/
structure Prog where
  blocks : List (Nat × BlockData)
  deriving Repr, DecidableEq

def Prog.lookupB (p : Prog) (b : Nat) : Option BlockData := p.blocks.lookup b

/-- `context.append_basic_block`. -/
def Prog.addBlock (p : Prog) (b : Nat) : Prog :=
  ⟨p.blocks ++ [(b, ⟨[], [], none⟩)]⟩

def Prog.mapBlock (p : Prog) (b : Nat) (f : BlockData → BlockData) : Prog :=
  ⟨p.blocks.map (fun e => if e.1 = b then (e.1, f e.2) else e)⟩

/-- The builder emits an instruction at the end of block `b`. -/
def Prog.appendInstr (p : Prog) (b : Nat) (i : Instr) : Prog :=
  p.mapBlock b (fun bd => { bd with instrs := bd.instrs ++ [i] })

/-- The builder emits a terminator in block `b`. -/
def Prog.setTerm (p : Prog) (b : Nat) (t : Terminator) : Prog :=
  p.mapBlock b (fun bd => { bd with term := some t })

/-- `builder.build_phi` in block `b` with initial incoming edges. -/
def Prog.appendPhi (p : Prog) (b : Nat) (rf : Nat) (edges : List (Operand × Nat)) : Prog :=
  p.mapBlock b (fun bd => { bd with phis := bd.phis ++ [(rf, edges)] })

/-- `phi.add_incoming`: append one `(value, pred)` edge to the phi `rf`
living in block `b`. -/
def Prog.addPhiEdge (p : Prog) (b : Nat) (rf : Nat) (edge : Operand × Nat) : Prog :=
  p.mapBlock b (fun bd =>
    { bd with phis := bd.phis.map (fun ph => if ph.1 = rf then (ph.1, ph.2 ++ [edge]) else ph) })

/-- `check as u64`: two's-complement truncation of an `i128` value to the
low 64 bits (`const_int(check as u64, false)` on the `i64` type). -/
def toU64 (z : Int) : Nat := (z % (2 ^ 64 : Int)).toNat

/-! ## The Converter state machine (convert.rs) -/

/-- Fatal conditions inside the Converter (`panic!` / failing `expect` /
out-of-bounds indexing in the Rust code). -/
inductive ConvErr
  | unmappedVar (v : List Char)
  | badIndex
  | tooManyEnds
  | tooManyOpens
  deriving Repr, DecidableEq

/-- The `Converter` struct: the program under construction, the current
SSA value of every variable (`self.variables`), the Loop Context stack
(`self.phis`, pushed at `add_while`, popped at `add_end`), the variable
table (`self.mapping`), fresh-name counters for registers and blocks, the
`self.block` field (predecessor block for merge edges) and the builder
position (`cur`; the two coincide at operation boundaries). -/
structure Converter where
  prog : Prog
  vars : List Operand
  phis : List (List Nat × (Nat × Nat))
  mapping : List (List Char × Nat)
  freshR : Nat
  freshB : Nat
  block : Nat
  cur : Nat
  deriving Repr, DecidableEq

def lookupName (m : List (List Char × Nat)) (v : List Char) : Option Nat := m.lookup v

/-- `variables[mapping[input]] = param` for each declared input (the loop
in `Converter::new`); indexing a missing key is a panic. -/
def setInputs (mapping : List (List Char × Nat)) :
    List (Nat × List Char) → List Operand → Except ConvErr (List Operand)
  | [], vars => .ok vars
  | (i, nm) :: rest, vars =>
    match lookupName mapping nm with
    | none => .error (.unmappedVar nm)
    | some idx => setInputs mapping rest (vars.set idx (.paramV i))

/-- `Converter::new`: entry block, all variables initialised to the
constant 0, mapping from the variable table to dense indices. -/
def Converter.new (varib : List (List Char)) (inputs : List (List Char)) :
    Except ConvErr Converter := do
  let mapping := varib.enum.map (fun e => (e.2, e.1))
  let base : List Operand := List.replicate varib.length (.constV 0)
  let vars ← setInputs mapping inputs.enum base
  .ok
    { prog := (Prog.mk []).addBlock 0
      vars := vars
      phis := []
      mapping := mapping
      freshR := 0
      freshB := 1
      block := 0
      cur := 0 }

/-- `self.mapping[&var]` — panics when the name is missing. -/
def Converter.getIdx (c : Converter) (v : List Char) : Except ConvErr Nat :=
  match lookupName c.mapping v with
  | some i => .ok i
  | none => .error (.unmappedVar v)

/-- `self.variables[pos]`. -/
def Converter.getVar (c : Converter) (i : Nat) : Except ConvErr Operand :=
  match c.vars.get? i with
  | some op => .ok op
  | none => .error .badIndex

/-- `Converter::add_incr`: `var = var + 1` as a pure add in the current
block. -/
def Converter.add_incr (c : Converter) (v : List Char) : Except ConvErr Converter := do
  let pos ← c.getIdx v
  let cu ← c.getVar pos
  let r := c.freshR
  .ok { c with
        prog := c.prog.appendInstr c.cur (.add r cu (.constV 1))
        vars := c.vars.set pos (.reg r)
        freshR := r + 1 }

/-- `Converter::add_decr`: compare with zero, branch to `alreadyZero`
(skip) or `notZero` (subtract one), merge through a phi in the skip
block. -/
def Converter.add_decr (c : Converter) (v : List Char) : Except ConvErr Converter := do
  let pos ← c.getIdx v
  let current ← c.getVar pos
  let rCmp := c.freshR
  let rSub := c.freshR + 1
  let rPhi := c.freshR + 2
  let skip := c.freshB
  let noSkip := c.freshB + 1
  let p := c.prog.appendInstr c.cur (.icmpEq rCmp current (.constV 0))
  let p := (p.addBlock skip).addBlock noSkip
  let p := p.setTerm c.cur (.condBr (.reg rCmp) skip noSkip)
  let p := p.appendInstr noSkip (.subNuw rSub current (.constV 1))
  let p := p.setTerm noSkip (.br skip)
  let p := p.appendPhi skip rPhi [(current, c.block), (.reg rSub, noSkip)]
  .ok { c with
        prog := p
        vars := c.vars.set pos (.reg rPhi)
        freshR := c.freshR + 3
        freshB := c.freshB + 2
        block := skip
        cur := skip }

/-- `Converter::add_clear`: bind the variable to `self.zero`. -/
def Converter.add_clear (c : Converter) (v : List Char) : Except ConvErr Converter := do
  let pos ← c.getIdx v
  let _ ← c.getVar pos
  .ok { c with vars := c.vars.set pos (.constV 0) }

/-- `Converter::add_copy`: bind `to` to the current value of `from`. -/
def Converter.add_copy (c : Converter) (vFrom vTo : List Char) : Except ConvErr Converter := do
  let posF ← c.getIdx vFrom
  let vf ← c.getVar posF
  let posT ← c.getIdx vTo
  .ok { c with vars := c.vars.set posT vf }

/-- `Converter::add_while`: branch into a fresh `loop` header block,
create one phi per variable (single incoming edge from `self.block`),
replace the frame with the phi values, test the watched variable's phi
against `const_int(check as u64, false)`, conditionally branch to fresh
`loopExit` (equal) / `innerLoop` (not equal) blocks, enter the body, and
push the Loop Context. -/
def Converter.add_while (c : Converter) (v : List Char) (check : Int) :
    Except ConvErr Converter := do
  let n := c.vars.length
  let lop := c.freshB
  let innerLoop := c.freshB + 1
  let exitB := c.freshB + 2
  let phiRegs := (List.range n).map (fun i => c.freshR + i)
  let p := (c.prog.addBlock lop).setTerm c.cur (.br lop)
  let p := (List.range n).foldl
    (fun pr i =>
      pr.appendPhi lop (c.freshR + i) [((c.vars.get? i).getD (.constV 0), c.block)])
    p
  let newVars : List Operand := phiRegs.map .reg
  let pos ← c.getIdx v
  let vphi ← match newVars.get? pos with
    | some op => Except.ok op
    | none => Except.error ConvErr.badIndex
  let rCmp := c.freshR + n
  let p := p.appendInstr lop (.icmpEq rCmp vphi (.constV (toU64 check)))
  let p := (p.addBlock innerLoop).addBlock exitB
  let p := p.setTerm lop (.condBr (.reg rCmp) exitB innerLoop)
  .ok { c with
        prog := p
        vars := newVars
        phis := (phiRegs, (lop, exitB)) :: c.phis
        freshR := c.freshR + n + 1
        freshB := c.freshB + 3
        block := innerLoop
        cur := innerLoop }

/-- `Converter::add_end`: pop the Loop Context (fatal when the stack is
empty), branch back to the loop header, add the back-edge incoming values
to the header phis, move to the exit block, and make the header phis the
current frame. -/
def Converter.add_end (c : Converter) : Except ConvErr Converter := do
  match c.phis with
  | [] => .error .tooManyEnds
  | (phiRegs, (start, exitB)) :: rest =>
    let p := c.prog.setTerm c.cur (.br start)
    let p := (phiRegs.zip c.vars).foldl
      (fun pr e => pr.addPhiEdge start e.1 (e.2, c.block)) p
    .ok { c with
          prog := p
          vars := phiRegs.map .reg
          phis := rest
          block := exitB
          cur := exitB }

/-- `Converter::add_eof`: fatal when a while-loop is still open; then emit
one `printf` report per entry of `self.mapping` and a `ret`.

`self.mapping` is a Rust `HashMap`, whose iteration order is unspecified
(randomised per process); the order is therefore passed as an explicit
`order` argument, ranging over the permutations of the mapping's entries. -/
def Converter.add_eof (c : Converter) (order : List (List Char × Nat)) :
    Except ConvErr Converter := do
  match c.phis with
  | _ :: _ => .error .tooManyOpens
  | [] =>
    let p ← order.foldlM
      (fun pr e => do
        match c.vars.get? e.2 with
        | none => Except.error ConvErr.badIndex
        | some op => Except.ok (pr.appendInstr c.cur (.printfI e.1 op)))
      c.prog
    .ok { c with prog := p.setTerm c.cur .ret }

/-- `StatementImpl::compile` dispatch plus the driver loop of `main`
(main.rs): `Fluff` emits nothing, `End` → `add_end`, `EOF` → `add_eof`. -/
def Statement.compileS (order : List (List Char × Nat)) :
    Statement → Converter → Except ConvErr Converter
  | .whileS p n, c => c.add_while p n
  | .twoParam a b .copy, c => c.add_copy a b
  | .oneParam a .clear, c => c.add_clear a
  | .oneParam a .decr, c => c.add_decr a
  | .oneParam a .incr, c => c.add_incr a
  | .fluff, c => .ok c
  | .endS, c => c.add_end
  | .eofS, c => c.add_eof order

/-- Replay a statement list through the Converter in source order. -/
def replay (order : List (List Char × Nat)) :
    List Statement → Converter → Except ConvErr Converter
  | [], c => .ok c
  | s :: rest, c => do replay order rest (← s.compileS order c)

/-! ## Variable table construction (main.rs lines 41–57) -/

/-- Byte-lexicographic order on names (Rust `&str` `Ord`, ASCII case). -/
def lexLe : List Char → List Char → Bool
  | [], _ => true
  | _ :: _, [] => false
  | a :: as_, b :: bs => if a.toNat < b.toNat then true
      else if a = b then lexLe as_ bs else false

/-- Insertion sort by `lexLe` (Rust `Vec::sort` is a stable ascending
sort; on duplicate-free use the algorithm is irrelevant beyond order). -/
def insertLex (a : List Char) : List (List Char) → List (List Char)
  | [] => [a]
  | b :: rest => if lexLe a b then a :: b :: rest else b :: insertLex a rest

def sortNames : List (List Char) → List (List Char)
  | [] => []
  | a :: rest => insertLex a (sortNames rest)

/-- `Vec::dedup`: remove consecutive duplicates. -/
def dedupAdj : List (List Char) → List (List Char)
  | [] => []
  | [a] => [a]
  | a :: b :: rest => if a = b then dedupAdj (b :: rest) else a :: dedupAdj (b :: rest)

/-- `main`: collect every referenced variable from every statement, sort,
dedup — the variable table handed to `Converter::new`. -/
def varTable (ss : List Statement) : List (List Char) :=
  dedupAdj (sortNames (ss.flatMap Statement.getVariables))

/-! ## Interpreter for the generated SSA program

Values are 64-bit bit patterns (`Nat < 2 ^ 64`).  `add` wraps modulo
`2 ^ 64`; `subNuw` is `no-unsigned-wrap` subtraction — underflow is poison
in LLVM, but the generated code only ever executes it under the guard
`current ≠ 0`, so truncated subtraction is an adequate total model;
`icmpEq` yields the `i1` values 1/0; `printf` appends a `(name, value)`
report to the output.  Fuel counts basic-block entries. -/

/-- Runtime environment: bindings of register ids to values, newest
first (re-entering a loop header rebinds its phi registers). -/
abbrev Env := List (Nat × Nat)

abbrev Reports := List (List Char × Nat)

def evalOp (args : List Nat) (env : Env) : Operand → Option Nat
  | .constV n => some n
  | .reg r => env.lookup r
  | .paramV i => args.get? i

def runInstr (args : List Nat) (env : Env) (out : Reports) :
    Instr → Option (Env × Reports)
  | .add res a b => do
    let x ← evalOp args env a
    let y ← evalOp args env b
    some ((res, (x + y) % 2 ^ 64) :: env, out)
  | .subNuw res a b => do
    let x ← evalOp args env a
    let y ← evalOp args env b
    some ((res, x - y) :: env, out)
  | .icmpEq res a b => do
    let x ← evalOp args env a
    let y ← evalOp args env b
    some ((res, if x = y then 1 else 0) :: env, out)
  | .printfI nm v => do
    let x ← evalOp args env v
    some (env, out ++ [(nm, x)])

def runInstrs (args : List Nat) : Env → Reports → List Instr → Option (Env × Reports)
  | env, out, [] => some (env, out)
  | env, out, i :: rest => do
    let (env1, out1) ← runInstr args env out i
    runInstrs args env1 out1 rest

/-- Evaluate the phis of a block being entered from predecessor `prev`:
each phi takes the value of its (first) incoming edge from `prev`,
evaluated simultaneously in the environment at the jump. -/
def runPhis (args : List Nat) (env : Env) (prev : Nat) :
    List (Nat × List (Operand × Nat)) → Option Env
  | [] => some []
  | ph :: rest => do
    let e ← ph.2.find? (fun ed => ed.2 == prev)
    let v ← evalOp args env e.1
    let nb ← runPhis args env prev rest
    pure ((ph.1, v) :: nb)

/-- Result of running the (possibly still open) program. -/
inductive Outcome
  | finished (out : Reports) (tr : List Nat)
  | openEnd (cur : Nat) (env : Env) (out : Reports) (tr : List Nat)
  | stuck
  | fuelOut
  deriving Repr, DecidableEq

/-- Enter block `cur` from block `prev`: evaluate phis, run the
instructions, then follow the terminator; a block without a terminator
(still under construction) ends the run with `openEnd`.  The trace records
every block entered, in order. -/
def execF : Nat → Prog → List Nat → Nat → Nat → Env → Reports → List Nat → Outcome
  | 0, _, _, _, _, _, _, _ => .fuelOut
  | fuel + 1, p, args, prev, cur, env, out, tr =>
    match p.lookupB cur with
    | none => .stuck
    | some bd =>
      match runPhis args env prev bd.phis with
      | none => .stuck
      | some nb =>
        match runInstrs args (nb ++ env) out bd.instrs with
        | none => .stuck
        | some (env2, out2) =>
          match bd.term with
          | none => .openEnd cur env2 out2 (tr ++ [cur])
          | some .ret => .finished out2 (tr ++ [cur])
          | some (.br b) => execF fuel p args cur b env2 out2 (tr ++ [cur])
          | some (.condBr cnd bt bf) =>
            match evalOp args env2 cnd with
            | none => .stuck
            | some v =>
              execF fuel p args cur (if v = 0 then bf else bt) env2 out2 (tr ++ [cur])

/-- Execute a (possibly absent) terminator from the end of block `cur`
(the tail part of `execF`, split out so that partial builder states can be
described). -/
def execAfter (fuel : Nat) (p : Prog) (args : List Nat) (cur : Nat) :
    Option Terminator → Env → Reports → List Nat → Outcome
  | none, env, out, tr => .openEnd cur env out tr
  | some .ret, _, out, tr => .finished out tr
  | some (.br b), env, out, tr => execF fuel p args cur b env out tr
  | some (.condBr cnd bt bf), env, out, tr =>
    match evalOp args env cnd with
    | none => .stuck
    | some v => execF fuel p args cur (if v = 0 then bf else bt) env out tr

/-- One-step unfolding of `execF` through `execAfter`. -/
theorem execF_succ (fuel : Nat) (p : Prog) (args : List Nat) (prev cur : Nat)
    (env : Env) (out : Reports) (tr : List Nat) :
    execF (fuel + 1) p args prev cur env out tr =
      match p.lookupB cur with
      | none => .stuck
      | some bd =>
        match runPhis args env prev bd.phis with
        | none => .stuck
        | some nb =>
          match runInstrs args (nb ++ env) out bd.instrs with
          | none => .stuck
          | some (env2, out2) => execAfter fuel p args cur bd.term env2 out2 (tr ++ [cur]) := by
  cases hbd : p.lookupB cur with
  | none => simp [execF, hbd]
  | some bd =>
    cases hph : runPhis args env prev bd.phis with
    | none => simp [execF, hbd, hph]
    | some nb =>
      cases hin : runInstrs args (nb ++ env) out bd.instrs with
      | none => simp [execF, hbd, hph, hin]
      | some eo =>
        obtain ⟨env2, out2⟩ := eo
        cases htm : bd.term with
        | none => simp [execF, execAfter, hbd, hph, hin, htm]
        | some t =>
          cases t <;> simp [execF, execAfter, hbd, hph, hin, htm]

/-- Run the finished program from the entry block. -/
def runProg (fuel : Nat) (p : Prog) (args : List Nat) : Outcome :=
  execF fuel p args 0 0 [] [] []

/-- Resume execution from a point inside block `cur`: run the remaining
instructions `ext`, then the terminator `tm` (used to state how the
builder's appends extend an existing partial run). -/
def execRest (fuel : Nat) (p : Prog) (args : List Nat) (cur : Nat)
    (ext : List Instr) (tm : Option Terminator) (env : Env) (out : Reports)
    (tr : List Nat) : Outcome :=
  match runInstrs args env out ext with
  | none => .stuck
  | some (env2, out2) => execAfter fuel p args cur tm env2 out2 tr

/-! ## Reference semantics (spec side)

`specFold` is modelled from the specification's words (spec §8, claim C1):
"the final reported value of each variable equals the result of applying
its incr/decr/clear/copy operations in source order, with decr saturating
at zero".  Frames map variable names to values of the program's 64-bit
integer type, starting at zero; `incr` therefore adds one modulo `2 ^ 64`
(spec §1/§6: a single fixed-width integer type per variable), `decr`
saturates at zero, `clear` rebinds to zero and `copy from to` rebinds `to`
to `from`'s current value. -/

/-- A specification-level frame: the current value of every variable. -/
abbrev Frame := List Char → Nat

/-- One `incr`/`decr`/`clear`/`copy` step of the specification fold;
statements without a frame action leave the frame unchanged. -/
def specStep (s : Statement) (F : Frame) : Frame :=
  match s with
  | .oneParam v .incr => fun w => if w = v then (F v + 1) % 2 ^ 64 else F w
  | .oneParam v .decr => fun w => if w = v then F v - 1 else F w
  | .oneParam v .clear => fun w => if w = v then 0 else F w
  | .twoParam a b .copy => fun w => if w = b then F a else F w
  | _ => F

/-- The specification fold over a statement list, in source order. -/
def specFold (ss : List Statement) (F : Frame) : Frame :=
  ss.foldl (fun G s => specStep s G) F

/-- The all-zeroes initial frame. -/
def zeroFrame : Frame := fun _ => 0

/-! ## Basic facts about characters (for keyword/number classification) -/

theorem digit_toNat_range (c : Char) (h : c.isDigit) : 48 ≤ c.toNat ∧ c.toNat ≤ 57 := by
  simp only [Char.isDigit, Bool.and_eq_true, decide_eq_true_eq] at h
  obtain ⟨h1, h2⟩ := h
  have g1 : ((48 : UInt32)).toNat ≤ c.val.toNat := h1
  have g2 : c.val.toNat ≤ ((57 : UInt32)).toNat := h2
  have e1 : ((48 : UInt32)).toNat = 48 := rfl
  have e2 : ((57 : UInt32)).toNat = 57 := rfl
  simp only [Char.toNat]
  omega

theorem digit_not_alpha (c : Char) (h : c.isDigit) : c.isAlpha = false := by
  have hr := digit_toNat_range c h
  simp only [Char.toNat] at hr
  simp only [Char.isAlpha, Char.isUpper, Char.isLower]
  have h65 : ¬ ((65 : UInt32) ≤ c.val) := by
    intro hle
    have g : ((65 : UInt32)).toNat ≤ c.val.toNat := hle
    have e : ((65 : UInt32)).toNat = 65 := rfl
    omega
  have h97 : ¬ ((97 : UInt32) ≤ c.val) := by
    intro hle
    have g : ((97 : UInt32)).toNat ≤ c.val.toNat := hle
    have e : ((97 : UInt32)).toNat = 97 := rfl
    omega
  simp [h65, h97]

theorem digit_toLower (c : Char) (h : c.isDigit) : c.toLower = c := by
  have := digit_toNat_range c h
  simp [Char.toLower]
  intro h2
  omega

theorem digit_ne_sign (c : Char) (h : c.isDigit) : c ≠ '+' ∧ c ≠ '-' := by
  constructor <;> rintro rfl <;> revert h <;> decide

/-- A word of digits is unchanged by `to_lowercase`. -/
theorem lowercase_digits (w : List Char) (h : w.all (fun c => c.isDigit)) :
    lowercase w = w := by
  induction w with
  | nil => rfl
  | cons c rest ih =>
    simp only [List.all_cons, Bool.and_eq_true] at h
    simp [lowercase, digit_toLower c h.1]
    simpa [lowercase] using ih h.2

/-! ## Lookup lemmas for program construction -/

theorem lookup_cons_nat {β : Type} (k b' : Nat) (bd : β) (rest : List (Nat × β)) :
    List.lookup b' ((k, bd) :: rest) = if b' = k then some bd else List.lookup b' rest := by
  by_cases h : b' = k
  · simp [List.lookup, h]
  · simp [List.lookup, h, beq_false_of_ne h]

theorem lookupB_mapBlock (p : Prog) (b : Nat) (f : BlockData → BlockData) (b' : Nat) :
    (p.mapBlock b f).lookupB b' =
      if b' = b then (p.lookupB b').map f else p.lookupB b' := by
  obtain ⟨bs⟩ := p
  simp only [Prog.mapBlock, Prog.lookupB]
  induction bs with
  | nil => simp [List.lookup]
  | cons e rest ih =>
    obtain ⟨k, bd⟩ := e
    by_cases hk : k = b
    · subst hk
      simp only [List.map_cons, if_pos rfl, lookup_cons_nat]
      by_cases hb : b' = k <;> simp [hb, lookup_cons_nat, ih]
    · have hhead : ((fun e => if e.1 = b then (e.1, f e.2) else e) (k, bd)) = (k, bd) := by
        simp [hk]
      simp only [List.map_cons, hhead, lookup_cons_nat]
      by_cases hb : b' = k
      · subst hb; simp [hk]
      · simp [hb, ih]

theorem lookupB_addBlock (p : Prog) (b : Nat) (b' : Nat) :
    (p.addBlock b).lookupB b' =
      match p.lookupB b' with
      | some bd => some bd
      | none => if b' = b then some ⟨[], [], none⟩ else none := by
  obtain ⟨bs⟩ := p
  simp only [Prog.addBlock, Prog.lookupB]
  induction bs with
  | nil =>
    by_cases hb : b' = b
    · subst hb; simp [List.lookup]
    · have : (b' == b) = false := beq_false_of_ne hb
      simp [List.lookup, this, hb]
  | cons e rest ih =>
    obtain ⟨k, bd⟩ := e
    by_cases hb : b' = k
    · subst hb; simp [List.lookup]
    · have : (b' == k) = false := beq_false_of_ne hb
      simp only [List.cons_append, List.lookup, this]
      exact ih

theorem lookupB_appendInstr (p : Prog) (b : Nat) (i : Instr) (b' : Nat) :
    (p.appendInstr b i).lookupB b' =
      if b' = b then (p.lookupB b').map (fun bd => { bd with instrs := bd.instrs ++ [i] })
      else p.lookupB b' :=
  lookupB_mapBlock ..

theorem lookupB_setTerm (p : Prog) (b : Nat) (t : Terminator) (b' : Nat) :
    (p.setTerm b t).lookupB b' =
      if b' = b then (p.lookupB b').map (fun bd => { bd with term := some t })
      else p.lookupB b' :=
  lookupB_mapBlock ..

theorem lookupB_appendPhi (p : Prog) (b : Nat) (rf : Nat) (edges : List (Operand × Nat)) (b' : Nat) :
    (p.appendPhi b rf edges).lookupB b' =
      if b' = b then (p.lookupB b').map (fun bd => { bd with phis := bd.phis ++ [(rf, edges)] })
      else p.lookupB b' :=
  lookupB_mapBlock ..

theorem lookupB_addPhiEdge (p : Prog) (b : Nat) (rf : Nat) (edge : Operand × Nat) (b' : Nat) :
    (p.addPhiEdge b rf edge).lookupB b' =
      if b' = b then (p.lookupB b').map (fun bd =>
        { bd with phis := bd.phis.map (fun ph => if ph.1 = rf then (ph.1, ph.2 ++ [edge]) else ph) })
      else p.lookupB b' :=
  lookupB_mapBlock ..

theorem lookupB_foldl_appendPhi (b : Nat) (f : Nat → Nat) (g : Nat → List (Operand × Nat)) :
    ∀ (idxs : List Nat) (p : Prog) (b' : Nat),
    ((idxs.foldl (fun pr i => pr.appendPhi b (f i) (g i)) p).lookupB b') =
      if b' = b then
        (p.lookupB b').map (fun bd => { bd with phis := bd.phis ++ idxs.map (fun i => (f i, g i)) })
      else p.lookupB b' := by
  intro idxs
  induction idxs with
  | nil =>
    intro p b'
    by_cases hb : b' = b
    · subst hb
      simp only [List.foldl_nil, if_pos rfl, List.map_nil, List.append_nil]
      cases p.lookupB b' <;> simp
    · simp [hb]
  | cons i rest ih =>
    intro p b'
    simp only [List.foldl_cons, ih, lookupB_appendPhi, List.map_cons]
    by_cases hb : b' = b
    · subst hb
      simp only [if_pos rfl]
      cases p.lookupB b' <;> simp
    · simp [hb]

theorem lookupB_foldl_appendInstr (b : Nat) :
    ∀ (l : List Instr) (p : Prog) (b' : Nat),
    ((l.foldl (fun pr i => pr.appendInstr b i) p).lookupB b') =
      if b' = b then (p.lookupB b').map (fun bd => { bd with instrs := bd.instrs ++ l })
      else p.lookupB b' := by
  intro l
  induction l with
  | nil =>
    intro p b'
    by_cases hb : b' = b
    · subst hb
      simp only [List.foldl_nil, if_pos rfl, List.append_nil]
      cases p.lookupB b' <;> simp
    · simp [hb]
  | cons i rest ih =>
    intro p b'
    simp only [List.foldl_cons, ih, lookupB_appendInstr]
    by_cases hb : b' = b
    · subst hb
      simp only [if_pos rfl]
      cases p.lookupB b' <;> simp
    · simp [hb]

/-! ## Fixture converters for concrete witnesses -/

/-- A converter state over one variable `x`, as produced by
`Converter::new(["x"], [])`. -/
def convFixture : Converter :=
  { prog := ⟨[(0, ⟨[], [], none⟩)]⟩
    vars := [.constV 0]
    phis := []
    mapping := [(['x'], 0)]
    freshR := 0
    freshB := 1
    block := 0
    cur := 0 }

/-- A converter state with one open loop (for exercising `add_end`). -/
def convFixtureLoop : Converter :=
  { convFixture with phis := [([0], (1, 3))] }

/-! ## Claim C7: `add_end` (processing an `end` statement) -/

/-- **C7.** `Converter::add_end` fails fatally the moment the `end` is
processed whenever the Loop Context stack (`self.phis`) is empty — the
whole replay aborts there, regardless of what statements (including the
final EOF) would follow — and otherwise it succeeds and pops exactly one
Loop Context. -/
theorem add_end_unmatched_or_pops (c : Converter) :
    (c.phis = [] →
      ∀ (order : List (List Char × Nat)) (rest : List Statement),
        replay order (Statement.endS :: rest) c = .error ConvErr.tooManyEnds) ∧
    (∀ top stack, c.phis = top :: stack →
      ∃ c', c.add_end = .ok c' ∧ c'.phis = stack) := by
  constructor
  · intro hempty order rest
    simp [replay, Statement.compileS, Converter.add_end, hempty, Bind.bind, Except.bind]
  · rintro ⟨phiRegs, start, exitB⟩ stack htop
    simp only [Converter.add_end, htop]
    exact ⟨_, rfl, rfl⟩

/-- Witness for C7 at concrete converter states: an `end` with an empty
Loop Context stack aborts immediately (even with an EOF still pending),
and with one open loop it pops exactly that one. -/
theorem add_end_unmatched_or_pops_witness :
    (replay [(['x'], 0)] [Statement.endS, Statement.eofS] convFixture =
      .error ConvErr.tooManyEnds) ∧
    (∃ c', convFixtureLoop.add_end = .ok c' ∧ c'.phis = []) :=
  ⟨(add_end_unmatched_or_pops convFixture).1 rfl [(['x'], 0)] [Statement.eofS],
   (add_end_unmatched_or_pops convFixtureLoop).2 ([0], (1, 3)) [] rfl⟩

/-! ## Claim C9: the frame-length invariant -/

/-- The frame-length well-formedness of spec §3: the current frame has
exactly `n` values (one per variable), and so does every frame of header
phis recorded in the Loop Context stack (those become the current frame at
`add_end`). -/
def Converter.framesOK (c : Converter) (n : Nat) : Prop :=
  c.vars.length = n ∧ ∀ e ∈ c.phis, e.1.length = n

/-- **C9.** Every Code Generator operation (dispatched from a statement:
`add_incr`, `add_decr`, `add_clear`, `add_copy`, `add_while`, `add_end`,
and also `add_eof`) preserves the frame-length invariant: a frame of
length `n` stays of length exactly `n`, including the freshly constructed
frames built from loop-header phi nodes. -/
theorem frame_length_invariant (order : List (List Char × Nat)) (s : Statement)
    (c c' : Converter) (n : Nat)
    (hwf : c.framesOK n) (h : s.compileS order c = .ok c') : c'.framesOK n := by
  obtain ⟨hlen, hstack⟩ := hwf
  cases s with
  | whileS v k =>
    simp only [Statement.compileS, Converter.add_while, bind, Except.bind] at h
    split at h
    · simp at h
    · split at h
      · simp only [Except.ok.injEq] at h
        subst h
        refine ⟨by simp [hlen], ?_⟩
        intro e he
        simp only [List.mem_cons] at he
        rcases he with he | he
        · subst he; simp [hlen]
        · exact hstack e he
      · simp at h
  | twoParam a b ty =>
    cases ty
    simp only [Statement.compileS, Converter.add_copy, bind, Except.bind] at h
    split at h
    · simp at h
    · split at h
      · simp at h
      · split at h
        · simp at h
        · simp only [Except.ok.injEq] at h
          subst h
          exact ⟨by simp [hlen], hstack⟩
  | oneParam a ty =>
    cases ty <;>
      simp only [Statement.compileS, Converter.add_clear, Converter.add_decr,
        Converter.add_incr, bind, Except.bind] at h <;>
      (split at h
       · simp at h
       · split at h
         · simp at h
         · simp only [Except.ok.injEq] at h
           subst h
           exact ⟨by simp [hlen], hstack⟩)
  | fluff =>
    simp only [Statement.compileS, Except.ok.injEq] at h
    subst h
    exact ⟨hlen, hstack⟩
  | endS =>
    simp only [Statement.compileS, Converter.add_end] at h
    split at h
    · simp at h
    · rename_i phiRegs start exitB stack hp
      simp only [Except.ok.injEq] at h
      subst h
      have htop : phiRegs.length = n := hstack (phiRegs, start, exitB) (by simp [hp])
      refine ⟨by simp [htop], ?_⟩
      intro e he
      exact hstack e (by simp [hp, he])
  | eofS =>
    simp only [Statement.compileS, Converter.add_eof] at h
    split at h
    · simp at h
    · rename_i hp
      simp only [bind, Except.bind] at h
      split at h
      · simp at h
      · rename_i p hf
        simp only [Except.ok.injEq] at h
        subst h
        exact ⟨hlen, by simp [hp]⟩

/-! ## Claim C3: what `add_eof` emits -/

/-- The report (`printf`) instructions `add_eof` emits for a given
iteration order of the mapping. -/
def reportInstrs (vars : List Operand) (order : List (List Char × Nat)) : List Instr :=
  order.map (fun e => .printfI e.1 ((vars.get? e.2).getD (.constV 0)))

/-- The variable names reported by a list of instructions. -/
def reportNames (l : List Instr) : List (List Char) :=
  l.filterMap (fun i => match i with | .printfI nm _ => some nm | _ => none)

theorem add_eof_fold (cur : Nat) (vars : List Operand) :
    ∀ (order : List (List Char × Nat)) (p : Prog),
    (∀ e ∈ order, e.2 < vars.length) →
    List.foldlM (fun pr e =>
        match vars.get? e.2 with
        | none => Except.error ConvErr.badIndex
        | some op => Except.ok (pr.appendInstr cur (Instr.printfI e.1 op))) p order =
      .ok ((reportInstrs vars order).foldl (fun pr i => pr.appendInstr cur i) p) := by
  intro order
  induction order with
  | nil => intro p _; rfl
  | cons e rest ih =>
    intro p hbnd
    have hlt : e.2 < vars.length := hbnd e (by simp)
    obtain ⟨op, hop⟩ : ∃ op, vars.get? e.2 = some op := by
      cases hg : vars.get? e.2 with
      | none => exact absurd (List.get?_eq_none.mp hg) (by omega)
      | some op => exact ⟨op, rfl⟩
    have hop2 : vars[e.2]? = some op := by rw [List.get?_eq_getElem?] at hop; exact hop
    simp only [List.foldlM_cons, hop, bind, Except.bind]
    rw [ih _ (fun x hx => hbnd x (by simp [hx]))]
    simp [reportInstrs, hop, hop2]

/-- **C3 (amended).** `add_eof` emits exactly one `(name, value)` report
per entry of the given iteration order — the report list is exactly
`order` mapped over name and current SSA value — followed by the `ret`;
when `order` is a permutation of `self.mapping` (every `HashMap` iteration
order is), the reported names are a permutation of the variable table, so
every variable is reported exactly once, but in the `HashMap`'s arbitrary
iteration order, not necessarily table order. -/
theorem add_eof_one_report_per_variable (c : Converter)
    (order : List (List Char × Nat)) (bd : BlockData)
    (hphis : c.phis = [])
    (hbnd : ∀ e ∈ order, e.2 < c.vars.length)
    (hbd : c.prog.lookupB c.cur = some bd) :
    ∃ c', c.add_eof order = .ok c' ∧
      c'.prog.lookupB c.cur =
        some ⟨bd.phis, bd.instrs ++ reportInstrs c.vars order, some Terminator.ret⟩ ∧
      reportNames (reportInstrs c.vars order) = order.map Prod.fst ∧
      (order.Perm c.mapping →
        (reportNames (reportInstrs c.vars order)).Perm (c.mapping.map Prod.fst)) := by
  have hnames : ∀ (o : List (List Char × Nat)),
      reportNames (reportInstrs c.vars o) = o.map Prod.fst := by
    intro o
    induction o with
    | nil => rfl
    | cons a rest ih =>
      simpa [reportNames, reportInstrs, List.filterMap_cons] using ih
  refine ⟨{ c with prog := ((reportInstrs c.vars order).foldl
      (fun pr i => pr.appendInstr c.cur i) c.prog).setTerm c.cur .ret },
    ?_, ?_, hnames order, ?_⟩
  · simp only [Converter.add_eof, hphis, bind, Except.bind]
    rw [add_eof_fold c.cur c.vars order c.prog hbnd]
  · rw [lookupB_setTerm, if_pos rfl, lookupB_foldl_appendInstr, if_pos rfl, hbd]
    rfl
  · intro hperm
    rw [hnames order]
    exact hperm.map Prod.fst

/-- Witness for C3 (amended) on a two-variable fixture with reversed
iteration order. -/
def convFixture2 : Converter :=
  { prog := ⟨[(0, ⟨[], [], none⟩)]⟩
    vars := [.constV 0, .constV 0]
    phis := []
    mapping := [(['x'], 0), (['y'], 1)]
    freshR := 0
    freshB := 1
    block := 0
    cur := 0 }

theorem add_eof_one_report_per_variable_witness :
    ∃ c', convFixture2.add_eof [(['y'], 1), (['x'], 0)] = .ok c' ∧
      c'.prog.lookupB 0 =
        some ⟨[], [.printfI ['y'] (.constV 0), .printfI ['x'] (.constV 0)], some Terminator.ret⟩ ∧
      reportNames (reportInstrs convFixture2.vars [(['y'], 1), (['x'], 0)]) =
        [['y'], ['x']] ∧
      ([(['y'], 1), (['x'], 0)].Perm convFixture2.mapping →
        (reportNames (reportInstrs convFixture2.vars [(['y'], 1), (['x'], 0)])).Perm
          (convFixture2.mapping.map Prod.fst)) :=
  add_eof_one_report_per_variable convFixture2 [(['y'], 1), (['x'], 0)]
    ⟨[], [], none⟩ rfl (by decide) rfl

/-- The program for the C3 counterexample: `clear x; clear y; eof` over
the table `[x, y]`. -/
def ssXY : List Statement :=
  [.oneParam ['x'] .clear, .oneParam ['y'] .clear, .eofS]

/-- The reversed (admissible) HashMap iteration order for `ssXY`. -/
def ordRev : List (List Char × Nat) := [(['y'], 1), (['x'], 0)]

/-- The finished converter for the C3 counterexample. -/
def convXYfin : Converter :=
  (((Converter.new (varTable ssXY) []).bind (replay ordRev ssXY))).toOption.getD convFixture

/-- **C3 (counterexample).** With the (admissible) reversed HashMap
iteration order, the generated program of `clear x; clear y` reports `y`
before `x`, which is not the variable table order `[x, y]`: the claim that
reports are always emitted in table order is false. -/
theorem add_eof_table_order_counterexample :
    varTable ssXY = [['x'], ['y']] ∧
    ordRev.Perm [(['x'], 0), (['y'], 1)] ∧
    runProg 10 convXYfin.prog [] = .finished [(['y'], 0), (['x'], 0)] [0] ∧
    [(['y'], 0), (['x'], 0)].map Prod.fst ≠ varTable ssXY := by
  refine ⟨by decide, by decide, ?_, by decide⟩
  decide

/-! ## Claim C5: number literals and the while-loop bound constant -/

/-- Keywords never match a word of digits (and a digit word is no
identifier match either): lowercasing leaves digits unchanged and every
keyword contains letters. -/
theorem digits_not_keyword (w : List Char) (hne : w ≠ [])
    (hd : w.all (fun c => c.isDigit)) :
    TwoParam.identify w = false ∧ OneParam.identify w = false ∧
    While.identify w = false ∧ Fluff.identify w = false ∧
    End.identify w = false ∧ Identifier.identify w = false := by
  have hlw := lowercase_digits w hd
  have hkw : ∀ k : List Char, (∃ kc ∈ k, ¬kc.isDigit) → (k == lowercase w) = false := by
    intro k ⟨kc, hkmem, hkc⟩
    rw [hlw, beq_eq_false_iff_ne]
    intro heq
    subst heq
    exact hkc (by simpa using List.all_eq_true.mp hd kc hkmem)
  refine ⟨?_, ?_, ?_, ?_, ?_, ?_⟩
  · simp only [TwoParam.identify, statementMatch, List.any_cons, List.any_nil,
      Bool.or_false]
    exact hkw _ ⟨'c', by decide, by decide⟩
  · simp only [OneParam.identify, statementMatch, List.any_cons, List.any_nil,
      Bool.or_false, Bool.or_eq_false_iff]
    exact ⟨hkw _ ⟨'c', by decide, by decide⟩, hkw _ ⟨'d', by decide, by decide⟩,
      hkw _ ⟨'i', by decide, by decide⟩⟩
  · simp only [While.identify, hlw, beq_eq_false_iff_ne]
    intro heq
    subst heq
    exact absurd hd (by decide)
  · simp only [Fluff.identify, statementMatch, List.any_cons, List.any_nil,
      Bool.or_false, Bool.or_eq_false_iff]
    exact ⟨hkw _ ⟨'d', by decide, by decide⟩, hkw _ ⟨'n', by decide, by decide⟩,
      hkw _ ⟨'t', by decide, by decide⟩⟩
  · simp only [End.identify, statementMatch, List.any_cons, List.any_nil,
      Bool.or_false]
    exact hkw _ ⟨'e', by decide, by decide⟩
  · simp only [Identifier.identify]
    rw [List.any_eq_false]
    intro cch hcc
    simp only [Bool.not_eq_true]
    exact digit_not_alpha cch (List.all_eq_true.mp hd cch hcc)

/-- A word of digits parses (as `i128`) to its decimal value whenever that
value is within the 128-bit signed range. -/
theorem parseI128_digits (w : List Char) (hne : w ≠ [])
    (hd : w.all (fun c => c.isDigit))
    (hrange : digitsToNat w 0 ≤ 2 ^ 127 - 1) :
    parseI128 w = some (digitsToNat w 0) := by
  obtain ⟨c, rest, rfl⟩ : ∃ c rest, w = c :: rest := by
    cases w with
    | nil => exact absurd rfl hne
    | cons c rest => exact ⟨c, rest, rfl⟩
  have hc : c.isDigit := by
    have := List.all_eq_true.mp hd c (by simp)
    simpa using this
  obtain ⟨hplus, hminus⟩ := digit_ne_sign c hc
  simp only [parseI128, if_neg hplus, if_neg hminus]
  simp only [hd, if_neg (by simp : ¬(c :: rest = [])), if_pos]
  have hpos : (0 : Int) ≤ (digitsToNat (c :: rest) 0 : Int) := Int.ofNat_nonneg _
  have hle : (digitsToNat (c :: rest) 0 : Int) ≤ 2 ^ 127 - 1 := by
    calc (digitsToNat (c :: rest) 0 : Int) ≤ ((2 ^ 127 - 1 : Nat) : Int) := by
          exact_mod_cast hrange
      _ = 2 ^ 127 - 1 := by norm_num
  have hcond : -(2 ^ 127 : Int) ≤ 1 * (digitsToNat (c :: rest) 0 : Int) ∧
      1 * (digitsToNat (c :: rest) 0 : Int) ≤ 2 ^ 127 - 1 := by
    constructor
    · omega
    · simpa using hle
  rw [if_pos hcond]
  simp

/-- **C5 (amended).** (1) Every nonempty word of decimal digits whose value
fits in a signed 128-bit integer is lexed as a `Number` carrying its full
value (out-of-range literals make the `unwrap` of `i128::from_str` panic
instead); (2) when a literal is the bound of a `while` loop, the equality
test emitted in the loop header compares the variable's header phi against
the constant `check as u64`, i.e. the literal reduced modulo `2 ^ 64` —
which equals the literal itself exactly when the literal fits in 64 bits
(3). -/
theorem number_literal_and_while_bound :
    (∀ (gnf : List Char → Except LexError (Token × List Char)) (w rest : List Char),
      w ≠ [] → w.all (fun c => c.isDigit) → digitsToNat w 0 ≤ 2 ^ 127 - 1 →
      classifyT gnf w rest = .ok (.number (digitsToNat w 0), rest)) ∧
    (∀ (c : Converter) (v : List Char) (check : Int) (c' : Converter),
      c.add_while v check = .ok c' →
      c.prog.lookupB c.freshB = none →
      c.cur ≠ c.freshB →
      ∃ phis0 pos,
        lookupName c.mapping v = some pos ∧
        c'.prog.lookupB c.freshB = some
          ⟨phis0,
           [.icmpEq (c.freshR + c.vars.length) (.reg (c.freshR + pos))
             (.constV (toU64 check))],
           some (.condBr (.reg (c.freshR + c.vars.length)) (c.freshB + 2) (c.freshB + 1))⟩) ∧
    (∀ z : Int, 0 ≤ z → z < 2 ^ 64 → (toU64 z : Int) = z) := by
  refine ⟨?_, ?_, ?_⟩
  · intro gnf w rest hne hd hrange
    obtain ⟨h2p, h1p, hwh, hfl, hen, hid⟩ := digits_not_keyword w hne hd
    have hnum : Number.identify w = true := by
      obtain ⟨c, rest', rfl⟩ : ∃ c rest', w = c :: rest' := by
        cases w with
        | nil => exact absurd rfl hne
        | cons c r => exact ⟨c, r, rfl⟩
      have hc : c.isDigit := by
        have := List.all_eq_true.mp hd c (by simp)
        simpa using this
      simp [Number.identify, hc]
    simp only [classifyT, h2p, h1p, hwh, hfl, hen, hid, hnum, Bool.false_eq_true,
      if_false, if_true, parseI128_digits w hne hd hrange]
    rfl
  · intro c v check c' hok hfresh hcur
    simp only [Converter.add_while, bind, Except.bind] at hok
    split at hok
    · simp at hok
    · rename_i pos hpos
      split at hok
      · rename_i op hget
        simp only [Except.ok.injEq] at hok
        subst hok
        refine ⟨(List.range c.vars.length).map
          (fun i => (c.freshR + i, [((c.vars.get? i).getD (Operand.constV 0), c.block)])),
          pos, ?_, ?_⟩
        · simp only [Converter.getIdx] at hpos
          cases hln : lookupName c.mapping v with
          | none => rw [hln] at hpos; simp at hpos
          | some i =>
            rw [hln] at hpos
            simp only [Except.ok.injEq] at hpos
            exact congrArg some hpos
        · have hplt : pos < c.vars.length := by
            by_contra hge
            rw [List.get?_eq_none.mpr (by simp; omega)] at hget
            exact Option.noConfusion hget
          have hop : op = .reg (c.freshR + pos) := by
            rw [List.get?_map, List.get?_map, List.get?_range hplt] at hget
            simpa using hget.symm
          subst hop
          rw [lookupB_setTerm, if_pos rfl, lookupB_addBlock, lookupB_addBlock,
            lookupB_appendInstr, if_pos rfl, lookupB_foldl_appendPhi, if_pos rfl,
            lookupB_setTerm, if_neg (by omega), lookupB_addBlock, hfresh, if_pos rfl]
          rfl
      · simp at hok
  · intro z h0 hlt
    simp only [toU64]
    omega

/-- Witness for C5 (amended): `"123"` lexes to `Number 123`, and a
one-variable `while x 7` emits a comparison against the constant 7. -/
theorem number_literal_and_while_bound_witness :
    (classifyT (fun s => .ok (.eof, s)) ['1', '2', '3'] [] =
      .ok (.number 123, [])) ∧
    (∃ phis0 pos,
      lookupName convFixture.mapping ['x'] = some pos ∧
      ((convFixture.add_while ['x'] 7).toOption.getD convFixture).prog.lookupB 1 = some
        ⟨phis0,
         [.icmpEq (0 + 1) (.reg (0 + pos)) (.constV (toU64 7))],
         some (.condBr (.reg (0 + 1)) (1 + 2) (1 + 1))⟩) ∧
    (toU64 7 : Int) = 7 :=
  ⟨number_literal_and_while_bound.1 (fun s => .ok (.eof, s)) ['1', '2', '3'] []
      (by decide) (by decide) (by decide),
   number_literal_and_while_bound.2.1 convFixture ['x'] 7
      ((convFixture.add_while ['x'] 7).toOption.getD convFixture) rfl rfl (by decide),
   number_literal_and_while_bound.2.2 7 (by norm_num) (by norm_num)⟩

/-- The converter after `while x (2 ^ 64 + 5)` on one variable. -/
def convXW : Converter :=
  ((Converter.new [['x']] []).bind
    (fun c => c.add_while ['x'] (2 ^ 64 + 5))).toOption.getD convFixture

/-- **C5 (counterexample).** For the while bound `2 ^ 64 + 5` the emitted
header comparison constant is `5` — `check as u64` truncates — so the
generated test does *not* compare against the literal's full value. -/
theorem while_bound_truncation_counterexample :
    convXW.prog.lookupB 1 =
      some ⟨[(0, [(.constV 0, 0)])],
            [.icmpEq 1 (.reg 0) (.constV 5)],
            some (.condBr (.reg 1) 3 2)⟩ ∧
    toU64 (2 ^ 64 + 5) = 5 ∧
    ((5 : Int) ≠ 2 ^ 64 + 5) := by
  refine ⟨?_, ?_, by norm_num⟩
  · rfl
  · rfl

/-- The program for the C2 counterexample: `while x (2 ^ 64); end; eof`. -/
def ssC2 : List Statement := [.whileS ['x'] (2 ^ 64), .endS, .eofS]

/-- The finished converter for the C2 counterexample. -/
def convC2 : Converter :=
  ((Converter.new (varTable ssC2) []).bind
    (replay [(['x'], 0)] ssC2)).toOption.getD convFixture

/-- **C2 (counterexample).** For the loop `while x (2 ^ 64)` the generated
program's header does not test equality with the literal bound: on entry
`x = 0 ≠ 2 ^ 64`, so by the claim the body should run (and the loop could
never stop, as `x` never equals `2 ^ 64`); instead the generated program
immediately branches to the exit — the body block 2 is never entered, the
run finishes, and `x` is reported as `0` — because the emitted test
compares against `2 ^ 64` truncated to 64 bits, which is `0`. -/
theorem while_literal_bound_counterexample :
    runProg 10 convC2.prog [] = .finished [(['x'], 0)] [0, 1, 3] ∧
    zeroFrame ['x'] = 0 ∧
    ((0 : Int) ≠ 2 ^ 64) ∧
    (2 ∉ [0, 1, 3]) ∧
    toU64 (2 ^ 64) = 0 := by
  refine ⟨?_, rfl, by norm_num, by decide, by norm_num [toU64]⟩
  rfl

/-! ## Claim C4: keyword case-insensitivity -/

/-- **C4.** Keyword *recognition* is case-insensitive (`identify`
lowercases the word), but the operand-collecting lexer then calls
`TwoParamType::from_str` / `OneParamType::from_str` on the **raw** word and
`unwrap`s the result, and those only accept the exact lowercase spellings:
any non-lowercase spelling of `copy`/`clear`/`decr`/`incr` therefore
panics instead of producing the same token as the lowercase spelling,
while `while`/`do`/`not`/`to`/`end` (which have no `from_str`) are handled
fully case-insensitively. -/
theorem keyword_case_bug :
    getTokenF 30 (String.toList "incr x\n") = .ok (.oneParam ['x'] .incr, []) ∧
    getTokenF 30 (String.toList "INCR x\n") =
      .error (.fromStrFail ['I', 'N', 'C', 'R']) ∧
    getTokenF 30 (String.toList "copy a to b\n") =
      .ok (.twoParam ['a'] ['b'] .copy, []) ∧
    getTokenF 30 (String.toList "Copy a to b\n") =
      .error (.fromStrFail ['C', 'o', 'p', 'y']) ∧
    getTokenF 30 (String.toList "WHILE x 5\n") = .ok (.whileT ['x'] 5, []) ∧
    getTokenF 30 (String.toList "END\n") = .ok (.endT, []) ∧
    getTokenF 30 (String.toList "DO\n") = .ok (.fluff, []) ∧
    OneParam.identify (String.toList "INCR") = true ∧
    OneParamType.fromStr (String.toList "INCR") = none :=
  ⟨rfl, rfl, rfl, rfl, rfl, rfl, rfl, rfl, rfl⟩

/-! ## Claim C6: missing/wrong operands are fatal -/

/-- A word recognized as a one-param keyword is not recognized as the
two-param keyword (the cascade reaches the one-param branch). -/
theorem oneParam_not_twoParam (w : List Char) (h : OneParam.identify w = true) :
    TwoParam.identify w = false := by
  simp only [OneParam.identify, statementMatch, List.any_cons, List.any_nil,
    Bool.or_false, Bool.or_eq_true, beq_iff_eq] at h
  simp only [TwoParam.identify, statementMatch, List.any_cons, List.any_nil,
    Bool.or_false, beq_eq_false_iff_ne]
  rcases h with h | h | h <;> rw [← h] <;> decide

/-- A word recognized as `while` is recognized by neither parameterised
keyword matcher. -/
theorem while_not_param (w : List Char) (h : While.identify w = true) :
    TwoParam.identify w = false ∧ OneParam.identify w = false := by
  simp only [While.identify, beq_iff_eq] at h
  constructor
  · simp only [TwoParam.identify, statementMatch, List.any_cons, List.any_nil,
      Bool.or_false, beq_eq_false_iff_ne]
    rw [h]; decide
  · simp only [OneParam.identify, statementMatch, List.any_cons, List.any_nil,
      Bool.or_false, Bool.or_eq_false_iff, beq_eq_false_iff_ne]
    rw [h]; refine ⟨by decide, by decide, by decide⟩

/-- **C6.** When a keyword's required operand is missing or of the wrong
token kind, lexing fails fatally with the `incorrect!` diagnostic carrying
the offending keyword, the expected operand kind, and the token actually
found; no default operand is substituted and no recovery happens.  The
cases: a one-param keyword whose operand is not an identifier; the
two-param keyword whose first or second operand is not an identifier; and
`while` whose first operand is not an identifier or whose second operand
is not a number (in particular, `while x` with no following number fails
with the keyword `while`, expected kind `number`, and the `EOF` actually
found). -/
theorem missing_operand_fatal :
    (∀ (fuel : Nat) (input w rest r1 : List Char) (tok : Token),
      getWord input = (some w, rest) →
      OneParam.identify w = true →
      getNotFluff fuel rest = .ok (tok, r1) →
      (∀ nm, tok ≠ .identifier nm) →
      getTokenF (fuel + 1) input =
        .error (.incorrect w (String.toList "identifier") tok)) ∧
    (∀ (fuel : Nat) (input w rest r1 : List Char) (tok : Token),
      getWord input = (some w, rest) →
      TwoParam.identify w = true →
      getNotFluff fuel rest = .ok (tok, r1) →
      (∀ nm, tok ≠ .identifier nm) →
      getTokenF (fuel + 1) input =
        .error (.incorrect w (String.toList "identifier") tok)) ∧
    (∀ (fuel : Nat) (input w rest one r1 r2 : List Char) (tok2 : Token),
      getWord input = (some w, rest) →
      TwoParam.identify w = true →
      getNotFluff fuel rest = .ok (.identifier one, r1) →
      getNotFluff fuel r1 = .ok (tok2, r2) →
      (∀ nm, tok2 ≠ .identifier nm) →
      getTokenF (fuel + 1) input =
        .error (.incorrect w (String.toList "identifier") tok2)) ∧
    (∀ (fuel : Nat) (input w rest r1 : List Char) (tok : Token),
      getWord input = (some w, rest) →
      While.identify w = true →
      getNotFluff fuel rest = .ok (tok, r1) →
      (∀ nm, tok ≠ .identifier nm) →
      getTokenF (fuel + 1) input =
        .error (.incorrect w (String.toList "identifier") tok)) ∧
    (∀ (fuel : Nat) (input w rest one r1 r2 : List Char) (tok2 : Token),
      getWord input = (some w, rest) →
      While.identify w = true →
      getNotFluff fuel rest = .ok (.identifier one, r1) →
      getNotFluff fuel r1 = .ok (tok2, r2) →
      (∀ n : Int, tok2 ≠ .number n) →
      getTokenF (fuel + 1) input =
        .error (.incorrect w (String.toList "number") tok2)) := by
  refine ⟨?_, ?_, ?_, ?_, ?_⟩
  · intro fuel input w rest r1 tok hword hop hnf hnotid
    have h2p := oneParam_not_twoParam w hop
    simp only [getTokenF, lexF, hword, classifyT, h2p, hop, Bool.false_eq_true,
      if_false, if_true]
    simp only [getNotFluff] at hnf
    rw [hnf]
    cases tok <;> first
      | rfl
      | (rename_i nm; exact absurd rfl (hnotid nm))
      | (rename_i a b; exact absurd rfl (hnotid a))
  · intro fuel input w rest r1 tok hword h2p hnf hnotid
    simp only [getTokenF, lexF, hword, classifyT, h2p, if_true]
    simp only [getNotFluff] at hnf
    rw [hnf]
    cases tok <;> first
      | rfl
      | (rename_i nm; exact absurd rfl (hnotid nm))
      | (rename_i a b; exact absurd rfl (hnotid a))
  · intro fuel input w rest one r1 r2 tok2 hword h2p hnf1 hnf2 hnotid
    simp only [getTokenF, lexF, hword, classifyT, h2p, if_true]
    simp only [getNotFluff] at hnf1 hnf2
    simp only [hnf1]
    rw [hnf2]
    cases tok2 <;> first
      | rfl
      | (rename_i nm; exact absurd rfl (hnotid nm))
      | (rename_i a b; exact absurd rfl (hnotid a))
  · intro fuel input w rest r1 tok hword hwh hnf hnotid
    obtain ⟨h2p, h1p⟩ := while_not_param w hwh
    simp only [getTokenF, lexF, hword, classifyT, h2p, h1p, hwh, Bool.false_eq_true,
      if_false, if_true]
    simp only [getNotFluff] at hnf
    rw [hnf]
    cases tok <;> first
      | rfl
      | (rename_i nm; exact absurd rfl (hnotid nm))
      | (rename_i a b; exact absurd rfl (hnotid a))
  · intro fuel input w rest one r1 r2 tok2 hword hwh hnf1 hnf2 hnotnum
    obtain ⟨h2p, h1p⟩ := while_not_param w hwh
    simp only [getTokenF, lexF, hword, classifyT, h2p, h1p, hwh, Bool.false_eq_true,
      if_false, if_true]
    simp only [getNotFluff] at hnf1 hnf2
    simp only [hnf1]
    rw [hnf2]
    cases tok2 <;> first
      | rfl
      | (rename_i n; exact absurd rfl (hnotnum n))

/-- Witness for C6: the spec's scenario `while x` with no following number
(here with a trailing newline so the operand word is lexed) fails with the
keyword `while`, the expected kind `number`, and the `EOF` actually
found. -/
theorem missing_operand_fatal_witness :
    getTokenF 11 (String.toList "while x\n") =
      .error (.incorrect (String.toList "while") (String.toList "number") .eof) :=
  missing_operand_fatal.2.2.2.2 10 (String.toList "while x\n")
    (String.toList "while") (String.toList "x\n") ['x'] [] [] .eof
    rfl rfl rfl rfl (fun n => by simp)

/-! ## Claim C8: classification precedence and its fallback -/

/-- **C8 (counterexample).** The word `1x` is not a letter followed by
word characters, yet (because `Regex::is_match` searches unanchored) it is
lexed as `Identifier("1x")` rather than yielding EOF. -/
theorem word_classification_counterexample :
    getTokenF 5 (String.toList "1x ") = .ok (.identifier ['1', 'x'], []) ∧
    ('1').isAlpha = false ∧
    Token.identifier ['1', 'x'] ≠ Token.eof :=
  ⟨rfl, rfl, by simp⟩

/-- **C8 (amended).** For a word matching no keyword the cascade is: it is
lexed as an `Identifier` iff it contains an ASCII letter anywhere (the
`[a-zA-Z]\w*` search is unanchored); otherwise as a `Number` iff it
contains a digit anywhere — fatally panicking when the full word fails to
parse as an `i128` — and it yields EOF iff it contains neither letter nor
digit. -/
theorem word_classification_amended
    (gnf : List Char → Except LexError (Token × List Char)) (w rest : List Char)
    (h2p : TwoParam.identify w = false) (h1p : OneParam.identify w = false)
    (hwh : While.identify w = false) (hfl : Fluff.identify w = false)
    (hen : End.identify w = false) :
    (w.any (fun c => c.isAlpha) = true →
      classifyT gnf w rest = .ok (.identifier w, rest)) ∧
    (w.any (fun c => c.isAlpha) = false → w.any (fun c => c.isDigit) = true →
      classifyT gnf w rest =
        (match parseI128 w with
         | some v => .ok (.number v, rest)
         | none => .error (.numberFail w))) ∧
    (w.any (fun c => c.isAlpha) = false → w.any (fun c => c.isDigit) = false →
      classifyT gnf w rest = .ok (.eof, rest)) := by
  refine ⟨?_, ?_, ?_⟩
  · intro hal
    simp only [classifyT, h2p, h1p, hwh, hfl, hen, Identifier.identify, hal,
      Bool.false_eq_true, if_false, if_true]
  · intro hal hdig
    simp only [classifyT, h2p, h1p, hwh, hfl, hen, Identifier.identify, hal,
      Number.identify, hdig, Bool.false_eq_true, if_false, if_true]
  · intro hal hdig
    simp only [classifyT, h2p, h1p, hwh, hfl, hen, Identifier.identify, hal,
      Number.identify, hdig, Bool.false_eq_true, if_false]

/-- Witness for C8 (amended) at three concrete words: `x1` (has a letter →
identifier), `1+` (digit but no letter, unparsable → fatal), `+*` (neither
→ EOF). -/
theorem word_classification_amended_witness :
    (classifyT (fun s => .ok (.eof, s)) ['x', '1'] [] =
      .ok (.identifier ['x', '1'], [])) ∧
    (classifyT (fun s => .ok (.eof, s)) ['1', '+'] [] =
      .error (.numberFail ['1', '+'])) ∧
    (classifyT (fun s => .ok (.eof, s)) ['+', '*'] [] = .ok (.eof, [])) :=
  ⟨(word_classification_amended _ ['x', '1'] [] rfl rfl rfl rfl rfl).1 rfl,
   by
    have h := (word_classification_amended (fun s => .ok (.eof, s)) ['1', '+'] []
      rfl rfl rfl rfl rfl).2.1 rfl rfl
    simpa using h,
   (word_classification_amended _ ['+', '*'] [] rfl rfl rfl rfl rfl).2.2 rfl rfl⟩

/-! ## Claim C10: a final word with no trailing separator is dropped -/

/-- **C10.** If the remaining source text is non-empty and (after leading
whitespace) contains a non-empty final word that is never followed by a
separator character (whitespace or `;`), then `split_once` finds nothing,
the word loop returns EOF, and `get_token` returns EOF with the input
unchanged — no token is ever produced for that word. -/
theorem trailing_word_dropped (input : List Char) (fuel : Nat)
    (hne : input ≠ [])
    (hword : trimStart input ≠ [])
    (hnosep : splitOnce isSep (trimStart input) = none) :
    getWord input = (none, input) ∧
    getTokenF (fuel + 1) input = .ok (.eof, input) := by
  have hgw : getWord input = (none, input) := by
    obtain ⟨c, rest, hin⟩ : ∃ c rest, input = c :: rest := by
      cases input with
      | nil => exact absurd rfl hne
      | cons c rest => exact ⟨c, rest, rfl⟩
    subst hin
    simp only [getWord, getWordF, if_neg (by simp : ¬(c :: rest = [])), hnosep]
  exact ⟨hgw, by simp only [getTokenF, lexF, hgw]⟩

/-- Witness for C10: the source `incr` (no trailing newline or separator)
is silently dropped: the lexer yields EOF without producing any token. -/
theorem trailing_word_dropped_witness :
    getWord (String.toList "incr") = (none, String.toList "incr") ∧
    getTokenF 5 (String.toList "incr") = .ok (.eof, String.toList "incr") :=
  trailing_word_dropped (String.toList "incr") 4 (by simp) (by decide) rfl

/-! ## Execution-correctness infrastructure

The semantic claims (C1, C2) compare runs of the generated SSA program
with the specification fold.  The machinery below relates the Converter's
incremental program construction to `execF` runs. -/

/-- An operand only references registers below `n` (constants and
parameters trivially so). -/
def OperandBelow : Operand → Nat → Prop
  | .reg q, n => q < n
  | .constV _, _ => True
  | .paramV _, _ => True

/-- All keys of an environment fragment are at least `n`. -/
def EnvKeysGE (l : Env) (n : Nat) : Prop := ∀ e ∈ l, n ≤ e.1

theorem lookup_append_left {β : Type} (l₁ l₂ : List (Nat × β)) (k : Nat)
    (h : List.lookup k l₁ = none) :
    List.lookup k (l₁ ++ l₂) = List.lookup k l₂ := by
  induction l₁ with
  | nil => simp
  | cons e rest ih =>
    obtain ⟨ke, ve⟩ := e
    rw [lookup_cons_nat] at h
    by_cases hk : k = ke
    · rw [if_pos hk] at h; exact Option.noConfusion h
    · rw [if_neg hk] at h
      simp only [List.cons_append, lookup_cons_nat, if_neg hk]
      exact ih h

theorem lookup_keysGE_none (pre : Env) (n r : Nat)
    (hpre : EnvKeysGE pre n) (hr : r < n) : List.lookup r pre = none := by
  induction pre with
  | nil => simp
  | cons e rest ih =>
    obtain ⟨ke, ve⟩ := e
    have hke : n ≤ ke := hpre (ke, ve) (by simp)
    rw [lookup_cons_nat, if_neg (by omega)]
    exact ih (fun x hx => hpre x (by simp [hx]))

/-- Prepending bindings whose keys are all at least `n` does not change
the value of an operand that only references registers below `n`. -/
theorem evalOp_append_ge (args : List Nat) (pre env : Env) (op : Operand) (n : Nat)
    (hpre : EnvKeysGE pre n) (hop : OperandBelow op n) :
    evalOp args (pre ++ env) op = evalOp args env op := by
  cases op with
  | constV m => rfl
  | paramV i => rfl
  | reg r =>
    simp only [evalOp]
    exact lookup_append_left pre env r (lookup_keysGE_none pre n r hpre hop)

theorem runInstrs_append (args : List Nat) :
    ∀ (l₁ l₂ : List Instr) (env : Env) (out : Reports),
    runInstrs args env out (l₁ ++ l₂) =
      match runInstrs args env out l₁ with
      | none => none
      | some (env1, out1) => runInstrs args env1 out1 l₂ := by
  intro l₁
  induction l₁ with
  | nil => intro l₂ env out; rfl
  | cons i rest ih =>
    intro l₂ env out
    simp only [List.cons_append, runInstrs]
    cases runInstr args env out i with
    | none => rfl
    | some eo =>
      obtain ⟨env1, out1⟩ := eo
      simp only [bind, Option.bind]
      exact ih l₂ env1 out1

/-! ### Program extension: what later building steps may do to a block -/

/-- A phi may only gain additional incoming edges (its register is
unchanged). -/
def PhiExtends (ph ph' : Nat × List (Operand × Nat)) : Prop :=
  ph'.1 = ph.1 ∧ ∃ extra, ph'.2 = ph.2 ++ extra

/-- A completed (terminated) block may only have its phis gain incoming
edges; its instructions and terminator are frozen.  A still-open block may
additionally gain instructions and a terminator. -/
def BlockExtends (bd bd' : BlockData) : Prop :=
  List.Forall₂ PhiExtends bd.phis bd'.phis ∧
  (bd.term = none ∨ (bd'.instrs = bd.instrs ∧ bd'.term = bd.term))

theorem blockExtends_refl (bd : BlockData) : BlockExtends bd bd :=
  ⟨List.forall₂_same.mpr (fun ph _ => ⟨rfl, [], by simp⟩), Or.inr ⟨rfl, rfl⟩⟩

/-- `p` extends `p₀` away from the open block `cur`: every block of `p₀`
other than `cur` is still present, with at most extra phi edges. -/
def ProgExtends (p₀ p : Prog) (cur : Nat) : Prop :=
  ∀ b bd, p₀.lookupB b = some bd → b ≠ cur →
    ∃ bd', p.lookupB b = some bd' ∧ BlockExtends bd bd'

/-- Evaluating the phis of a block from a predecessor for which they
already had edges is unaffected by extra (later-added) edges. -/
theorem runPhis_extends (args : List Nat) (env : Env) (prev : Nat) :
    ∀ (phis phis' : List (Nat × List (Operand × Nat))) (nb : Env),
    List.Forall₂ PhiExtends phis phis' →
    runPhis args env prev phis = some nb →
    runPhis args env prev phis' = some nb := by
  intro phis
  induction phis with
  | nil =>
    intro phis' nb hf hr
    cases hf
    exact hr
  | cons ph rest ih =>
    intro phis' nb hf hr
    cases hf with
    | cons hph hrest =>
      rename_i ph' rest'
      obtain ⟨hreg, extra, hedge⟩ := hph
      simp only [runPhis, bind, Option.bind] at hr
      cases hed : List.find? (fun ed => ed.2 == prev) ph.2 with
      | none => rw [hed] at hr; simp only at hr; exact Option.noConfusion hr
      | some e =>
        rw [hed] at hr
        simp only at hr
        cases hv : evalOp args env e.1 with
        | none => rw [hv] at hr; simp only at hr; exact Option.noConfusion hr
        | some v =>
          rw [hv] at hr
          simp only at hr
          cases hnb : runPhis args env prev rest with
          | none => rw [hnb] at hr; simp only at hr; exact Option.noConfusion hr
          | some nbr =>
            rw [hnb] at hr
            simp only at hr
            have hfind' : List.find? (fun ed => ed.2 == prev) ph'.2 = some e := by
              rw [hedge, List.find?_append, hed]
              rfl
            simp only [runPhis, bind, Option.bind, hfind', hv, hreg,
              ih rest' nbr hrest hnb]
            exact hr

/-! ### Fuel monotonicity and reachability -/

theorem execF_mono :
    ∀ (f : Nat) (p : Prog) (args : List Nat) (prev cur : Nat) (env : Env)
      (out : Reports) (tr : List Nat) (R : Outcome),
    execF f p args prev cur env out tr = R → R ≠ .fuelOut →
    execF (f + 1) p args prev cur env out tr = R := by
  intro f
  induction f with
  | zero =>
    intro p args prev cur env out tr R h hne
    exact absurd h.symm (by simpa using hne)
  | succ g ih =>
    intro p args prev cur env out tr R h hne
    rw [execF] at h
    rw [execF]
    cases hlk : p.lookupB cur with
    | none => rw [hlk] at h; exact h
    | some bd =>
      rw [hlk] at h
      simp only at h ⊢
      cases hph : runPhis args env prev bd.phis with
      | none => rw [hph] at h; exact h
      | some nb =>
        rw [hph] at h
        simp only at h ⊢
        cases hin : runInstrs args (nb ++ env) out bd.instrs with
        | none => rw [hin] at h; exact h
        | some eo =>
          obtain ⟨env2, out2⟩ := eo
          rw [hin] at h
          simp only at h ⊢
          cases htm : bd.term with
          | none => rw [htm] at h; exact h
          | some t =>
            rw [htm] at h
            cases t with
            | ret => exact h
            | br b =>
              simp only at h ⊢
              exact ih p args cur b env2 out2 (tr ++ [cur]) R h hne
            | condBr cnd bt bf =>
              simp only at h ⊢
              cases hev : evalOp args env2 cnd with
              | none => rw [hev] at h; exact h
              | some v =>
                rw [hev] at h
                simp only at h ⊢
                exact ih p args cur _ env2 out2 (tr ++ [cur]) R h hne

theorem execF_mono_le (f f' : Nat) (p : Prog) (args : List Nat) (prev cur : Nat)
    (env : Env) (out : Reports) (tr : List Nat) (R : Outcome)
    (hle : f ≤ f') (h : execF f p args prev cur env out tr = R) (hne : R ≠ .fuelOut) :
    execF f' p args prev cur env out tr = R := by
  induction f' with
  | zero =>
    have : f = 0 := by omega
    subst this
    exact h
  | succ g ih =>
    rcases Nat.lt_or_ge f (g + 1) with hlt | hge
    · exact execF_mono g p args prev cur env out tr R (ih (by omega)) hne
    · have : f = g + 1 := by omega
      subst this
      exact h

/-- Some outcome satisfying the postcondition `R` is reachable (with some
fuel) by entering `cur` from `prev`. -/
def Reaches (p : Prog) (args : List Nat) (prev cur : Nat) (env : Env)
    (out : Reports) (tr : List Nat) (R : Outcome → Prop) : Prop :=
  ∃ fuel, R (execF fuel p args prev cur env out tr)

/-- Some outcome satisfying the postcondition `R` is reachable (with some
fuel) from a point inside `cur`, with instructions `ext` and then
terminator `tm` still to run. -/
def RestReaches (p : Prog) (args : List Nat) (cur : Nat) (ext : List Instr)
    (tm : Option Terminator) (env : Env) (out : Reports) (tr : List Nat)
    (R : Outcome → Prop) : Prop :=
  ∃ fuel, R (execRest fuel p args cur ext tm env out tr)

theorem execAfter_mono_le (f f' : Nat) (p : Prog) (args : List Nat) (cur : Nat)
    (tm : Option Terminator) (env : Env) (out : Reports) (tr : List Nat) (R : Outcome)
    (hle : f ≤ f') (h : execAfter f p args cur tm env out tr = R) (hne : R ≠ .fuelOut) :
    execAfter f' p args cur tm env out tr = R := by
  cases tm with
  | none => exact h
  | some t =>
    cases t with
    | ret => exact h
    | br b => exact execF_mono_le f f' p args cur b env out tr R hle h hne
    | condBr cnd bt bf =>
      simp only [execAfter] at h ⊢
      cases hev : evalOp args env cnd with
      | none => rw [hev] at h; exact h
      | some v =>
        rw [hev] at h
        simp only at h ⊢
        exact execF_mono_le f f' p args cur _ env out tr R hle h hne

theorem execRest_mono_le (f f' : Nat) (p : Prog) (args : List Nat) (cur : Nat)
    (ext : List Instr) (tm : Option Terminator) (env : Env) (out : Reports)
    (tr : List Nat) (R : Outcome)
    (hle : f ≤ f') (h : execRest f p args cur ext tm env out tr = R) (hne : R ≠ .fuelOut) :
    execRest f' p args cur ext tm env out tr = R := by
  simp only [execRest] at h ⊢
  cases hin : runInstrs args env out ext with
  | none => rw [hin] at h; exact h
  | some eo =>
    obtain ⟨env2, out2⟩ := eo
    rw [hin] at h
    simp only at h ⊢
    exact execAfter_mono_le f f' p args cur tm env2 out2 tr R hle h hne

/-- Entering an open block whose instruction list splits as `ins ++ ext`:
after the phis and `ins`, execution continues as `execRest` with `ext` and
the block's terminator. -/
theorem execF_openBlock (g : Nat) (p' : Prog) (args : List Nat) (pv cur : Nat)
    (e0 : Env) (o0 : Reports) (t0 : List Nat)
    (ph' : List (Nat × List (Operand × Nat))) (insAll : List Instr)
    (tm : Option Terminator)
    (hcur' : p'.lookupB cur = some ⟨ph', insAll, tm⟩)
    (nb : Env) (hph : runPhis args e0 pv ph' = some nb)
    (ins ext : List Instr) (hsplit : insAll = ins ++ ext)
    (env : Env) (out : Reports)
    (hins : runInstrs args (nb ++ e0) o0 ins = some (env, out)) :
    execF (g + 1) p' args pv cur e0 o0 t0 =
      execRest g p' args cur ext tm env out (t0 ++ [cur]) := by
  rw [execF, hcur']
  simp only
  rw [hph]
  simp only
  rw [hsplit, runInstrs_append, hins]
  simp only [execRest]
  cases hrest : runInstrs args env out ext with
  | none => rfl
  | some eo =>
    obtain ⟨env3, out3⟩ := eo
    cases tm with
    | none => rfl
    | some t => cases t <;> rfl

/-- **Master extension lemma.**  A run of the partial program `p` that
ends at its open block `cur` replays identically in any extension `p'`
(phi edges may have been added anywhere, and `cur` itself may have gained
instructions `ext` and a terminator `tm`), after which execution continues
through `ext` and `tm`. -/
theorem exec_extend
    (p p' : Prog) (args : List Nat) (cur : Nat)
    (ph ph' : List (Nat × List (Operand × Nat))) (ins ext : List Instr)
    (tm : Option Terminator)
    (hcur : p.lookupB cur = some ⟨ph, ins, none⟩)
    (hext : ProgExtends p p' cur)
    (hphx : List.Forall₂ PhiExtends ph ph')
    (hcur' : p'.lookupB cur = some ⟨ph', ins ++ ext, tm⟩)
    (R : Outcome → Prop) :
    ∀ (f : Nat) (pv cv : Nat) (e0 : Env) (o0 : Reports) (t0 : List Nat)
      (env : Env) (out : Reports) (tr : List Nat),
    execF f p args pv cv e0 o0 t0 = .openEnd cur env out tr →
    RestReaches p' args cur ext tm env out tr R →
    Reaches p' args pv cv e0 o0 t0 R := by
  intro f
  induction f with
  | zero =>
    intro pv cv e0 o0 t0 env out tr hrun hcont
    rw [execF] at hrun
    exact absurd hrun (by simp)
  | succ g ih =>
    intro pv cv e0 o0 t0 env out tr hrun hcont
    rw [execF] at hrun
    cases hlk : p.lookupB cv with
    | none => rw [hlk] at hrun; exact absurd hrun (by simp)
    | some bd =>
      rw [hlk] at hrun
      simp only at hrun
      cases hph2 : runPhis args e0 pv bd.phis with
      | none => rw [hph2] at hrun; exact absurd hrun (by simp)
      | some nb =>
        rw [hph2] at hrun
        simp only at hrun
        cases hin : runInstrs args (nb ++ e0) o0 bd.instrs with
        | none => rw [hin] at hrun; exact absurd hrun (by simp)
        | some eo =>
          obtain ⟨env2, out2⟩ := eo
          rw [hin] at hrun
          simp only at hrun
          cases htm : bd.term with
          | none =>
            rw [htm] at hrun
            simp only [Outcome.openEnd.injEq] at hrun
            obtain ⟨hcv, henv, hout, htr⟩ := hrun
            subst hcv
            have hbd : bd = ⟨ph, ins, none⟩ := by
              rw [hlk] at hcur
              exact Option.some.inj hcur
            subst hbd
            obtain ⟨g2, hg2⟩ := hcont
            refine ⟨g2 + 1, ?_⟩
            rw [execF_openBlock g2 p' args pv cv e0 o0 t0 ph' (ins ++ ext) tm hcur'
              nb (runPhis_extends args e0 pv ph ph' nb hphx hph2) ins ext rfl
              env2 out2 hin]
            rw [← henv, ← hout] at hg2
            rw [htr]
            exact hg2
          | some t =>
            rw [htm] at hrun
            have hcvne : cv ≠ cur := by
              intro hcv
              subst hcv
              rw [hlk] at hcur
              have := Option.some.inj hcur
              rw [this] at htm
              exact Option.noConfusion htm
            obtain ⟨bd', hbd', hbx⟩ := hext cv bd hlk hcvne
            obtain ⟨hbphis, hdisj⟩ := hbx
            have hfrozen : bd'.instrs = bd.instrs ∧ bd'.term = bd.term := by
              rcases hdisj with hnone | hfr
              · rw [htm] at hnone
                exact Option.noConfusion hnone
              · exact hfr
            obtain ⟨hbinstrs, hbterm⟩ := hfrozen
            cases t with
            | ret => exact absurd hrun (by simp)
            | br b =>
              simp only at hrun
              obtain ⟨f2, hf2⟩ := ih cv b env2 out2 (t0 ++ [cv]) env out tr hrun hcont
              refine ⟨f2 + 1, ?_⟩
              rw [execF, hbd']
              simp only
              rw [runPhis_extends args e0 pv bd.phis bd'.phis nb hbphis hph2]
              simp only
              rw [hbinstrs, hin]
              simp only
              rw [hbterm, htm]
              simp only
              exact hf2
            | condBr cnd bt bf =>
              simp only at hrun
              cases hev : evalOp args env2 cnd with
              | none => rw [hev] at hrun; exact absurd hrun (by simp)
              | some v =>
                rw [hev] at hrun
                simp only at hrun
                obtain ⟨f2, hf2⟩ :=
                  ih cv (if v = 0 then bf else bt) env2 out2 (t0 ++ [cv]) env out tr hrun hcont
                refine ⟨f2 + 1, ?_⟩
                rw [execF, hbd']
                simp only
                rw [runPhis_extends args e0 pv bd.phis bd'.phis nb hbphis hph2]
                simp only
                rw [hbinstrs, hin]
                simp only
                rw [hbterm, htm]
                simp only
                rw [hev]
                simp only
                exact hf2

theorem execRest_append (g : Nat) (p : Prog) (args : List Nat) (cur : Nat)
    (l₁ l₂ : List Instr) (tm : Option Terminator) (env : Env) (out : Reports)
    (tr : List Nat) :
    execRest g p args cur (l₁ ++ l₂) tm env out tr =
      match runInstrs args env out l₁ with
      | none => .stuck
      | some eo => execRest g p args cur l₂ tm eo.1 eo.2 tr := by
  simp only [execRest, runInstrs_append]
  cases hin : runInstrs args env out l₁ with
  | none => rfl
  | some eo =>
    obtain ⟨e1, o1⟩ := eo
    simp only

/-! ### Converter well-formedness and frame realisation -/

/-- Well-formedness of a reachable Converter state. -/
structure ConvWF (c : Converter) : Prop where
  curOpen : ∃ ph ins, c.prog.lookupB c.cur = some ⟨ph, ins, none⟩
  blockEq : c.block = c.cur
  varsBelow : ∀ op ∈ c.vars, OperandBelow op c.freshR
  blocksBelow : ∀ b bd, c.prog.lookupB b = some bd → b < c.freshB
  mapIdx : ∀ nm idx, lookupName c.mapping nm = some idx → idx < c.vars.length
  mapInj : ∀ nm nm' idx, lookupName c.mapping nm = some idx →
    lookupName c.mapping nm' = some idx → nm = nm'

theorem ConvWF.curBelow {c : Converter} (h : ConvWF c) : c.cur < c.freshB := by
  obtain ⟨ph, ins, hc⟩ := h.curOpen
  exact h.blocksBelow c.cur _ hc

/-- The environment realises the frame `F`: each mapped variable's current
SSA operand evaluates to its frame value. -/
def VarsEval (args : List Nat) (env : Env) (c : Converter) (F : Frame) : Prop :=
  ∀ nm idx, lookupName c.mapping nm = some idx →
    ∃ op, c.vars.get? idx = some op ∧ evalOp args env op = some (F nm)

/-- Structural bookkeeping of a building segment `c₀ → c₁`. -/
structure SegStruct (c₀ c₁ : Converter) : Prop where
  mapEq : c₁.mapping = c₀.mapping
  phisEq : c₁.phis = c₀.phis
  freshRle : c₀.freshR ≤ c₁.freshR
  freshBle : c₀.freshB ≤ c₁.freshB
  varsLen : c₁.vars.length = c₀.vars.length
  others : ∀ b bd, c₀.prog.lookupB b = some bd → b ≠ c₀.cur → c₁.prog.lookupB b = some bd
  curNew : c₁.cur = c₀.cur ∨ c₀.freshB ≤ c₁.cur

/-- The semantic content of a building segment `c₀ → c₁` taking frame `F`
to frame `F'`: the code appended to `c₀.cur` (instructions `δi`, then —
when the builder moved on — a terminator `δt`) transfers control, in any
ambient extension `p` of `c₁.prog`, to the continuation at the end of
`c₁.cur`, in an environment realising `F'`. -/
def Transfers (c₀ c₁ : Converter) (args : List Nat) (F F' : Frame) : Prop :=
  ∃ δi δt ph₀ ins₀,
    c₀.prog.lookupB c₀.cur = some ⟨ph₀, ins₀, none⟩ ∧
    c₁.prog.lookupB c₀.cur = some ⟨ph₀, ins₀ ++ δi, δt⟩ ∧
    (δt = none → c₁.cur = c₀.cur) ∧
    ∀ (env : Env) (out : Reports) (tr : List Nat),
      VarsEval args env c₀ F →
      ∀ (p : Prog) (ext₁ : List Instr) (tm₁ : Option Terminator)
        (ph₁ : List (Nat × List (Operand × Nat))) (ins₁ : List Instr)
        (phx : List (Nat × List (Operand × Nat))) (R : Outcome → Prop),
        c₁.prog.lookupB c₁.cur = some ⟨ph₁, ins₁, none⟩ →
        ProgExtends c₁.prog p c₁.cur →
        List.Forall₂ PhiExtends ph₁ phx →
        p.lookupB c₁.cur = some ⟨phx, ins₁ ++ ext₁, tm₁⟩ →
        (∀ (env' : Env) (tr' : List Nat),
          VarsEval args env' c₁ F' →
          (∃ pre, env' = pre ++ env ∧ EnvKeysGE pre c₀.freshR) →
          (∃ Δ, tr' = tr ++ Δ ∧ ∀ b ∈ Δ, c₀.freshB ≤ b ∧ b < c₁.freshB) →
          RestReaches p args c₁.cur ext₁ tm₁ env' out tr' R) →
        (match δt with
         | none => RestReaches p args c₀.cur (δi ++ ext₁) tm₁ env out tr R
         | some t => RestReaches p args c₀.cur δi (some t) env out tr R)

/-- Updating one variable's operand to one evaluating to `newVal` (while
leaving every other operand's value unchanged) realises the pointwise
frame update. -/
theorem varsEval_set (args : List Nat) (env₂ env : Env) (c c' : Converter) (F : Frame)
    (pos : Nat) (v : List Char) (newOp : Operand) (newVal : Nat)
    (hmap : c'.mapping = c.mapping)
    (hvarsEq : c'.vars = c.vars.set pos newOp)
    (hlookup : lookupName c.mapping v = some pos)
    (hpos : pos < c.vars.length)
    (hvars : VarsEval args env c F)
    (hinj : ∀ nm, lookupName c.mapping nm = some pos → nm = v)
    (hpres : ∀ op, op ∈ c.vars → evalOp args env₂ op = evalOp args env op)
    (hnew : evalOp args env₂ newOp = some newVal) :
    VarsEval args env₂ c' (fun w => if w = v then newVal else F w) := by
  intro nm idx hnm
  rw [hmap] at hnm
  by_cases hidx : idx = pos
  · subst hidx
    have hnmv : nm = v := hinj nm hnm
    subst hnmv
    refine ⟨newOp, ?_, by simp [hnew]⟩
    rw [hvarsEq]
    exact List.get?_set_eq_of_lt newOp hpos
  · obtain ⟨op, hop, hev⟩ := hvars nm idx hnm
    have hnmne : nm ≠ v := by
      intro he
      subst he
      rw [hnm] at hlookup
      exact hidx (Option.some.inj hlookup)
    refine ⟨op, ?_, ?_⟩
    · rw [hvarsEq, List.get?_set_ne newOp c.vars (fun he => hidx he.symm)]
      exact hop
    · rw [hpres op (List.get?_mem hop), hev]
      simp [hnmne]

/-- Frame realisation is unaffected by pushing fresh bindings (keys at or
above `freshR`) in front of the environment. -/
theorem varsEval_extend (args : List Nat) (pre env : Env) (c : Converter) (F : Frame)
    (hwf : ConvWF c) (hpre : EnvKeysGE pre c.freshR)
    (hvars : VarsEval args env c F) :
    VarsEval args (pre ++ env) c F := by
  intro nm idx hnm
  obtain ⟨op, hop, hev⟩ := hvars nm idx hnm
  exact ⟨op, hop, by
    rw [evalOp_append_ge args pre env op c.freshR hpre
      (hwf.varsBelow op (List.get?_mem hop))]
    exact hev⟩

/-- `add_incr` preserves well-formedness and realises the `incr` step of
the specification fold. -/
theorem add_incr_transfers (c c' : Converter) (v : List Char) (args : List Nat) (F : Frame)
    (h : c.add_incr v = .ok c') (hwf : ConvWF c) :
    ConvWF c' ∧ SegStruct c c' ∧
    Transfers c c' args F (specStep (.oneParam v .incr) F) := by
  simp only [Converter.add_incr, bind, Except.bind] at h
  cases hpos : c.getIdx v with
  | error e => rw [hpos] at h; simp at h
  | ok pos =>
    rw [hpos] at h
    simp only at h
    cases hcu : c.getVar pos with
    | error e => rw [hcu] at h; simp at h
    | ok cu =>
      rw [hcu] at h
      simp only [Except.ok.injEq] at h
      subst h
      have hlookup : lookupName c.mapping v = some pos := by
        simp only [Converter.getIdx] at hpos
        cases hln : lookupName c.mapping v with
        | none => rw [hln] at hpos; simp at hpos
        | some i =>
          rw [hln] at hpos
          simp only [Except.ok.injEq] at hpos
          exact congrArg some hpos
      have hget : c.vars.get? pos = some cu := by
        simp only [Converter.getVar] at hcu
        cases hg : c.vars.get? pos with
        | none => rw [hg] at hcu; simp at hcu
        | some op =>
          rw [hg] at hcu
          simp only [Except.ok.injEq] at hcu
          exact congrArg some hcu
      have hposlt : pos < c.vars.length := hwf.mapIdx v pos hlookup
      obtain ⟨ph₀, ins₀, hcur⟩ := hwf.curOpen
      refine ⟨?_, ?_, ?_⟩
      · refine ⟨⟨ph₀, ins₀ ++ [.add c.freshR cu (.constV 1)], ?_⟩, hwf.blockEq, ?_, ?_, ?_, ?_⟩
        · rw [lookupB_appendInstr, if_pos rfl, hcur]
          rfl
        · intro op hop
          rcases List.mem_or_eq_of_mem_set hop with hmem | heq
          · have := hwf.varsBelow op hmem
            cases op with
            | reg q => exact Nat.lt_succ_of_lt this
            | constV m => trivial
            | paramV i => trivial
          · subst heq
            exact Nat.lt_succ_self _
        · intro b bd hbd
          rw [lookupB_appendInstr] at hbd
          by_cases hb : b = c.cur
          · subst hb
            rw [if_pos rfl] at hbd
            cases hlk : c.prog.lookupB c.cur with
            | none => rw [hlk] at hbd; simp at hbd
            | some bd0 => exact hwf.blocksBelow _ bd0 hlk
          · rw [if_neg hb] at hbd
            exact hwf.blocksBelow b bd hbd
        · intro nm idx hidx
          have := hwf.mapIdx nm idx hidx
          simpa using this
        · exact hwf.mapInj
      · refine ⟨rfl, rfl, Nat.le_succ _, le_refl _, by simp, ?_, Or.inl rfl⟩
        intro b bd hbd hbne
        rw [lookupB_appendInstr, if_neg hbne]
        exact hbd
      · refine ⟨[.add c.freshR cu (.constV 1)], none, ph₀, ins₀, hcur, ?_, fun _ => rfl, ?_⟩
        · rw [lookupB_appendInstr, if_pos rfl, hcur]
          rfl
        · intro env out tr hvars p ext₁ tm₁ ph₁ ins₁ phx R hopen hpx hfx hlkp hcont
          show RestReaches p args c.cur
            ([Instr.add c.freshR cu (Operand.constV 1)] ++ ext₁) tm₁ env out tr R
          obtain ⟨op, hop, hev⟩ := hvars v pos hlookup
          have hcuop : op = cu := by
            rw [hget] at hop
            exact (Option.some.inj hop).symm
          subst hcuop
          have hkeys : EnvKeysGE [(c.freshR, (F v + 1) % 2 ^ 64)] c.freshR := by
            intro e he
            simp only [List.mem_singleton] at he
            subst he
            exact le_refl _
          have hpres : ∀ o ∈ c.vars,
              evalOp args ((c.freshR, (F v + 1) % 2 ^ 64) :: env) o =
                evalOp args env o := by
            intro o ho
            exact evalOp_append_ge args [(c.freshR, (F v + 1) % 2 ^ 64)] env o c.freshR
              hkeys (hwf.varsBelow o ho)
          have hve := varsEval_set args ((c.freshR, (F v + 1) % 2 ^ 64) :: env) env c
            { c with
              prog := c.prog.appendInstr c.cur (.add c.freshR op (.constV 1))
              vars := c.vars.set pos (.reg c.freshR)
              freshR := c.freshR + 1 }
            F pos v (.reg c.freshR) ((F v + 1) % 2 ^ 64) rfl rfl hlookup hposlt hvars
            (fun nm hn => hwf.mapInj nm v pos hn hlookup) hpres
            (by simp [evalOp, List.lookup])
          have hstep := hcont ((c.freshR, (F v + 1) % 2 ^ 64) :: env) tr
            (by exact hve)
            ⟨[(c.freshR, (F v + 1) % 2 ^ 64)], rfl, hkeys⟩
            ⟨[], by simp, by simp⟩
          obtain ⟨g, hg⟩ := hstep
          refine ⟨g, ?_⟩
          rw [execRest_append]
          have hrun1 : runInstrs args env out [.add c.freshR op (.constV 1)] =
              some ((c.freshR, (F v + 1) % 2 ^ 64) :: env, out) := by
            simp only [runInstrs, runInstr, bind, Option.bind]
            rw [hev]
            simp [evalOp]
          rw [hrun1]
          exact hg

/-- Witness for C9: one `incr` step on the one-variable fixture keeps the
frame length at 1. -/
theorem frame_length_invariant_witness :
    (Statement.oneParam ['x'] OneParamType.incr).compileS [] convFixture =
      .ok { convFixture with
            prog := convFixture.prog.appendInstr 0 (.add 0 (.constV 0) (.constV 1))
            vars := [.reg 0]
            freshR := 1 } ∧
    Converter.framesOK
      { convFixture with
        prog := convFixture.prog.appendInstr 0 (.add 0 (.constV 0) (.constV 1))
        vars := [.reg 0]
        freshR := 1 } 1 :=
  ⟨rfl, frame_length_invariant [] (Statement.oneParam ['x'] OneParamType.incr) convFixture
    { convFixture with
      prog := convFixture.prog.appendInstr 0 (.add 0 (.constV 0) (.constV 1))
      vars := [.reg 0]
      freshR := 1 } 1 ⟨rfl, by simp [convFixture]⟩ rfl⟩

/-- `add_clear` preserves well-formedness and realises the `clear` step of
the specification fold. -/
theorem add_clear_transfers (c c' : Converter) (v : List Char) (args : List Nat) (F : Frame)
    (h : c.add_clear v = .ok c') (hwf : ConvWF c) :
    ConvWF c' ∧ SegStruct c c' ∧
    Transfers c c' args F (specStep (.oneParam v .clear) F) := by
  simp only [Converter.add_clear, bind, Except.bind] at h
  cases hpos : c.getIdx v with
  | error e => rw [hpos] at h; simp at h
  | ok pos =>
    rw [hpos] at h
    simp only at h
    cases hcu : c.getVar pos with
    | error e => rw [hcu] at h; simp at h
    | ok cu =>
      rw [hcu] at h
      simp only [Except.ok.injEq] at h
      subst h
      have hlookup : lookupName c.mapping v = some pos := by
        simp only [Converter.getIdx] at hpos
        cases hln : lookupName c.mapping v with
        | none => rw [hln] at hpos; simp at hpos
        | some i =>
          rw [hln] at hpos
          simp only [Except.ok.injEq] at hpos
          exact congrArg some hpos
      have hposlt : pos < c.vars.length := hwf.mapIdx v pos hlookup
      obtain ⟨ph₀, ins₀, hcur⟩ := hwf.curOpen
      refine ⟨?_, ?_, ?_⟩
      · refine ⟨⟨ph₀, ins₀, hcur⟩, hwf.blockEq, ?_, hwf.blocksBelow, ?_, hwf.mapInj⟩
        · intro op hop
          rcases List.mem_or_eq_of_mem_set hop with hmem | heq
          · exact hwf.varsBelow op hmem
          · subst heq
            trivial
        · intro nm idx hidx
          have := hwf.mapIdx nm idx hidx
          simpa using this
      · exact ⟨rfl, rfl, le_refl _, le_refl _, by simp, fun b bd hbd _ => hbd, Or.inl rfl⟩
      · refine ⟨[], none, ph₀, ins₀, hcur, by simpa using hcur, fun _ => rfl, ?_⟩
        intro env out tr hvars p ext₁ tm₁ ph₁ ins₁ phx R hopen hpx hfx hlkp hcont
        show RestReaches p args c.cur ([] ++ ext₁) tm₁ env out tr R
        have hve := varsEval_set args env env c
          { c with vars := c.vars.set pos (.constV 0) }
          F pos v (.constV 0) 0 rfl rfl hlookup hposlt hvars
          (fun nm hn => hwf.mapInj nm v pos hn hlookup) (fun o _ => rfl) rfl
        exact hcont env tr (by exact hve)
          ⟨[], rfl, fun e he => absurd he (by simp)⟩
          ⟨[], by simp, by simp⟩

/-- The program fragment `add_decr` builds (convert.rs lines 92–118),
factored out of `Converter.add_decr` for lookup reasoning. -/
def decrProg (P0 : Prog) (cur blockIn : Nat) (cu : Operand)
    (rCmp rSub rPhi skip noSkip : Nat) : Prog :=
  let p := P0.appendInstr cur (.icmpEq rCmp cu (.constV 0))
  let p := (p.addBlock skip).addBlock noSkip
  let p := p.setTerm cur (.condBr (.reg rCmp) skip noSkip)
  let p := p.appendInstr noSkip (.subNuw rSub cu (.constV 1))
  let p := p.setTerm noSkip (.br skip)
  p.appendPhi skip rPhi [(cu, blockIn), (.reg rSub, noSkip)]

theorem add_decr_eq (c : Converter) (v : List Char) (pos : Nat) (cu : Operand)
    (hpos : c.getIdx v = .ok pos) (hcu : c.getVar pos = .ok cu) :
    c.add_decr v = .ok { c with
      prog := decrProg c.prog c.cur c.block cu c.freshR (c.freshR + 1) (c.freshR + 2)
        c.freshB (c.freshB + 1)
      vars := c.vars.set pos (.reg (c.freshR + 2))
      freshR := c.freshR + 3
      freshB := c.freshB + 2
      block := c.freshB
      cur := c.freshB } := by
  simp only [Converter.add_decr, bind, Except.bind, hpos, hcu, decrProg]

theorem decrProg_lookupB_cur (P0 : Prog) (cur blockIn : Nat) (cu : Operand)
    (rCmp rSub rPhi skip noSkip : Nat) (ph0 : List (Nat × List (Operand × Nat)))
    (ins0 : List Instr)
    (hcur : P0.lookupB cur = some ⟨ph0, ins0, none⟩)
    (h1 : cur ≠ skip) (h2 : cur ≠ noSkip) :
    (decrProg P0 cur blockIn cu rCmp rSub rPhi skip noSkip).lookupB cur =
      some ⟨ph0, ins0 ++ [.icmpEq rCmp cu (.constV 0)],
        some (.condBr (.reg rCmp) skip noSkip)⟩ := by
  simp only [decrProg]
  rw [lookupB_appendPhi, if_neg h1, lookupB_setTerm, if_neg h2,
    lookupB_appendInstr, if_neg h2, lookupB_setTerm, if_pos rfl,
    lookupB_addBlock, lookupB_addBlock, lookupB_appendInstr, if_pos rfl, hcur]
  rfl

theorem decrProg_lookupB_skip (P0 : Prog) (cur blockIn : Nat) (cu : Operand)
    (rCmp rSub rPhi skip noSkip : Nat)
    (hnone : P0.lookupB skip = none)
    (h1 : skip ≠ cur) (h2 : skip ≠ noSkip) :
    (decrProg P0 cur blockIn cu rCmp rSub rPhi skip noSkip).lookupB skip =
      some ⟨[(rPhi, [(cu, blockIn), (.reg rSub, noSkip)])], [], none⟩ := by
  simp only [decrProg]
  rw [lookupB_appendPhi, if_pos rfl, lookupB_setTerm, if_neg h2,
    lookupB_appendInstr, if_neg h2, lookupB_setTerm, if_neg h1,
    lookupB_addBlock, lookupB_addBlock, lookupB_appendInstr, if_neg h1, hnone]
  simp

theorem decrProg_lookupB_noSkip (P0 : Prog) (cur blockIn : Nat) (cu : Operand)
    (rCmp rSub rPhi skip noSkip : Nat)
    (hnone : P0.lookupB noSkip = none)
    (h1 : noSkip ≠ cur) (h2 : noSkip ≠ skip) :
    (decrProg P0 cur blockIn cu rCmp rSub rPhi skip noSkip).lookupB noSkip =
      some ⟨[], [.subNuw rSub cu (.constV 1)], some (.br skip)⟩ := by
  simp only [decrProg]
  rw [lookupB_appendPhi, if_neg h2, lookupB_setTerm, if_pos rfl,
    lookupB_appendInstr, if_pos rfl, lookupB_setTerm, if_neg h1,
    lookupB_addBlock, lookupB_addBlock, lookupB_appendInstr, if_neg h1, hnone]
  simp [h2]

theorem decrProg_lookupB_other (P0 : Prog) (cur blockIn : Nat) (cu : Operand)
    (rCmp rSub rPhi skip noSkip : Nat) (b : Nat)
    (hb1 : b ≠ cur) (hb2 : b ≠ skip) (hb3 : b ≠ noSkip) :
    (decrProg P0 cur blockIn cu rCmp rSub rPhi skip noSkip).lookupB b =
      P0.lookupB b := by
  simp only [decrProg]
  rw [lookupB_appendPhi, if_neg hb2, lookupB_setTerm, if_neg hb3,
    lookupB_appendInstr, if_neg hb3, lookupB_setTerm, if_neg hb1,
    lookupB_addBlock, lookupB_addBlock, lookupB_appendInstr, if_neg hb1]
  cases hx : P0.lookupB b <;> simp [hx, hb2, hb3]

/-- Resuming with an `icmp`-against-constant followed by a conditional
branch on its `i1` result dispatches to the appropriate target block (this
is the comparison/branch diamond emitted by `add_decr` and `add_while`). -/
theorem execRest_icmp_condBr (g : Nat) (p : Prog) (args : List Nat) (cur : Nat)
    (res : Nat) (a : Operand) (k : Nat) (bt bf : Nat) (env : Env) (out : Reports)
    (tr : List Nat) (x : Nat) (hx : evalOp args env a = some x) :
    execRest g p args cur [.icmpEq res a (.constV k)]
        (some (.condBr (.reg res) bt bf)) env out tr =
      execF g p args cur (if (if x = k then 1 else 0) = 0 then bf else bt)
        ((res, if x = k then 1 else 0) :: env) out tr := by
  have h1 : runInstrs args env out [.icmpEq res a (.constV k)] =
      some ((res, if x = k then 1 else 0) :: env, out) := by
    simp only [runInstrs, runInstr, bind, Option.bind]
    rw [hx]
    simp [evalOp]
  have h2 : evalOp args ((res, if x = k then 1 else 0) :: env) (.reg res) =
      some (if x = k then 1 else 0) := by
    simp only [evalOp]
    rw [lookup_cons_nat, if_pos rfl]
  simp only [execRest]
  rw [h1]
  simp only [execAfter]
  rw [h2]

/-- `add_decr` preserves well-formedness and realises the saturating
`decr` step of the specification fold, through the compare-with-zero
diamond (`alreadyZero`/`notZero` with a merging phi). -/
theorem add_decr_transfers (c c' : Converter) (v : List Char) (args : List Nat) (F : Frame)
    (h : c.add_decr v = .ok c') (hwf : ConvWF c) :
    ConvWF c' ∧ SegStruct c c' ∧
    Transfers c c' args F (specStep (.oneParam v .decr) F) := by
  have hex : ∃ pos cu, c.getIdx v = .ok pos ∧ c.getVar pos = .ok cu := by
    have h2 := h
    simp only [Converter.add_decr, bind, Except.bind] at h2
    cases hpos : c.getIdx v with
    | error e => rw [hpos] at h2; simp at h2
    | ok pos =>
      rw [hpos] at h2
      simp only at h2
      cases hcu : c.getVar pos with
      | error e => rw [hcu] at h2; simp at h2
      | ok cu => exact ⟨pos, cu, rfl, hcu⟩
  obtain ⟨pos, cu, hpos, hcu⟩ := hex
  have hc' : c' = { c with
      prog := decrProg c.prog c.cur c.block cu c.freshR (c.freshR + 1) (c.freshR + 2)
        c.freshB (c.freshB + 1)
      vars := c.vars.set pos (.reg (c.freshR + 2))
      freshR := c.freshR + 3
      freshB := c.freshB + 2
      block := c.freshB
      cur := c.freshB } :=
    (Except.ok.inj ((add_decr_eq c v pos cu hpos hcu).symm.trans h)).symm
  have hmapE : c'.mapping = c.mapping := by rw [hc']
  have hvarsEq : c'.vars = c.vars.set pos (.reg (c.freshR + 2)) := by rw [hc']
  have hfr : c'.freshR = c.freshR + 3 := by rw [hc']
  have hfb : c'.freshB = c.freshB + 2 := by rw [hc']
  have hbk : c'.block = c.freshB := by rw [hc']
  have hcu2 : c'.cur = c.freshB := by rw [hc']
  have hphisE : c'.phis = c.phis := by rw [hc']
  have hprog : c'.prog = decrProg c.prog c.cur c.block cu c.freshR (c.freshR + 1)
      (c.freshR + 2) c.freshB (c.freshB + 1) := by rw [hc']
  have hlookup : lookupName c.mapping v = some pos := by
    simp only [Converter.getIdx] at hpos
    cases hln : lookupName c.mapping v with
    | none => rw [hln] at hpos; simp at hpos
    | some i =>
      rw [hln] at hpos
      simp only [Except.ok.injEq] at hpos
      exact congrArg some hpos
  have hget : c.vars.get? pos = some cu := by
    simp only [Converter.getVar] at hcu
    cases hg : c.vars.get? pos with
    | none => rw [hg] at hcu; simp at hcu
    | some op =>
      rw [hg] at hcu
      simp only [Except.ok.injEq] at hcu
      exact congrArg some hcu
  have hposlt : pos < c.vars.length := hwf.mapIdx v pos hlookup
  have hcuBelow : OperandBelow cu c.freshR := hwf.varsBelow cu (List.get?_mem hget)
  obtain ⟨ph₀, ins₀, hcur⟩ := hwf.curOpen
  have hcurB : c.cur < c.freshB := hwf.curBelow
  have hblockB : c.block < c.freshB := hwf.blockEq ▸ hcurB
  have hne1 : c.cur ≠ c.freshB := by omega
  have hne2 : c.cur ≠ c.freshB + 1 := by omega
  have hnone1 : c.prog.lookupB c.freshB = none := by
    cases hx : c.prog.lookupB c.freshB with
    | none => rfl
    | some bd => exact absurd (hwf.blocksBelow _ _ hx) (by omega)
  have hnone2 : c.prog.lookupB (c.freshB + 1) = none := by
    cases hx : c.prog.lookupB (c.freshB + 1) with
    | none => rfl
    | some bd => exact absurd (hwf.blocksBelow _ _ hx) (by omega)
  have hcurP := decrProg_lookupB_cur c.prog c.cur c.block cu c.freshR (c.freshR + 1)
    (c.freshR + 2) c.freshB (c.freshB + 1) ph₀ ins₀ hcur hne1 hne2
  have hskipP := decrProg_lookupB_skip c.prog c.cur c.block cu c.freshR (c.freshR + 1)
    (c.freshR + 2) c.freshB (c.freshB + 1) hnone1 (Ne.symm hne1) (by omega)
  have hnsP := decrProg_lookupB_noSkip c.prog c.cur c.block cu c.freshR (c.freshR + 1)
    (c.freshR + 2) c.freshB (c.freshB + 1) hnone2 (Ne.symm hne2) (by omega)
  have hothP : ∀ b, b ≠ c.cur → b ≠ c.freshB → b ≠ c.freshB + 1 →
      (decrProg c.prog c.cur c.block cu c.freshR (c.freshR + 1) (c.freshR + 2)
        c.freshB (c.freshB + 1)).lookupB b = c.prog.lookupB b :=
    fun b h1 h2 h3 => decrProg_lookupB_other c.prog c.cur c.block cu c.freshR
      (c.freshR + 1) (c.freshR + 2) c.freshB (c.freshB + 1) b h1 h2 h3
  refine ⟨?_, ?_, ?_⟩
  · refine ⟨?_, ?_, ?_, ?_, ?_, ?_⟩
    · refine ⟨[(c.freshR + 2, [(cu, c.block), (.reg (c.freshR + 1), c.freshB + 1)])],
        [], ?_⟩
      rw [hprog, hcu2]
      exact hskipP
    · rw [hbk, hcu2]
    · intro op hop
      rw [hvarsEq] at hop
      rw [hfr]
      rcases List.mem_or_eq_of_mem_set hop with hmem | heq
      · have := hwf.varsBelow op hmem
        cases op with
        | reg q => simp only [OperandBelow] at this ⊢; omega
        | constV m => trivial
        | paramV i => trivial
      · subst heq
        simp only [OperandBelow]
        omega
    · intro b bd hbd
      rw [hprog] at hbd
      rw [hfb]
      by_cases hbs : b = c.freshB
      · omega
      by_cases hbn : b = c.freshB + 1
      · omega
      by_cases hbc : b = c.cur
      · omega
      rw [hothP b hbc hbs hbn] at hbd
      have := hwf.blocksBelow b bd hbd
      omega
    · intro nm idx hidx
      rw [hmapE] at hidx
      rw [hvarsEq]
      simpa [List.length_set] using hwf.mapIdx nm idx hidx
    · intro nm nm' idx h1 h2
      rw [hmapE] at h1 h2
      exact hwf.mapInj nm nm' idx h1 h2
  · refine ⟨hmapE, hphisE, ?_, ?_, ?_, ?_, ?_⟩
    · rw [hfr]; omega
    · rw [hfb]; omega
    · rw [hvarsEq]; simp
    · intro b bd hbd hbne
      have hblt := hwf.blocksBelow b bd hbd
      rw [hprog, hothP b hbne (by omega) (by omega)]
      exact hbd
    · exact Or.inr (by rw [hcu2])
  · refine ⟨[.icmpEq c.freshR cu (.constV 0)],
      some (.condBr (.reg c.freshR) c.freshB (c.freshB + 1)), ph₀, ins₀, hcur, ?_,
      fun hn => Option.noConfusion hn, ?_⟩
    · rw [hprog]
      exact hcurP
    · intro env out tr hvarsE p ext₁ tm₁ ph₁ ins₁ phx R hopen hpx hfx hlkp hcont
      show RestReaches p args c.cur [.icmpEq c.freshR cu (.constV 0)]
        (some (.condBr (.reg c.freshR) c.freshB (c.freshB + 1))) env out tr R
      rw [hprog, hcu2] at hopen
      rw [hcu2] at hlkp
      rw [hprog, hcu2] at hpx
      have hids := Option.some.inj (hopen.symm.trans hskipP)
      injection hids with hph₁ hins₁ _
      subst hph₁
      subst hins₁
      cases hfx with
      | cons h1 h2 =>
        rename_i ph' phs'
        cases h2
        obtain ⟨hre, extra, hed⟩ := h1
        obtain ⟨bdN, hbdN, hbxN⟩ := hpx (c.freshB + 1)
          ⟨[], [.subNuw (c.freshR + 1) cu (.constV 1)], some (.br c.freshB)⟩ hnsP (by omega)
        obtain ⟨bp, bi, bt⟩ := bdN
        obtain ⟨hphN, hdisjN⟩ := hbxN
        have hfrN : bi = [.subNuw (c.freshR + 1) cu (.constV 1)] ∧
            bt = some (.br c.freshB) := by
          rcases hdisjN with hnone | hfr
          · exact Option.noConfusion hnone
          · exact hfr
        obtain ⟨hinsN, htmN⟩ := hfrN
        simp only at hphN
        rw [List.forall₂_nil_left_iff] at hphN
        subst hphN
        subst hinsN
        subst htmN
        obtain ⟨op, hop, hev0⟩ := hvarsE v pos hlookup
        have hco : cu = op := by rw [hget] at hop; exact Option.some.inj hop
        have hev : evalOp args env cu = some (F v) := by rw [hco]; exact hev0
        have hinj : ∀ nm, lookupName c.mapping nm = some pos → nm = v :=
          fun nm hn => hwf.mapInj nm v pos hn hlookup
        by_cases hv0 : F v = 0
        · -- the variable is already zero: branch straight to `alreadyZero`
          have hkeys : EnvKeysGE [(c.freshR + 2, F v), (c.freshR, 1)] c.freshR := by
            intro e he
            simp at he
            rcases he with he | he <;> subst he
            · exact Nat.le_add_right _ 2
            · exact le_refl _
          have hcuE1 : evalOp args ((c.freshR, 1) :: env) cu = some (F v) := by
            have hp1 : EnvKeysGE [(c.freshR, 1)] c.freshR := by
              intro e he
              simp at he
              subst he
              exact le_refl _
            exact (evalOp_append_ge args [(c.freshR, 1)] env cu c.freshR hp1 hcuBelow).trans hev
          have hfind : List.find? (fun ed => ed.2 == c.cur) ph'.2 = some (cu, c.block) := by
            rw [hed, List.find?_append]
            have h0 : List.find? (fun ed => ed.2 == c.cur)
                [(cu, c.block), (Operand.reg (c.freshR + 1), c.freshB + 1)] =
                  some (cu, c.block) := by
              simp [List.find?, hwf.blockEq]
            rw [h0]
            rfl
          have hph : runPhis args ((c.freshR, 1) :: env) c.cur [ph'] =
              some [(c.freshR + 2, F v)] := by
            simp only [runPhis, bind, Option.bind, Option.pure_def, hfind, hcuE1, hre]
          have hpres : ∀ o ∈ c.vars,
              evalOp args ((c.freshR + 2, F v) :: (c.freshR, 1) :: env) o =
                evalOp args env o := by
            intro o ho
            exact evalOp_append_ge args [(c.freshR + 2, F v), (c.freshR, 1)] env o c.freshR
              hkeys (hwf.varsBelow o ho)
          have hnew : evalOp args ((c.freshR + 2, F v) :: (c.freshR, 1) :: env)
              (.reg (c.freshR + 2)) = some (F v - 1) := by
            simp only [evalOp]
            rw [lookup_cons_nat, if_pos rfl]
            rw [show F v - 1 = F v by omega]
          have hve := varsEval_set args ((c.freshR + 2, F v) :: (c.freshR, 1) :: env) env
            c c' F pos v (.reg (c.freshR + 2)) (F v - 1) hmapE hvarsEq hlookup hposlt
            hvarsE hinj hpres hnew
          have hstep := hcont ((c.freshR + 2, F v) :: (c.freshR, 1) :: env)
            (tr ++ [c.freshB]) (by exact hve)
            ⟨[(c.freshR + 2, F v), (c.freshR, 1)], rfl, hkeys⟩
            ⟨[c.freshB], rfl, by
              intro b hb
              simp at hb
              subst hb
              refine ⟨le_refl _, ?_⟩
              rw [hfb]
              omega⟩
          rw [hcu2] at hstep
          obtain ⟨g, hg⟩ := hstep
          refine ⟨g + 1, ?_⟩
          have e1 : execRest (g + 1) p args c.cur [.icmpEq c.freshR cu (.constV 0)]
              (some (.condBr (.reg c.freshR) c.freshB (c.freshB + 1))) env out tr =
              execF (g + 1) p args c.cur c.freshB ((c.freshR, 1) :: env) out tr := by
            rw [execRest_icmp_condBr (g + 1) p args c.cur c.freshR cu 0 c.freshB
              (c.freshB + 1) env out tr (F v) hev]
            simp [hv0]
          have e2 : execF (g + 1) p args c.cur c.freshB ((c.freshR, 1) :: env) out tr =
              execRest g p args c.freshB ext₁ tm₁
                ((c.freshR + 2, F v) :: (c.freshR, 1) :: env) out (tr ++ [c.freshB]) :=
            execF_openBlock g p args c.cur c.freshB ((c.freshR, 1) :: env) out tr
              [ph'] ([] ++ ext₁) tm₁ hlkp [(c.freshR + 2, F v)] hph [] ext₁ rfl
              ((c.freshR + 2, F v) :: (c.freshR, 1) :: env) out rfl
          rw [e1, e2]
          exact hg
        · -- the variable is not zero: go through `notZero` and subtract one
          have hkeys : EnvKeysGE [(c.freshR + 2, F v - 1), (c.freshR + 1, F v - 1),
              (c.freshR, 0)] c.freshR := by
            intro e he
            simp at he
            rcases he with he | he | he <;> subst he
            · exact Nat.le_add_right _ 2
            · exact Nat.le_add_right _ 1
            · exact le_refl _
          have hcuE1 : evalOp args ((c.freshR, 0) :: env) cu = some (F v) := by
            have hp1 : EnvKeysGE [(c.freshR, 0)] c.freshR := by
              intro e he
              simp at he
              subst he
              exact le_refl _
            exact (evalOp_append_ge args [(c.freshR, 0)] env cu c.freshR hp1 hcuBelow).trans hev
          have hrunSub : runInstrs args ((c.freshR, 0) :: env) out
              [.subNuw (c.freshR + 1) cu (.constV 1)] =
              some ((c.freshR + 1, F v - 1) :: (c.freshR, 0) :: env, out) := by
            simp only [runInstrs, runInstr, bind, Option.bind]
            rw [hcuE1]
            simp [evalOp]
          have hfind2 : List.find? (fun ed => ed.2 == c.freshB + 1) ph'.2 =
              some (Operand.reg (c.freshR + 1), c.freshB + 1) := by
            rw [hed, List.find?_append]
            have h0 : List.find? (fun ed => ed.2 == c.freshB + 1)
                [(cu, c.block), (Operand.reg (c.freshR + 1), c.freshB + 1)] =
                  some (Operand.reg (c.freshR + 1), c.freshB + 1) := by
              simp [List.find?,
                show (c.block == c.freshB + 1) = false from beq_false_of_ne (by omega)]
            rw [h0]
            rfl
          have hlookSub : evalOp args
              ((c.freshR + 1, F v - 1) :: (c.freshR, 0) :: env)
              (.reg (c.freshR + 1)) = some (F v - 1) := by
            simp only [evalOp]
            rw [lookup_cons_nat, if_pos rfl]
          have hph2 : runPhis args ((c.freshR + 1, F v - 1) :: (c.freshR, 0) :: env)
              (c.freshB + 1) [ph'] = some [(c.freshR + 2, F v - 1)] := by
            simp only [runPhis, bind, Option.bind, Option.pure_def, hfind2, hlookSub, hre]
          have hpres : ∀ o ∈ c.vars,
              evalOp args ((c.freshR + 2, F v - 1) :: (c.freshR + 1, F v - 1) ::
                (c.freshR, 0) :: env) o = evalOp args env o := by
            intro o ho
            exact evalOp_append_ge args
              [(c.freshR + 2, F v - 1), (c.freshR + 1, F v - 1), (c.freshR, 0)] env o
              c.freshR hkeys (hwf.varsBelow o ho)
          have hnew : evalOp args ((c.freshR + 2, F v - 1) :: (c.freshR + 1, F v - 1) ::
              (c.freshR, 0) :: env) (.reg (c.freshR + 2)) = some (F v - 1) := by
            simp only [evalOp]
            rw [lookup_cons_nat, if_pos rfl]
          have hve := varsEval_set args ((c.freshR + 2, F v - 1) ::
              (c.freshR + 1, F v - 1) :: (c.freshR, 0) :: env) env
            c c' F pos v (.reg (c.freshR + 2)) (F v - 1) hmapE hvarsEq hlookup hposlt
            hvarsE hinj hpres hnew
          have hstep := hcont ((c.freshR + 2, F v - 1) :: (c.freshR + 1, F v - 1) ::
              (c.freshR, 0) :: env)
            ((tr ++ [c.freshB + 1]) ++ [c.freshB]) (by exact hve)
            ⟨[(c.freshR + 2, F v - 1), (c.freshR + 1, F v - 1), (c.freshR, 0)], rfl, hkeys⟩
            ⟨[c.freshB + 1, c.freshB], by simp, by
              intro b hb
              simp at hb
              rcases hb with hb | hb <;> subst hb
              · refine ⟨Nat.le_add_right _ 1, ?_⟩
                rw [hfb]
                omega
              · refine ⟨le_refl _, ?_⟩
                rw [hfb]
                omega⟩
          rw [hcu2] at hstep
          obtain ⟨g, hg⟩ := hstep
          refine ⟨g + 2, ?_⟩
          have e1 : execRest (g + 2) p args c.cur [.icmpEq c.freshR cu (.constV 0)]
              (some (.condBr (.reg c.freshR) c.freshB (c.freshB + 1))) env out tr =
              execF (g + 2) p args c.cur (c.freshB + 1) ((c.freshR, 0) :: env) out tr := by
            rw [execRest_icmp_condBr (g + 2) p args c.cur c.freshR cu 0 c.freshB
              (c.freshB + 1) env out tr (F v) hev]
            simp [hv0]
          have e2 : execF (g + 2) p args c.cur (c.freshB + 1) ((c.freshR, 0) :: env)
              out tr =
              execRest (g + 1) p args (c.freshB + 1)
                [.subNuw (c.freshR + 1) cu (.constV 1)] (some (.br c.freshB))
                ((c.freshR, 0) :: env) out (tr ++ [c.freshB + 1]) :=
            execF_openBlock (g + 1) p args c.cur (c.freshB + 1) ((c.freshR, 0) :: env)
              out tr [] [.subNuw (c.freshR + 1) cu (.constV 1)] (some (.br c.freshB))
              hbdN [] rfl [] [.subNuw (c.freshR + 1) cu (.constV 1)] rfl
              ((c.freshR, 0) :: env) out rfl
          have e3 : execRest (g + 1) p args (c.freshB + 1)
              [.subNuw (c.freshR + 1) cu (.constV 1)] (some (.br c.freshB))
              ((c.freshR, 0) :: env) out (tr ++ [c.freshB + 1]) =
              execF (g + 1) p args (c.freshB + 1) c.freshB
                ((c.freshR + 1, F v - 1) :: (c.freshR, 0) :: env) out
                (tr ++ [c.freshB + 1]) := by
            simp only [execRest]
            rw [hrunSub]
            rfl
          have e4 : execF (g + 1) p args (c.freshB + 1) c.freshB
              ((c.freshR + 1, F v - 1) :: (c.freshR, 0) :: env) out
              (tr ++ [c.freshB + 1]) =
              execRest g p args c.freshB ext₁ tm₁
                ((c.freshR + 2, F v - 1) :: (c.freshR + 1, F v - 1) ::
                  (c.freshR, 0) :: env) out ((tr ++ [c.freshB + 1]) ++ [c.freshB]) :=
            execF_openBlock g p args (c.freshB + 1) c.freshB
              ((c.freshR + 1, F v - 1) :: (c.freshR, 0) :: env) out
              (tr ++ [c.freshB + 1]) [ph'] ([] ++ ext₁) tm₁ hlkp
              [(c.freshR + 2, F v - 1)] hph2 [] ext₁ rfl
              ((c.freshR + 2, F v - 1) :: (c.freshR + 1, F v - 1) ::
                (c.freshR, 0) :: env) out rfl
          rw [e1, e2, e3, e4]
          exact hg

/-- `add_copy` preserves well-formedness and realises the `copy` step of
the specification fold. -/
theorem add_copy_transfers (c c' : Converter) (vf vt : List Char) (args : List Nat) (F : Frame)
    (h : c.add_copy vf vt = .ok c') (hwf : ConvWF c) :
    ConvWF c' ∧ SegStruct c c' ∧
    Transfers c c' args F (specStep (.twoParam vf vt .copy) F) := by
  simp only [Converter.add_copy, bind, Except.bind] at h
  cases hposF : c.getIdx vf with
  | error e => rw [hposF] at h; simp at h
  | ok posF =>
    rw [hposF] at h
    simp only at h
    cases hcu : c.getVar posF with
    | error e => rw [hcu] at h; simp at h
    | ok cu =>
      rw [hcu] at h
      simp only at h
      cases hposT : c.getIdx vt with
      | error e => rw [hposT] at h; simp at h
      | ok posT =>
        rw [hposT] at h
        simp only [Except.ok.injEq] at h
        subst h
        have hlookupF : lookupName c.mapping vf = some posF := by
          simp only [Converter.getIdx] at hposF
          cases hln : lookupName c.mapping vf with
          | none => rw [hln] at hposF; simp at hposF
          | some i =>
            rw [hln] at hposF
            simp only [Except.ok.injEq] at hposF
            exact congrArg some hposF
        have hlookupT : lookupName c.mapping vt = some posT := by
          simp only [Converter.getIdx] at hposT
          cases hln : lookupName c.mapping vt with
          | none => rw [hln] at hposT; simp at hposT
          | some i =>
            rw [hln] at hposT
            simp only [Except.ok.injEq] at hposT
            exact congrArg some hposT
        have hget : c.vars.get? posF = some cu := by
          simp only [Converter.getVar] at hcu
          cases hg : c.vars.get? posF with
          | none => rw [hg] at hcu; simp at hcu
          | some op =>
            rw [hg] at hcu
            simp only [Except.ok.injEq] at hcu
            exact congrArg some hcu
        have hposTlt : posT < c.vars.length := hwf.mapIdx vt posT hlookupT
        obtain ⟨ph₀, ins₀, hcur⟩ := hwf.curOpen
        refine ⟨?_, ?_, ?_⟩
        · refine ⟨⟨ph₀, ins₀, hcur⟩, hwf.blockEq, ?_, hwf.blocksBelow, ?_, hwf.mapInj⟩
          · intro op hop
            rcases List.mem_or_eq_of_mem_set hop with hmem | heq
            · exact hwf.varsBelow op hmem
            · subst heq
              exact hwf.varsBelow _ (List.get?_mem hget)
          · intro nm idx hidx
            have := hwf.mapIdx nm idx hidx
            simpa using this
        · exact ⟨rfl, rfl, le_refl _, le_refl _, by simp, fun b bd hbd _ => hbd, Or.inl rfl⟩
        · refine ⟨[], none, ph₀, ins₀, hcur, by simpa using hcur, fun _ => rfl, ?_⟩
          intro env out tr hvars p ext₁ tm₁ ph₁ ins₁ phx R hopen hpx hfx hlkp hcont
          show RestReaches p args c.cur ([] ++ ext₁) tm₁ env out tr R
          obtain ⟨op, hop, hev⟩ := hvars vf posF hlookupF
          have hcuop : op = cu := by
            rw [hget] at hop
            exact (Option.some.inj hop).symm
          subst hcuop
          have hve := varsEval_set args env env c
            { c with vars := c.vars.set posT op }
            F posT vt op (F vf) rfl rfl hlookupT hposTlt hvars
            (fun nm hn => hwf.mapInj nm vt posT hn hlookupT) (fun o _ => rfl) hev
          exact hcont env tr (by exact hve)
            ⟨[], rfl, fun e he => absurd he (by simp)⟩
            ⟨[], by simp, by simp⟩

theorem segStruct_refl (c : Converter) : SegStruct c c :=
  ⟨rfl, rfl, le_refl _, le_refl _, rfl, fun _ _ hbd _ => hbd, Or.inl rfl⟩

/-- The empty building segment transfers control without effect. -/
theorem transfers_refl (c : Converter) (args : List Nat) (F : Frame) (hwf : ConvWF c) :
    Transfers c c args F F := by
  obtain ⟨ph₀, ins₀, hcur⟩ := hwf.curOpen
  refine ⟨[], none, ph₀, ins₀, hcur, by simpa using hcur, fun _ => rfl, ?_⟩
  intro env out tr hvars p ext₁ tm₁ ph₁ ins₁ phx R hopen hpx hfx hlkp hcont
  show RestReaches p args c.cur ([] ++ ext₁) tm₁ env out tr R
  exact hcont env tr hvars ⟨[], rfl, fun e he => absurd he (by simp)⟩
    ⟨[], by simp, by simp⟩

theorem segStruct_trans (c₀ c₁ c₂ : Converter)
    (hwf0 : ConvWF c₀)
    (h01 : SegStruct c₀ c₁) (h12 : SegStruct c₁ c₂) : SegStruct c₀ c₂ := by
  refine ⟨h12.mapEq.trans h01.mapEq, h12.phisEq.trans h01.phisEq,
    le_trans h01.freshRle h12.freshRle, le_trans h01.freshBle h12.freshBle,
    h12.varsLen.trans h01.varsLen, ?_, ?_⟩
  · intro b bd hbd hbne
    have hb1 : c₁.prog.lookupB b = some bd := h01.others b bd hbd hbne
    have hbne1 : b ≠ c₁.cur := by
      rcases h01.curNew with hcn | hcn
      · rw [hcn]; exact hbne
      · have := hwf0.blocksBelow b bd hbd
        omega
    exact h12.others b bd hb1 hbne1
  · rcases h12.curNew with hcn | hcn
    · rw [hcn]
      exact h01.curNew
    · right
      exact le_trans h01.freshBle hcn

/-- Building segments compose: the semantic transfer of two consecutive
segments is the transfer of the concatenation, taking `F` through `F'` to
`F''`. -/
theorem transfers_trans (c₀ c₁ c₂ : Converter) (args : List Nat) (F F' F'' : Frame)
    (hwf1 : ConvWF c₁)
    (hs01 : SegStruct c₀ c₁) (hs12 : SegStruct c₁ c₂)
    (h01 : Transfers c₀ c₁ args F F') (h12 : Transfers c₁ c₂ args F' F'') :
    Transfers c₀ c₂ args F F'' := by
  obtain ⟨δi₁, δt₁, ph₀, ins₀, hA0, hA1, hAc, hAsem⟩ := h01
  obtain ⟨δi₂, δt₂, phB, insB, hB0, hB1, hBc, hBsem⟩ := h12
  cases δt₁ with
  | some t₁ =>
    have hne : c₀.cur ≠ c₁.cur := by
      intro he
      rw [he] at hA1
      have h2 := Option.some.inj (hA1.symm.trans hB0)
      injection h2 with _ _ h3
      exact Option.noConfusion h3
    refine ⟨δi₁, some t₁, ph₀, ins₀, hA0,
      hs12.others c₀.cur _ hA1 hne, fun hn => Option.noConfusion hn, ?_⟩
    intro env out tr hvars p ext₁ tm₁ ph₁ ins₁ phx R hopen hpx hfx hlkp hcont
    show RestReaches p args c₀.cur δi₁ (some t₁) env out tr R
    have hpx₁ : ProgExtends c₁.prog p c₁.cur := by
      intro b bd hbd hbne
      have hbd2 : c₂.prog.lookupB b = some bd := hs12.others b bd hbd hbne
      have hbne2 : b ≠ c₂.cur := by
        rcases hs12.curNew with hcn | hcn
        · rw [hcn]; exact hbne
        · have := hwf1.blocksBelow b bd hbd
          omega
      exact hpx b bd hbd2 hbne2
    have hcont₂ : ∀ (env2 : Env) (tr2 : List Nat) (env' : Env) (tr' : List Nat),
        (∃ pre, env' = pre ++ env ∧ EnvKeysGE pre c₀.freshR) →
        (∃ Δ, tr' = tr ++ Δ ∧ ∀ b ∈ Δ, c₀.freshB ≤ b ∧ b < c₁.freshB) →
        VarsEval args env2 c₂ F'' →
        (∃ pre, env2 = pre ++ env' ∧ EnvKeysGE pre c₁.freshR) →
        (∃ Δ, tr2 = tr' ++ Δ ∧ ∀ b ∈ Δ, c₁.freshB ≤ b ∧ b < c₂.freshB) →
        RestReaches p args c₂.cur ext₁ tm₁ env2 out tr2 R := by
      intro env2 tr2 env' tr' hpre1 hΔ1 hv2 hpre2 hΔ2
      refine hcont env2 tr2 hv2 ?_ ?_
      · obtain ⟨pre2, hp2, hk2⟩ := hpre2
        obtain ⟨pre1, hp1, hk1⟩ := hpre1
        refine ⟨pre2 ++ pre1, by rw [hp2, hp1, List.append_assoc], ?_⟩
        intro e he
        rcases List.mem_append.mp he with h2 | h2
        · exact le_trans hs01.freshRle (hk2 e h2)
        · exact hk1 e h2
      · obtain ⟨d2, hd2, hb2⟩ := hΔ2
        obtain ⟨d1, hd1, hb1⟩ := hΔ1
        refine ⟨d1 ++ d2, by rw [hd2, hd1, List.append_assoc], ?_⟩
        intro b hb
        rcases List.mem_append.mp hb with h2 | h2
        · obtain ⟨hl, hr⟩ := hb1 b h2
          exact ⟨hl, lt_of_lt_of_le hr hs12.freshBle⟩
        · obtain ⟨hl, hr⟩ := hb2 b h2
          exact ⟨le_trans hs01.freshBle hl, hr⟩
    cases δt₂ with
    | none =>
      have hcont₁ : ∀ (env' : Env) (tr' : List Nat),
          VarsEval args env' c₁ F' →
          (∃ pre, env' = pre ++ env ∧ EnvKeysGE pre c₀.freshR) →
          (∃ Δ, tr' = tr ++ Δ ∧ ∀ b ∈ Δ, c₀.freshB ≤ b ∧ b < c₁.freshB) →
          RestReaches p args c₁.cur (δi₂ ++ ext₁) tm₁ env' out tr' R :=
        fun env' tr' hv1 hpre1 hΔ1 =>
          hBsem env' out tr' hv1 p ext₁ tm₁ ph₁ ins₁ phx R hopen hpx hfx hlkp
            (fun env2 tr2 hv2 hpre2 hΔ2 => hcont₂ env2 tr2 env' tr' hpre1 hΔ1 hv2 hpre2 hΔ2)
      have hB1' : c₂.prog.lookupB c₂.cur = some ⟨phB, insB ++ δi₂, none⟩ := by
        rw [hBc rfl]; exact hB1
      have hid2 := Option.some.inj (hopen.symm.trans hB1')
      injection hid2 with hph12 hins12 _
      have hfxB : List.Forall₂ PhiExtends phB phx := hph12 ▸ hfx
      have hlkpB : p.lookupB c₁.cur = some ⟨phx, insB ++ (δi₂ ++ ext₁), tm₁⟩ := by
        have h2 := hlkp
        rw [hBc rfl] at h2
        rw [hins12, List.append_assoc] at h2
        exact h2
      exact hAsem env out tr hvars p (δi₂ ++ ext₁) tm₁ phB insB phx R hB0 hpx₁ hfxB hlkpB
        hcont₁
    | some t₂ =>
      have hcont₁ : ∀ (env' : Env) (tr' : List Nat),
          VarsEval args env' c₁ F' →
          (∃ pre, env' = pre ++ env ∧ EnvKeysGE pre c₀.freshR) →
          (∃ Δ, tr' = tr ++ Δ ∧ ∀ b ∈ Δ, c₀.freshB ≤ b ∧ b < c₁.freshB) →
          RestReaches p args c₁.cur δi₂ (some t₂) env' out tr' R :=
        fun env' tr' hv1 hpre1 hΔ1 =>
          hBsem env' out tr' hv1 p ext₁ tm₁ ph₁ ins₁ phx R hopen hpx hfx hlkp
            (fun env2 tr2 hv2 hpre2 hΔ2 => hcont₂ env2 tr2 env' tr' hpre1 hΔ1 hv2 hpre2 hΔ2)
      have hne12 : c₁.cur ≠ c₂.cur := by
        intro he
        rw [he] at hB1
        have h2 := Option.some.inj (hB1.symm.trans hopen)
        injection h2 with _ _ h3
        exact Option.noConfusion h3
      obtain ⟨bd2, hbd2, hbx2⟩ := hpx c₁.cur _ hB1 hne12
      obtain ⟨bp, bi, bt⟩ := bd2
      obtain ⟨hfxB, hdisj2⟩ := hbx2
      have hfr2 : bi = insB ++ δi₂ ∧ bt = some t₂ := by
        rcases hdisj2 with hnone | hfr
        · exact Option.noConfusion hnone
        · exact hfr
      obtain ⟨hbi, hbt⟩ := hfr2
      simp only at hfxB
      subst hbi
      subst hbt
      exact hAsem env out tr hvars p δi₂ (some t₂) phB insB bp R hB0 hpx₁ hfxB hbd2 hcont₁
  | none =>
    have hcc : c₁.cur = c₀.cur := hAc rfl
    have hB0' : c₁.prog.lookupB c₀.cur = some ⟨phB, insB, none⟩ := by
      rw [← hcc]; exact hB0
    have hid := Option.some.inj (hA1.symm.trans hB0')
    injection hid with hphid hinsid _
    refine ⟨δi₁ ++ δi₂, δt₂, ph₀, ins₀, hA0, ?_, ?_, ?_⟩
    · have h2 := hB1
      rw [hcc] at h2
      rw [← hphid, ← hinsid, List.append_assoc] at h2
      exact h2
    · intro hn
      rw [hBc hn, hcc]
    · intro env out tr hvars p ext₁ tm₁ ph₁ ins₁ phx R hopen hpx hfx hlkp hcont
      have hpx₁ : ProgExtends c₁.prog p c₁.cur := by
        intro b bd hbd hbne
        have hbd2 : c₂.prog.lookupB b = some bd := hs12.others b bd hbd hbne
        have hbne2 : b ≠ c₂.cur := by
          rcases hs12.curNew with hcn | hcn
          · rw [hcn]; exact hbne
          · have := hwf1.blocksBelow b bd hbd
            omega
        exact hpx b bd hbd2 hbne2
      have hcont₂ : ∀ (env2 : Env) (tr2 : List Nat) (env' : Env) (tr' : List Nat),
          (∃ pre, env' = pre ++ env ∧ EnvKeysGE pre c₀.freshR) →
          (∃ Δ, tr' = tr ++ Δ ∧ ∀ b ∈ Δ, c₀.freshB ≤ b ∧ b < c₁.freshB) →
          VarsEval args env2 c₂ F'' →
          (∃ pre, env2 = pre ++ env' ∧ EnvKeysGE pre c₁.freshR) →
          (∃ Δ, tr2 = tr' ++ Δ ∧ ∀ b ∈ Δ, c₁.freshB ≤ b ∧ b < c₂.freshB) →
          RestReaches p args c₂.cur ext₁ tm₁ env2 out tr2 R := by
        intro env2 tr2 env' tr' hpre1 hΔ1 hv2 hpre2 hΔ2
        refine hcont env2 tr2 hv2 ?_ ?_
        · obtain ⟨pre2, hp2, hk2⟩ := hpre2
          obtain ⟨pre1, hp1, hk1⟩ := hpre1
          refine ⟨pre2 ++ pre1, by rw [hp2, hp1, List.append_assoc], ?_⟩
          intro e he
          rcases List.mem_append.mp he with h2 | h2
          · exact le_trans hs01.freshRle (hk2 e h2)
          · exact hk1 e h2
        · obtain ⟨d2, hd2, hb2⟩ := hΔ2
          obtain ⟨d1, hd1, hb1⟩ := hΔ1
          refine ⟨d1 ++ d2, by rw [hd2, hd1, List.append_assoc], ?_⟩
          intro b hb
          rcases List.mem_append.mp hb with h2 | h2
          · obtain ⟨hl, hr⟩ := hb1 b h2
            exact ⟨hl, lt_of_lt_of_le hr hs12.freshBle⟩
          · obtain ⟨hl, hr⟩ := hb2 b h2
            exact ⟨le_trans hs01.freshBle hl, hr⟩
      cases δt₂ with
      | none =>
        show RestReaches p args c₀.cur ((δi₁ ++ δi₂) ++ ext₁) tm₁ env out tr R
        have hcont₁ : ∀ (env' : Env) (tr' : List Nat),
            VarsEval args env' c₁ F' →
            (∃ pre, env' = pre ++ env ∧ EnvKeysGE pre c₀.freshR) →
            (∃ Δ, tr' = tr ++ Δ ∧ ∀ b ∈ Δ, c₀.freshB ≤ b ∧ b < c₁.freshB) →
            RestReaches p args c₁.cur (δi₂ ++ ext₁) tm₁ env' out tr' R :=
          fun env' tr' hv1 hpre1 hΔ1 =>
            hBsem env' out tr' hv1 p ext₁ tm₁ ph₁ ins₁ phx R hopen hpx hfx hlkp
              (fun env2 tr2 hv2 hpre2 hΔ2 => hcont₂ env2 tr2 env' tr' hpre1 hΔ1 hv2 hpre2 hΔ2)
        have hB1' : c₂.prog.lookupB c₂.cur = some ⟨phB, insB ++ δi₂, none⟩ := by
          rw [hBc rfl]; exact hB1
        have hid2 := Option.some.inj (hopen.symm.trans hB1')
        injection hid2 with hph12 hins12 _
        have hfxB : List.Forall₂ PhiExtends phB phx := hph12 ▸ hfx
        have hlkpB : p.lookupB c₁.cur = some ⟨phx, insB ++ (δi₂ ++ ext₁), tm₁⟩ := by
          have h2 := hlkp
          rw [hBc rfl] at h2
          rw [hins12, List.append_assoc] at h2
          exact h2
        have hmain := hAsem env out tr hvars p (δi₂ ++ ext₁) tm₁ phB insB phx R hB0 hpx₁
          hfxB hlkpB hcont₁
        rw [List.append_assoc]
        exact hmain
      | some t₂ =>
        show RestReaches p args c₀.cur (δi₁ ++ δi₂) (some t₂) env out tr R
        have hcont₁ : ∀ (env' : Env) (tr' : List Nat),
            VarsEval args env' c₁ F' →
            (∃ pre, env' = pre ++ env ∧ EnvKeysGE pre c₀.freshR) →
            (∃ Δ, tr' = tr ++ Δ ∧ ∀ b ∈ Δ, c₀.freshB ≤ b ∧ b < c₁.freshB) →
            RestReaches p args c₁.cur δi₂ (some t₂) env' out tr' R :=
          fun env' tr' hv1 hpre1 hΔ1 =>
            hBsem env' out tr' hv1 p ext₁ tm₁ ph₁ ins₁ phx R hopen hpx hfx hlkp
              (fun env2 tr2 hv2 hpre2 hΔ2 => hcont₂ env2 tr2 env' tr' hpre1 hΔ1 hv2 hpre2 hΔ2)
        have hne12 : c₁.cur ≠ c₂.cur := by
          intro he
          rw [he] at hB1
          have h2 := Option.some.inj (hB1.symm.trans hopen)
          injection h2 with _ _ h3
          exact Option.noConfusion h3
        obtain ⟨bd2, hbd2, hbx2⟩ := hpx c₁.cur _ hB1 hne12
        obtain ⟨bp, bi, bt⟩ := bd2
        obtain ⟨hfxB, hdisj2⟩ := hbx2
        have hfr2 : bi = insB ++ δi₂ ∧ bt = some t₂ := by
          rcases hdisj2 with hnone | hfr
          · exact Option.noConfusion hnone
          · exact hfr
        obtain ⟨hbi, hbt⟩ := hfr2
        simp only at hfxB
        subst hbi
        subst hbt
        exact hAsem env out tr hvars p δi₂ (some t₂) phB insB bp R hB0 hpx₁ hfxB hbd2 hcont₁

/-- The straight-line statements: the frame-manipulating operations plus
the inert `Fluff` — everything except `while`/`end`/`EOF`. -/
def SimpleStmt : Statement → Prop
  | .oneParam _ _ => True
  | .twoParam _ _ _ => True
  | .fluff => True
  | _ => False

/-- Compiling one straight-line statement preserves well-formedness and
realises its specification step. -/
theorem compileS_simple_transfers (s : Statement) (order : List (List Char × Nat))
    (c c' : Converter) (args : List Nat) (F : Frame)
    (hs : SimpleStmt s) (h : s.compileS order c = .ok c') (hwf : ConvWF c) :
    ConvWF c' ∧ SegStruct c c' ∧ Transfers c c' args F (specStep s F) := by
  cases s with
  | oneParam v ty =>
    cases ty with
    | clear => exact add_clear_transfers c c' v args F h hwf
    | decr => exact add_decr_transfers c c' v args F h hwf
    | incr => exact add_incr_transfers c c' v args F h hwf
  | twoParam a b ty =>
    cases ty with
    | copy => exact add_copy_transfers c c' a b args F h hwf
  | fluff =>
    have hc : c = c' := Except.ok.inj h
    subst hc
    exact ⟨hwf, segStruct_refl c, transfers_refl c args F hwf⟩
  | whileS pym n => exact hs.elim
  | endS => exact hs.elim
  | eofS => exact hs.elim

/-- Replaying a straight-line statement list composes the per-statement
transfers into the transfer of the specification fold. -/
theorem replay_simples (args : List Nat) :
    ∀ (ss : List Statement) (order : List (List Char × Nat)) (c₀ c₁ : Converter)
      (F : Frame),
    (∀ s ∈ ss, SimpleStmt s) →
    replay order ss c₀ = .ok c₁ →
    ConvWF c₀ →
    ConvWF c₁ ∧ SegStruct c₀ c₁ ∧ Transfers c₀ c₁ args F (specFold ss F) := by
  intro ss
  induction ss with
  | nil =>
    intro order c₀ c₁ F _ h hwf
    have hc : c₀ = c₁ := Except.ok.inj h
    subst hc
    exact ⟨hwf, segStruct_refl c₀, transfers_refl c₀ args F hwf⟩
  | cons s rest ih =>
    intro order c₀ c₁ F hall h hwf
    simp only [replay, bind, Except.bind] at h
    cases hm : s.compileS order c₀ with
    | error e => rw [hm] at h; simp at h
    | ok cm =>
      rw [hm] at h
      simp only at h
      obtain ⟨hwfm, hs0m, ht0m⟩ :=
        compileS_simple_transfers s order c₀ cm args F (hall s (by simp)) hm hwf
      obtain ⟨hwf1, hsm1, htm1⟩ :=
        ih order cm c₁ (specStep s F) (fun x hx => hall x (by simp [hx])) h hwfm
      exact ⟨hwf1, segStruct_trans c₀ cm c₁ hwf hs0m hsm1,
        transfers_trans c₀ cm c₁ args F (specStep s F) (specFold rest (specStep s F))
          hwfm hs0m hsm1 ht0m htm1⟩

theorem lookup_cons_name {β : Type} (k b' : List Char) (bd : β)
    (rest : List (List Char × β)) :
    List.lookup b' ((k, bd) :: rest) = if b' = k then some bd else List.lookup b' rest := by
  by_cases h : b' = k
  · simp [List.lookup, h]
  · simp [List.lookup, h, beq_false_of_ne h]

/-- Looking a name up in the swapped enumeration of the variable table
finds the table entry at the returned index. -/
theorem lookup_enumFrom_map (nm : List Char) :
    ∀ (varib : List (List Char)) (k idx : Nat),
    List.lookup nm ((List.enumFrom k varib).map (fun e => (e.2, e.1))) = some idx →
    k ≤ idx ∧ idx - k < varib.length ∧ varib.get? (idx - k) = some nm := by
  intro varib
  induction varib with
  | nil => intro k idx h; simp [List.enumFrom] at h
  | cons x rest ih =>
    intro k idx h
    simp only [List.enumFrom, List.map_cons] at h
    rw [lookup_cons_name] at h
    by_cases hk : nm = x
    · rw [if_pos hk] at h
      have hkidx : k = idx := Option.some.inj h
      subst hkidx
      refine ⟨le_refl _, by simp, ?_⟩
      simp [Nat.sub_self, hk]
    · rw [if_neg hk] at h
      obtain ⟨h1, h2, h3⟩ := ih (k + 1) idx h
      refine ⟨by omega, by simp only [List.length_cons]; omega, ?_⟩
      have hik : idx - k = (idx - (k + 1)) + 1 := by omega
      rw [hik]
      simpa using h3

theorem replay_append (order : List (List Char × Nat)) :
    ∀ (l₁ l₂ : List Statement) (c : Converter),
    replay order (l₁ ++ l₂) c =
      match replay order l₁ c with
      | .ok c1 => replay order l₂ c1
      | .error e => .error e := by
  intro l₁
  induction l₁ with
  | nil => intro l₂ c; rfl
  | cons s rest ih =>
    intro l₂ c
    simp only [List.cons_append, replay, bind, Except.bind]
    cases hm : s.compileS order c with
    | error e => simp only
    | ok c1 =>
      simp only
      exact ih l₂ c1

/-- `Converter::new` with no declared inputs. -/
theorem converter_new_nil (varib : List (List Char)) :
    Converter.new varib [] = .ok
      { prog := (Prog.mk []).addBlock 0
        vars := List.replicate varib.length (.constV 0)
        phis := []
        mapping := varib.enum.map (fun e => (e.2, e.1))
        freshR := 0
        freshB := 1
        block := 0
        cur := 0 } := rfl

/-- Running the `printf` report instructions appends one `(name, value)`
report per order entry, with the value the current frame value of the
variable. -/
theorem runInstrs_reports (args : List Nat) (G : Frame) (vars : List Operand) :
    ∀ (order : List (List Char × Nat)) (env : Env) (out : Reports),
    (∀ e ∈ order, ∃ op, vars.get? e.2 = some op ∧ evalOp args env op = some (G e.1)) →
    runInstrs args env out (reportInstrs vars order) =
      some (env, out ++ order.map (fun e => (e.1, G e.1))) := by
  intro order
  induction order with
  | nil => intro env out _; simp [reportInstrs, runInstrs]
  | cons e rest ih =>
    intro env out hall
    obtain ⟨op, hop, hev⟩ := hall e (by simp)
    have hop2 : (vars.get? e.2).getD (.constV 0) = op := by rw [hop]; rfl
    simp only [reportInstrs, List.map_cons, runInstrs, runInstr, bind, Option.bind]
    rw [hop2, hev]
    simp only
    have hih := ih env (out ++ [(e.1, G e.1)]) (fun x hx => hall x (by simp [hx]))
    simp only [reportInstrs] at hih
    rw [hih]
    simp

/-- Unpacking a successful `add_eof`. -/
theorem add_eof_ok (c cf : Converter) (order : List (List Char × Nat))
    (hphis : c.phis = [])
    (hbnd : ∀ e ∈ order, e.2 < c.vars.length)
    (h : c.add_eof order = .ok cf) :
    cf = { c with prog := ((reportInstrs c.vars order).foldl
      (fun pr i => pr.appendInstr c.cur i) c.prog).setTerm c.cur .ret } := by
  simp only [Converter.add_eof, hphis, bind, Except.bind] at h
  rw [add_eof_fold c.cur c.vars order c.prog hbnd] at h
  have h2 := Except.ok.inj h
  subst h2
  rw [hphis]

/-- **C1.** For every straight-line program (no `while` statements): when
the variable table is built from the statements, the Converter starts from
`Converter::new` and replays the statements followed by the `EOF`
finaliser, the generated SSA program terminates and reports, for every
entry of the (HashMap-ordered) report list, exactly the value obtained by
folding the statements' `incr`/`decr`/`clear`/`copy` actions over the
all-zeroes initial frame in source order — with `incr` adding one (mod
`2^64`), `clear` setting zero, `copy` rebinding the target, and `decr`
saturating at zero. -/
theorem straight_line_fold_correct (ss : List Statement)
    (order : List (List Char × Nat)) (c0 cf : Converter)
    (hsimple : ∀ s ∈ ss, SimpleStmt s)
    (hnew : Converter.new (varTable (ss ++ [Statement.eofS])) [] = .ok c0)
    (hreplay : replay order (ss ++ [Statement.eofS]) c0 = .ok cf)
    (horder : ∀ e ∈ order, lookupName c0.mapping e.1 = some e.2) :
    ∃ fuel tr, runProg fuel cf.prog [] =
      .finished (order.map (fun e => (e.1, specFold ss zeroFrame e.1))) tr := by
  have hc0 : c0 =
      { prog := (Prog.mk []).addBlock 0
        vars := List.replicate (varTable (ss ++ [Statement.eofS])).length (.constV 0)
        phis := []
        mapping := (varTable (ss ++ [Statement.eofS])).enum.map (fun e => (e.2, e.1))
        freshR := 0
        freshB := 1
        block := 0
        cur := 0 } :=
    Except.ok.inj (hnew.symm.trans (converter_new_nil _))
  have hprog0 : c0.prog = (Prog.mk []).addBlock 0 := by rw [hc0]
  have hvarsc0 : c0.vars =
      List.replicate (varTable (ss ++ [Statement.eofS])).length (.constV 0) := by rw [hc0]
  have hphis0 : c0.phis = [] := by rw [hc0]
  have hmap0 : c0.mapping =
      (varTable (ss ++ [Statement.eofS])).enum.map (fun e => (e.2, e.1)) := by rw [hc0]
  have hfB0 : c0.freshB = 1 := by rw [hc0]
  have hblock0 : c0.block = 0 := by rw [hc0]
  have hcur0 : c0.cur = 0 := by rw [hc0]
  have hlk0 : c0.prog.lookupB 0 = some ⟨[], [], none⟩ := by rw [hprog0]; rfl
  have hwf0 : ConvWF c0 := by
    refine ⟨⟨[], [], by rw [hcur0]; exact hlk0⟩, by rw [hblock0, hcur0], ?_, ?_, ?_, ?_⟩
    · intro op hop
      rw [hvarsc0] at hop
      rw [List.eq_of_mem_replicate hop]
      trivial
    · intro b bd hbd
      rw [hprog0] at hbd
      have hbd' : List.lookup b [((0 : Nat), (⟨[], [], none⟩ : BlockData))] = some bd := hbd
      rw [lookup_cons_nat] at hbd'
      by_cases hb : b = 0
      · rw [hfB0]; omega
      · rw [if_neg hb] at hbd'
        simp at hbd'
    · intro nm idx h
      rw [hmap0] at h
      have h2 := (lookup_enumFrom_map nm _ 0 idx h).2.1
      rw [hvarsc0, List.length_replicate]
      simpa using h2
    · intro nm nm' idx h1 h2
      rw [hmap0] at h1 h2
      have g1 := (lookup_enumFrom_map nm _ 0 idx h1).2.2
      have g2 := (lookup_enumFrom_map nm' _ 0 idx h2).2.2
      exact Option.some.inj (g1.symm.trans g2)
  have hvars0 : VarsEval [] [] c0 zeroFrame := by
    intro nm idx h
    rw [hmap0] at h
    have h2 := (lookup_enumFrom_map nm _ 0 idx h).2.1
    simp only [Nat.sub_zero] at h2
    refine ⟨.constV 0, ?_, rfl⟩
    rw [hvarsc0, List.get?_eq_getElem?, List.getElem?_replicate]
    simp [h2]
  rw [replay_append] at hreplay
  cases hr1 : replay order ss c0 with
  | error e => rw [hr1] at hreplay; simp at hreplay
  | ok c1 =>
    rw [hr1] at hreplay
    simp only at hreplay
    obtain ⟨hwf1, hs01, htrans⟩ :=
      replay_simples [] ss order c0 c1 zeroFrame hsimple hr1 hwf0
    have haddeof : c1.add_eof order = .ok cf := by
      simp only [replay, Statement.compileS, bind, Except.bind] at hreplay
      cases he : c1.add_eof order with
      | error e => rw [he] at hreplay; simp at hreplay
      | ok x =>
        rw [he] at hreplay
        simp only at hreplay
        have hx : x = cf := Except.ok.inj hreplay
        exact congrArg Except.ok hx
    have hphis1 : c1.phis = [] := hs01.phisEq.trans hphis0
    have hbnd : ∀ e ∈ order, e.2 < c1.vars.length := by
      intro e he
      have h1 : lookupName c1.mapping e.1 = some e.2 := by
        rw [hs01.mapEq]; exact horder e he
      exact hwf1.mapIdx e.1 e.2 h1
    have hcf : cf = { c1 with prog := ((reportInstrs c1.vars order).foldl
        (fun pr i => pr.appendInstr c1.cur i) c1.prog).setTerm c1.cur .ret } :=
      add_eof_ok c1 cf order hphis1 hbnd haddeof
    have hcfprog : cf.prog = ((reportInstrs c1.vars order).foldl
        (fun pr i => pr.appendInstr c1.cur i) c1.prog).setTerm c1.cur .ret := by rw [hcf]
    obtain ⟨ph₁, ins₁, hcur1⟩ := hwf1.curOpen
    have hcur_cf : cf.prog.lookupB c1.cur =
        some ⟨ph₁, ins₁ ++ reportInstrs c1.vars order, some .ret⟩ := by
      rw [hcfprog, lookupB_setTerm, if_pos rfl, lookupB_foldl_appendInstr, if_pos rfl,
        hcur1]
      rfl
    have hoth_cf : ∀ b, b ≠ c1.cur → cf.prog.lookupB b = c1.prog.lookupB b := by
      intro b hb
      rw [hcfprog, lookupB_setTerm, if_neg hb, lookupB_foldl_appendInstr, if_neg hb]
    have hpx_cf : ProgExtends c1.prog cf.prog c1.cur := by
      intro b bd hbd hbne
      exact ⟨bd, by rw [hoth_cf b hbne]; exact hbd, blockExtends_refl bd⟩
    have hcontF : ∀ (env' : Env) (tr' : List Nat),
        VarsEval [] env' c1 (specFold ss zeroFrame) →
        (∃ pre, env' = pre ++ ([] : Env) ∧ EnvKeysGE pre c0.freshR) →
        (∃ Δ, tr' = [0] ++ Δ ∧ ∀ b ∈ Δ, c0.freshB ≤ b ∧ b < c1.freshB) →
        RestReaches cf.prog [] c1.cur (reportInstrs c1.vars order) (some .ret) env' []
          tr' (fun o => ∃ trF, o = .finished
            (order.map (fun e => (e.1, specFold ss zeroFrame e.1))) trF) := by
      intro env' tr' hv _ _
      have hall : ∀ e ∈ order, ∃ op, c1.vars.get? e.2 = some op ∧
          evalOp [] env' op = some (specFold ss zeroFrame e.1) := by
        intro e he
        exact hv e.1 e.2 (by rw [hs01.mapEq]; exact horder e he)
      have hrun := runInstrs_reports [] (specFold ss zeroFrame) c1.vars order env' [] hall
      refine ⟨0, ?_⟩
      simp only [execRest]
      rw [hrun]
      exact ⟨tr', rfl⟩
    obtain ⟨δi, δt, ph₀, ins₀, hT0, hT1, hTc, hTsem⟩ := htrans
    have hT0' := hT0
    rw [hcur0] at hT0'
    have hid0 := Option.some.inj (hT0'.symm.trans hlk0)
    injection hid0 with hph0 hins0 _
    subst hph0
    subst hins0
    rw [hcur0] at hT1
    cases δt with
    | none =>
      have hc1cur : c1.cur = 0 := (hTc rfl).trans hcur0
      have hcur1' := hcur1
      rw [hc1cur] at hcur1'
      have hid1 := Option.some.inj (hcur1'.symm.trans hT1)
      injection hid1 with hph1 hins1 _
      have hsem := hTsem [] [] [0] hvars0 cf.prog (reportInstrs c1.vars order)
        (some .ret) ph₁ ins₁ ph₁
        (fun o => ∃ trF, o = .finished
          (order.map (fun e => (e.1, specFold ss zeroFrame e.1))) trF)
        hcur1 hpx_cf (List.forall₂_same.mpr (fun ph _ => ⟨rfl, [], by simp⟩)) hcur_cf
        hcontF
      obtain ⟨f, hf⟩ := hsem
      rw [hcur0] at hf
      obtain ⟨trF, htrF⟩ := hf
      refine ⟨f + 1, trF, ?_⟩
      have hcur_cf0 : cf.prog.lookupB 0 =
          some ⟨ph₁, ins₁ ++ reportInstrs c1.vars order, some .ret⟩ := by
        rw [← hc1cur]
        exact hcur_cf
      have hph1run : runPhis [] [] 0 ph₁ = some [] := by rw [hph1]; rfl
      have hentry := execF_openBlock f cf.prog [] 0 0 [] [] [] ph₁
        (ins₁ ++ reportInstrs c1.vars order) (some .ret) hcur_cf0 [] hph1run
        [] (ins₁ ++ reportInstrs c1.vars order) rfl [] [] rfl
      rw [hins1] at hentry
      exact hentry.trans htrF
    | some t =>
      have hne10 : c1.cur ≠ 0 := by
        intro he
        rw [he] at hcur1
        have h2 := Option.some.inj (hcur1.symm.trans hT1)
        injection h2 with _ _ h3
        exact Option.noConfusion h3
      have hblk0cf : cf.prog.lookupB 0 = some ⟨[], [] ++ δi, some t⟩ := by
        rw [hoth_cf 0 (fun he => hne10 he.symm)]
        exact hT1
      have hsem := hTsem [] [] [0] hvars0 cf.prog (reportInstrs c1.vars order)
        (some .ret) ph₁ ins₁ ph₁
        (fun o => ∃ trF, o = .finished
          (order.map (fun e => (e.1, specFold ss zeroFrame e.1))) trF)
        hcur1 hpx_cf (List.forall₂_same.mpr (fun ph _ => ⟨rfl, [], by simp⟩)) hcur_cf
        hcontF
      obtain ⟨f, hf⟩ := hsem
      rw [hcur0] at hf
      obtain ⟨trF, htrF⟩ := hf
      refine ⟨f + 1, trF, ?_⟩
      have hentry := execF_openBlock f cf.prog [] 0 0 [] [] [] [] ([] ++ δi) (some t)
        hblk0cf [] rfl [] ([] ++ δi) rfl [] [] rfl
      exact hentry.trans htrF

/-- The straight-line fixture: two increments, three (saturating)
decrements, a copy and a final increment on the copy target. -/
def ssC1 : List Statement :=
  [.oneParam ['x'] .incr, .oneParam ['x'] .incr, .oneParam ['x'] .decr,
   .oneParam ['x'] .decr, .oneParam ['x'] .decr, .twoParam ['x'] ['y'] .copy,
   .oneParam ['y'] .incr]

def ordC1 : List (List Char × Nat) := [(['x'], 0), (['y'], 1)]

def convC1new : Converter :=
  (Converter.new (varTable (ssC1 ++ [.eofS])) []).toOption.getD convFixture

def convC1fin : Converter :=
  ((Converter.new (varTable (ssC1 ++ [.eofS])) []).bind
    (replay ordC1 (ssC1 ++ [.eofS]))).toOption.getD convFixture

/-- Witness for C1: the fixture program reports `x = 0` (three decrements
saturate the two increments at zero) and `y = 1`. -/
theorem straight_line_fold_correct_witness :
    ∃ fuel tr, runProg fuel convC1fin.prog [] =
      .finished [(['x'], 0), (['y'], 1)] tr := by
  have h := straight_line_fold_correct ssC1 ordC1 convC1new convC1fin
    (by intro s hs; fin_cases hs <;> trivial)
    rfl rfl (by decide)
  have hmap : ordC1.map (fun e => (e.1, specFold ssC1 zeroFrame e.1)) =
      [(['x'], 0), (['y'], 1)] := by decide
  rw [hmap] at h
  exact h

/-! ## Claim C2 (amended): loop construction and execution -/

/-- The program fragment `add_while` builds (convert.rs lines 130–164),
factored out of `Converter.add_while` for lookup reasoning. -/
def whileProg (P0 : Prog) (cur blockIn : Nat) (vars : List Operand)
    (r0 lop innerLoop exitB : Nat) (vphi : Operand) (k64 : Nat) : Prog :=
  let p := (P0.addBlock lop).setTerm cur (.br lop)
  let p := (List.range vars.length).foldl
    (fun pr i => pr.appendPhi lop (r0 + i) [((vars.get? i).getD (.constV 0), blockIn)]) p
  let p := p.appendInstr lop (.icmpEq (r0 + vars.length) vphi (.constV k64))
  let p := (p.addBlock innerLoop).addBlock exitB
  p.setTerm lop (.condBr (.reg (r0 + vars.length)) exitB innerLoop)

theorem add_while_eq (c : Converter) (v : List Char) (check : Int) (pos : Nat)
    (vphi : Operand)
    (hpos : c.getIdx v = .ok pos)
    (hvphi : (((List.range c.vars.length).map (fun i => c.freshR + i)).map
      Operand.reg).get? pos = some vphi) :
    c.add_while v check = .ok { c with
      prog := whileProg c.prog c.cur c.block c.vars c.freshR c.freshB (c.freshB + 1)
        (c.freshB + 2) vphi (toU64 check)
      vars := ((List.range c.vars.length).map (fun i => c.freshR + i)).map Operand.reg
      phis := ((List.range c.vars.length).map (fun i => c.freshR + i),
        (c.freshB, c.freshB + 2)) :: c.phis
      freshR := c.freshR + c.vars.length + 1
      freshB := c.freshB + 3
      block := c.freshB + 1
      cur := c.freshB + 1 } := by
  simp only [Converter.add_while, bind, Except.bind, hpos, hvphi, whileProg]

theorem whileProg_lookupB_cur (P0 : Prog) (cur blockIn : Nat) (vars : List Operand)
    (r0 lop innerLoop exitB : Nat) (vphi : Operand) (k64 : Nat)
    (ph0 : List (Nat × List (Operand × Nat))) (ins0 : List Instr)
    (hcur : P0.lookupB cur = some ⟨ph0, ins0, none⟩)
    (h1 : cur ≠ lop) (h2 : cur ≠ innerLoop) (h3 : cur ≠ exitB) :
    (whileProg P0 cur blockIn vars r0 lop innerLoop exitB vphi k64).lookupB cur =
      some ⟨ph0, ins0, some (.br lop)⟩ := by
  simp only [whileProg]
  rw [lookupB_setTerm, if_neg h1, lookupB_addBlock, lookupB_addBlock,
    lookupB_appendInstr, if_neg h1, lookupB_foldl_appendPhi, if_neg h1,
    lookupB_setTerm, if_pos rfl, lookupB_addBlock, hcur]
  simp

theorem whileProg_lookupB_lop (P0 : Prog) (cur blockIn : Nat) (vars : List Operand)
    (r0 lop innerLoop exitB : Nat) (vphi : Operand) (k64 : Nat)
    (hnone : P0.lookupB lop = none)
    (h1 : lop ≠ cur) (h2 : lop ≠ innerLoop) (h3 : lop ≠ exitB) :
    (whileProg P0 cur blockIn vars r0 lop innerLoop exitB vphi k64).lookupB lop =
      some ⟨(List.range vars.length).map
          (fun i => (r0 + i, [((vars.get? i).getD (.constV 0), blockIn)])),
        [.icmpEq (r0 + vars.length) vphi (.constV k64)],
        some (.condBr (.reg (r0 + vars.length)) exitB innerLoop)⟩ := by
  simp only [whileProg]
  rw [lookupB_setTerm, if_pos rfl, lookupB_addBlock, lookupB_addBlock,
    lookupB_appendInstr, if_pos rfl, lookupB_foldl_appendPhi, if_pos rfl,
    lookupB_setTerm, if_neg h1, lookupB_addBlock, hnone]
  simp

theorem whileProg_lookupB_inner (P0 : Prog) (cur blockIn : Nat) (vars : List Operand)
    (r0 lop innerLoop exitB : Nat) (vphi : Operand) (k64 : Nat)
    (hnone : P0.lookupB innerLoop = none)
    (h1 : innerLoop ≠ cur) (h2 : innerLoop ≠ lop) (h3 : innerLoop ≠ exitB) :
    (whileProg P0 cur blockIn vars r0 lop innerLoop exitB vphi k64).lookupB innerLoop =
      some ⟨[], [], none⟩ := by
  simp only [whileProg]
  rw [lookupB_setTerm, if_neg h2, lookupB_addBlock, lookupB_addBlock,
    lookupB_appendInstr, if_neg h2, lookupB_foldl_appendPhi, if_neg h2,
    lookupB_setTerm, if_neg h1, lookupB_addBlock, hnone]
  simp [h2, h3]

theorem whileProg_lookupB_exit (P0 : Prog) (cur blockIn : Nat) (vars : List Operand)
    (r0 lop innerLoop exitB : Nat) (vphi : Operand) (k64 : Nat)
    (hnone : P0.lookupB exitB = none)
    (h1 : exitB ≠ cur) (h2 : exitB ≠ lop) (h3 : exitB ≠ innerLoop) :
    (whileProg P0 cur blockIn vars r0 lop innerLoop exitB vphi k64).lookupB exitB =
      some ⟨[], [], none⟩ := by
  simp only [whileProg]
  rw [lookupB_setTerm, if_neg h2, lookupB_addBlock, lookupB_addBlock,
    lookupB_appendInstr, if_neg h2, lookupB_foldl_appendPhi, if_neg h2,
    lookupB_setTerm, if_neg h1, lookupB_addBlock, hnone]
  simp [h2, h3]

theorem whileProg_lookupB_other (P0 : Prog) (cur blockIn : Nat) (vars : List Operand)
    (r0 lop innerLoop exitB : Nat) (vphi : Operand) (k64 : Nat) (b : Nat)
    (h1 : b ≠ cur) (h2 : b ≠ lop) (h3 : b ≠ innerLoop) (h4 : b ≠ exitB) :
    (whileProg P0 cur blockIn vars r0 lop innerLoop exitB vphi k64).lookupB b =
      P0.lookupB b := by
  simp only [whileProg]
  rw [lookupB_setTerm, if_neg h2, lookupB_addBlock, lookupB_addBlock,
    lookupB_appendInstr, if_neg h2, lookupB_foldl_appendPhi, if_neg h2,
    lookupB_setTerm, if_neg h1, lookupB_addBlock]
  cases hx : P0.lookupB b <;> simp [hx, h2, h3, h4]

/-- The program fragment `add_end` builds (convert.rs lines 166–181). -/
def endProg (P : Prog) (cur blockIn start : Nat) (phiRegs : List Nat)
    (vars : List Operand) : Prog :=
  (phiRegs.zip vars).foldl (fun pr e => pr.addPhiEdge start e.1 (e.2, blockIn))
    (P.setTerm cur (.br start))

theorem add_end_eq (c : Converter) (phiRegs : List Nat) (start exitB : Nat)
    (rest : List (List Nat × (Nat × Nat)))
    (hphis : c.phis = (phiRegs, (start, exitB)) :: rest) :
    c.add_end = .ok { c with
      prog := endProg c.prog c.cur c.block start phiRegs c.vars
      vars := phiRegs.map .reg
      phis := rest
      block := exitB
      cur := exitB } := by
  simp only [Converter.add_end, hphis, endProg]

theorem foldl_addPhiEdge_other (blockIn start : Nat) :
    ∀ (pairs : List (Nat × Operand)) (p : Prog) (b : Nat), b ≠ start →
    (pairs.foldl (fun pr e => pr.addPhiEdge start e.1 (e.2, blockIn)) p).lookupB b =
      p.lookupB b := by
  intro pairs
  induction pairs with
  | nil => intro p b hb; rfl
  | cons e rest ih =>
    intro p b hb
    simp only [List.foldl_cons]
    rw [ih _ b hb, lookupB_addPhiEdge, if_neg hb]

theorem map_id_of {α : Type} (f : α → α) :
    ∀ (l : List α), (∀ x ∈ l, f x = x) → l.map f = l := by
  intro l
  induction l with
  | nil => intro _; rfl
  | cons x rest ih =>
    intro h
    simp only [List.map_cons]
    rw [h x (by simp), ih (fun y hy => h y (by simp [hy]))]

/-- Folding `add_incoming` edges over a phi list with matching registers
appends exactly one edge per phi. -/
theorem foldl_addPhiEdge_start (blockIn start : Nat) :
    ∀ (pairs : List (Nat × Operand)) (p : Prog)
      (done phs : List (Nat × List (Operand × Nat))) (ins : List Instr)
      (tm : Option Terminator),
    p.lookupB start = some ⟨done ++ phs, ins, tm⟩ →
    phs.map Prod.fst = pairs.map Prod.fst →
    (∀ x ∈ done, ∀ y ∈ pairs, x.1 ≠ y.1) →
    (pairs.map Prod.fst).Nodup →
    (pairs.foldl (fun pr e => pr.addPhiEdge start e.1 (e.2, blockIn)) p).lookupB start =
      some ⟨done ++ List.zipWith
          (fun ph e => (ph.1, ph.2 ++ [(e.2, blockIn)])) phs pairs, ins, tm⟩ := by
  intro pairs
  induction pairs with
  | nil =>
    intro p done phs ins tm hlk hmap _ _
    have hphs : phs = [] := by
      cases phs with
      | nil => rfl
      | cons a l => simp at hmap
    subst hphs
    simpa using hlk
  | cons e rest ih =>
    intro p done phs ins tm hlk hmap hdone hnodup
    cases phs with
    | nil => simp at hmap
    | cons ph phs2 =>
      simp only [List.map_cons, List.cons.injEq] at hmap
      obtain ⟨hph1, hmap2⟩ := hmap
      have hnd1 : e.1 ∉ rest.map Prod.fst := by
        simp only [List.map_cons, List.nodup_cons] at hnodup
        exact hnodup.1
      have hnd2 : (rest.map Prod.fst).Nodup := by
        simp only [List.map_cons, List.nodup_cons] at hnodup
        exact hnodup.2
      simp only [List.foldl_cons]
      have hstep : (p.addPhiEdge start e.1 (e.2, blockIn)).lookupB start =
          some ⟨(done ++ [(ph.1, ph.2 ++ [(e.2, blockIn)])]) ++ phs2, ins, tm⟩ := by
        rw [lookupB_addPhiEdge, if_pos rfl, hlk]
        simp only [Option.map]
        have hmapdone : done.map (fun q => if q.1 = e.1 then
            (q.1, q.2 ++ [(e.2, blockIn)]) else q) = done := by
          refine map_id_of _ done ?_
          intro x hx
          rw [if_neg (hdone x hx e (by simp))]
        have hmaptail : phs2.map (fun q => if q.1 = e.1 then
            (q.1, q.2 ++ [(e.2, blockIn)]) else q) = phs2 := by
          refine map_id_of _ phs2 ?_
          intro x hx
          have hx1 : x.1 ∈ rest.map Prod.fst := by
            rw [← hmap2]
            exact List.mem_map_of_mem Prod.fst hx
          rw [if_neg (show ¬(x.1 = e.1) by intro he; rw [he] at hx1; exact hnd1 hx1)]
        simp only [List.map_append, List.map_cons, hmapdone, hmaptail, if_pos hph1]
        simp [List.append_assoc]
      have hih := ih (p.addPhiEdge start e.1 (e.2, blockIn))
        (done ++ [(ph.1, ph.2 ++ [(e.2, blockIn)])]) phs2 ins tm hstep hmap2 ?_ hnd2
      · rw [hih]
        simp [List.append_assoc]
      · intro x hx y hy
        rcases List.mem_append.mp hx with hx2 | hx2
        · exact hdone x hx2 y (by simp [hy])
        · simp only [List.mem_singleton] at hx2
          subst hx2
          simp only
          rw [hph1]
          intro he
          rw [he] at hnd1
          exact hnd1 (List.mem_map_of_mem Prod.fst hy)

/-- Iterating the loop-body fold. -/
def iterFold (G : Frame → Frame) : Nat → Frame → Frame
  | 0, F => F
  | k + 1, F => iterFold G k (G F)

theorem lookup_append_some {β : Type} : ∀ (l₁ l₂ : List (Nat × β)) (k : Nat) (v : β),
    List.lookup k l₁ = some v → List.lookup k (l₁ ++ l₂) = some v := by
  intro l₁
  induction l₁ with
  | nil => intro l₂ k v h; simp at h
  | cons e rest ih =>
    intro l₂ k v h
    obtain ⟨ke, ve⟩ := e
    rw [lookup_cons_nat] at h
    simp only [List.cons_append, lookup_cons_nat]
    by_cases hk : k = ke
    · rw [if_pos hk] at h ⊢
      exact h
    · rw [if_neg hk] at h ⊢
      exact ih l₂ k v h

/-- Evaluating a phi row whose register/edge data is indexed over a list. -/
theorem runPhis_mapRange (args : List Nat) (env : Env) (prev : Nat) (r0 : Nat)
    (E : Nat → List (Operand × Nat)) (G : Nat → Nat) :
    ∀ (l : List Nat),
    (∀ i ∈ l, ∃ ed, (E i).find? (fun e2 => e2.2 == prev) = some ed ∧
      evalOp args env ed.1 = some (G i)) →
    runPhis args env prev (l.map (fun i => (r0 + i, E i))) =
      some (l.map (fun i => (r0 + i, G i))) := by
  intro l
  induction l with
  | nil => intro _; rfl
  | cons i rest ih =>
    intro h
    obtain ⟨ed, hfind, hev⟩ := h i (by simp)
    simp only [List.map_cons, runPhis, bind, Option.bind, Option.pure_def, hfind, hev,
      ih (fun j hj => h j (by simp [hj]))]

theorem lookup_mapRange (G : Nat → Nat) (r0 : Nat) :
    ∀ (l : List Nat) (idx : Nat), idx ∈ l →
    List.lookup (r0 + idx) (l.map (fun i => (r0 + i, G i))) = some (G idx) := by
  intro l
  induction l with
  | nil => intro idx h; simp at h
  | cons j rest ih =>
    intro idx h
    simp only [List.map_cons, lookup_cons_nat]
    by_cases hj : r0 + idx = r0 + j
    · have hij : idx = j := by omega
      subst hij
      rw [if_pos rfl]
    · rw [if_neg hj]
      have hmem : idx ∈ rest := by
        rcases List.mem_cons.mp h with h1 | h1
        · exact absurd (by rw [h1]) hj
        · exact h1
      exact ih idx hmem

/-- A frame spread over the loop-header phi registers realises it for a
state whose variable operands are exactly those registers. -/
theorem varsEval_phiEnv (args : List Nat) (env : Env) (r0 N : Nat) (G : Nat → Nat)
    (c : Converter) (F : Frame)
    (hvars : c.vars = ((List.range N).map (fun i => r0 + i)).map Operand.reg)
    (hmapIdx : ∀ nm idx, lookupName c.mapping nm = some idx → idx < N)
    (hGF : ∀ nm idx, lookupName c.mapping nm = some idx → G idx = F nm) :
    VarsEval args (((List.range N).map (fun i => (r0 + i, G i))) ++ env) c F := by
  intro nm idx h
  have hlt := hmapIdx nm idx h
  refine ⟨.reg (r0 + idx), ?_, ?_⟩
  · rw [hvars, List.get?_eq_getElem?]
    simp [List.getElem?_map, List.getElem?_range, hlt]
  · simp only [evalOp]
    have hl := lookup_append_some _ env _ _
      (lookup_mapRange G r0 (List.range N) idx (List.mem_range.mpr hlt))
    rw [hl, hGF nm idx h]

theorem zipWith_range_norm {α β γ : Type} (f : Nat → α) (g : Nat → β) (h : α → β → γ) :
    ∀ (l : List Nat),
    List.zipWith h (l.map f) (l.map g) = l.map (fun i => h (f i) (g i)) := by
  intro l
  induction l with
  | nil => rfl
  | cons i rest ih => simp only [List.map_cons, List.zipWith_cons_cons, ih]

/-- Zipping the phi registers with the variable frame, as an indexed map. -/
theorem zip_mapRange (σ : Nat → Nat) (vars : List Operand) (N : Nat)
    (hlen : vars.length = N) :
    ((List.range N).map σ).zip vars =
      (List.range N).map (fun i => (σ i, (vars.get? i).getD (.constV 0))) := by
  refine List.ext_getElem? ?_
  intro i
  by_cases hi : i < N
  · obtain ⟨op, hop⟩ : ∃ op, vars[i]? = some op := by
      cases hv : vars[i]? with
      | none =>
        rw [List.getElem?_eq_none_iff] at hv
        omega
      | some op => exact ⟨op, rfl⟩
    have h1 : ((List.range N).map σ)[i]? = some (σ i) := by
      simp [List.getElem?_map, List.getElem?_range, hi]
    rw [show (((List.range N).map σ).zip vars)[i]? = some (σ i, op) by
      rw [List.getElem?_zip_eq_some]; exact ⟨h1, hop⟩]
    simp [List.getElem?_map, List.getElem?_range, hi, List.get?_eq_getElem?, hop]
  · rw [List.getElem?_eq_none (by simp [List.length_zip, hlen]; omega)]
    rw [List.getElem?_eq_none (by simp; omega)]

/-- As `varsEval_phiEnv`, with the comparison register binding prepended. -/
theorem varsEval_phiEnv2 (args : List Nat) (env : Env) (r0 N w : Nat) (G : Nat → Nat)
    (c : Converter) (F : Frame)
    (hvars : c.vars = ((List.range N).map (fun i => r0 + i)).map Operand.reg)
    (hmapIdx : ∀ nm idx, lookupName c.mapping nm = some idx → idx < N)
    (hGF : ∀ nm idx, lookupName c.mapping nm = some idx → G idx = F nm) :
    VarsEval args ((r0 + N, w) ::
      ((List.range N).map (fun i => (r0 + i, G i))) ++ env) c F := by
  intro nm idx h
  have hlt := hmapIdx nm idx h
  refine ⟨.reg (r0 + idx), ?_, ?_⟩
  · rw [hvars, List.get?_eq_getElem?]
    simp [List.getElem?_map, List.getElem?_range, hlt]
  · simp only [evalOp]
    rw [List.cons_append, lookup_cons_nat, if_neg (by omega : ¬(r0 + idx = r0 + N))]
    have hl := lookup_append_some _ env _ _
      (lookup_mapRange G r0 (List.range N) idx (List.mem_range.mpr hlt))
    rw [hl, hGF nm idx h]

theorem forall₂_phiExtends_zipWith (bb : Nat) :
    ∀ (phs : List (Nat × List (Operand × Nat))) (pairs : List (Nat × Operand)),
    phs.length = pairs.length →
    List.Forall₂ PhiExtends phs
      (List.zipWith (fun ph e => (ph.1, ph.2 ++ [(e.2, bb)])) phs pairs) := by
  intro phs
  induction phs with
  | nil => intro pairs _; exact List.Forall₂.nil
  | cons ph rest ih =>
    intro pairs hlen
    cases pairs with
    | nil => simp at hlen
    | cons e prest =>
      simp only [List.zipWith_cons_cons]
      exact List.Forall₂.cons ⟨rfl, [(e.2, bb)], rfl⟩ (ih prest (by simpa using hlen))

/-- The register-indexed view of a frame: the value of the variable whose
table index is `i` (zero for unused indices). -/
def frameRegs (m : List (List Char × Nat)) (F : Frame) (i : Nat) : Nat :=
  match m.find? (fun e => e.2 == i) with
  | some e => F e.1
  | none => 0

/-- **C2 (amended).** For every loop program `while v n; body; end; eof`
whose body is straight-line (`incr`/`decr`/`clear`/`copy` and inert
fluff), built from `Converter::new` through `add_while`, the body,
`add_end` and the `EOF` finaliser: the loop header (block 1) of the
generated program tests equality of the variable's merge (phi) value
against the constant `toU64 n` — the literal bound reduced modulo
`2 ^ 64` — before the body ever runs, branching to the exit block 3 when
equal and to the body block 2 otherwise.  Consequently the body runs zero
times exactly when the variable's entry value (zero) already equals
`toU64 n`, and if `k` is the first iteration count at which folding the
body takes `v` to `toU64 n`, the program terminates having entered the
body block exactly `k` times, reporting every variable's value after `k`
body iterations. -/
theorem while_equality_bound_semantics (v : List Char) (n : Int) (k : Nat)
    (body : List Statement) (order : List (List Char × Nat)) (c0 cf : Converter)
    (hsimple : ∀ s ∈ body, SimpleStmt s)
    (hnew : Converter.new
      (varTable ([.whileS v n] ++ body ++ [.endS, .eofS])) [] = .ok c0)
    (hreplay : replay order ([.whileS v n] ++ body ++ [.endS, .eofS]) c0 = .ok cf)
    (horder : ∀ e ∈ order, lookupName c0.mapping e.1 = some e.2)
    (hnames : ∀ i, i < c0.vars.length → ∃ nm,
      c0.mapping.find? (fun e => e.2 == i) = some (nm, i) ∧
      lookupName c0.mapping nm = some i)
    (hk : (iterFold (specFold body) k zeroFrame) v = toU64 n)
    (hmin : ∀ j, j < k → (iterFold (specFold body) j zeroFrame) v ≠ toU64 n) :
    ∃ pos, lookupName c0.mapping v = some pos ∧
      (∃ phs, cf.prog.lookupB 1 =
        some ⟨phs,
          [.icmpEq c0.vars.length (.reg pos) (.constV (toU64 n))],
          some (.condBr (.reg c0.vars.length) 3 2)⟩) ∧
      (zeroFrame v = toU64 n ↔ k = 0) ∧
      ∃ fuel tr, runProg fuel cf.prog [] =
        .finished (order.map (fun e =>
          (e.1, iterFold (specFold body) k zeroFrame e.1))) tr ∧
        tr.count 2 = k := by
  have hc0 : c0 =
      { prog := (Prog.mk []).addBlock 0
        vars := List.replicate
          (varTable ([.whileS v n] ++ body ++ [.endS, .eofS])).length (.constV 0)
        phis := []
        mapping := (varTable ([.whileS v n] ++ body ++ [.endS, .eofS])).enum.map
          (fun e => (e.2, e.1))
        freshR := 0
        freshB := 1
        block := 0
        cur := 0 } :=
    Except.ok.inj (hnew.symm.trans (converter_new_nil _))
  have hprog0 : c0.prog = (Prog.mk []).addBlock 0 := by rw [hc0]
  have hphis0 : c0.phis = [] := by rw [hc0]
  have hfR0 : c0.freshR = 0 := by rw [hc0]
  have hfB0 : c0.freshB = 1 := by rw [hc0]
  have hblock0 : c0.block = 0 := by rw [hc0]
  have hcur0 : c0.cur = 0 := by rw [hc0]
  have hlk0 : c0.prog.lookupB 0 = some ⟨[], [], none⟩ := by rw [hprog0]; rfl
  have hwf0 : ConvWF c0 := by
    refine ⟨⟨[], [], by rw [hcur0]; exact hlk0⟩, by rw [hblock0, hcur0], ?_, ?_, ?_, ?_⟩
    · intro op hop
      rw [show c0.vars = List.replicate
        (varTable ([.whileS v n] ++ body ++ [.endS, .eofS])).length (.constV 0)
        from by rw [hc0]] at hop
      rw [List.eq_of_mem_replicate hop]
      trivial
    · intro b bd hbd
      rw [hprog0] at hbd
      have hbd2 : List.lookup b [((0 : Nat), (⟨[], [], none⟩ : BlockData))] = some bd := hbd
      rw [lookup_cons_nat] at hbd2
      by_cases hb : b = 0
      · rw [hfB0]; omega
      · rw [if_neg hb] at hbd2
        simp at hbd2
    · intro nm idx h
      rw [show c0.mapping = (varTable ([.whileS v n] ++ body ++ [.endS, .eofS])).enum.map
        (fun e => (e.2, e.1)) from by rw [hc0]] at h
      have h2 := (lookup_enumFrom_map nm _ 0 idx h).2.1
      rw [show c0.vars = List.replicate
        (varTable ([.whileS v n] ++ body ++ [.endS, .eofS])).length (.constV 0)
        from by rw [hc0], List.length_replicate]
      simpa using h2
    · intro nm nm2 idx h1 h2
      rw [show c0.mapping = (varTable ([.whileS v n] ++ body ++ [.endS, .eofS])).enum.map
        (fun e => (e.2, e.1)) from by rw [hc0]] at h1 h2
      have g1 := (lookup_enumFrom_map nm _ 0 idx h1).2.2
      have g2 := (lookup_enumFrom_map nm2 _ 0 idx h2).2.2
      exact Option.some.inj (g1.symm.trans g2)
  -- decompose the replay: while, body, end, eof
  rw [replay_append] at hreplay
  simp only [replay, Statement.compileS, bind, Except.bind] at hreplay
  cases hw : c0.add_while v n with
  | error e => rw [hw] at hreplay; simp at hreplay
  | ok cw =>
    rw [hw] at hreplay
    simp only [List.append_eq, List.nil_append] at hreplay
    cases hb : replay order body cw with
    | error e => rw [hb] at hreplay; simp at hreplay
    | ok cb =>
      rw [hb] at hreplay
      simp only at hreplay
      cases hend : cb.add_end with
      | error e => rw [hend] at hreplay; simp at hreplay
      | ok ce =>
        rw [hend] at hreplay
        simp only at hreplay
        cases heof : ce.add_eof order with
        | error e => rw [heof] at hreplay; simp at hreplay
        | ok cfx =>
          rw [heof] at hreplay
          simp only at hreplay
          have hcfx : cfx = cf := Except.ok.inj hreplay
          subst hcfx
          -- the while construction
          have hexpos : ∃ pos, c0.getIdx v = .ok pos := by
            have hw2 := hw
            simp only [Converter.add_while, bind, Except.bind] at hw2
            cases hp : c0.getIdx v with
            | error e =>
              rw [hp] at hw2
              simp at hw2
            | ok pos => exact ⟨pos, rfl⟩
          obtain ⟨pos, hpos⟩ := hexpos
          have hposlk : lookupName c0.mapping v = some pos := by
            simp only [Converter.getIdx] at hpos
            cases hln : lookupName c0.mapping v with
            | none => rw [hln] at hpos; simp at hpos
            | some i =>
              rw [hln] at hpos
              simp only [Except.ok.injEq] at hpos
              exact congrArg some hpos
          have hposlt : pos < c0.vars.length := hwf0.mapIdx v pos hposlk
          have hvphi : (((List.range c0.vars.length).map (fun i => c0.freshR + i)).map
              Operand.reg).get? pos = some (.reg (c0.freshR + pos)) := by
            rw [List.get?_eq_getElem?]
            simp [List.getElem?_map, List.getElem?_range, hposlt]
          have hcw : cw = { c0 with
              prog := whileProg c0.prog c0.cur c0.block c0.vars c0.freshR c0.freshB
                (c0.freshB + 1) (c0.freshB + 2) (.reg (c0.freshR + pos)) (toU64 n)
              vars := ((List.range c0.vars.length).map (fun i => c0.freshR + i)).map
                Operand.reg
              phis := ((List.range c0.vars.length).map (fun i => c0.freshR + i),
                (c0.freshB, c0.freshB + 2)) :: c0.phis
              freshR := c0.freshR + c0.vars.length + 1
              freshB := c0.freshB + 3
              block := c0.freshB + 1
              cur := c0.freshB + 1 } :=
            Except.ok.inj (hw.symm.trans (add_while_eq c0 v n pos _ hpos hvphi))
          have hcwprog : cw.prog = whileProg c0.prog c0.cur c0.block c0.vars c0.freshR
              c0.freshB (c0.freshB + 1) (c0.freshB + 2) (.reg (c0.freshR + pos))
              (toU64 n) := by rw [hcw]
          have hcwvars : cw.vars = ((List.range c0.vars.length).map
              (fun i => c0.freshR + i)).map Operand.reg := by rw [hcw]
          have hcwphis : cw.phis = ((List.range c0.vars.length).map
              (fun i => c0.freshR + i), (c0.freshB, c0.freshB + 2)) :: c0.phis := by
            rw [hcw]
          have hcwmap : cw.mapping = c0.mapping := by rw [hcw]
          have hcwfR : cw.freshR = c0.freshR + c0.vars.length + 1 := by rw [hcw]
          have hcwfB : cw.freshB = c0.freshB + 3 := by rw [hcw]
          have hcwblock : cw.block = c0.freshB + 1 := by rw [hcw]
          have hcwcur : cw.cur = c0.freshB + 1 := by rw [hcw]
          have hcwvlen : cw.vars.length = c0.vars.length := by
            rw [hcwvars]
            simp
          have hcurb : c0.cur < c0.freshB := hwf0.curBelow
          have hnoneL : c0.prog.lookupB c0.freshB = none := by
            cases hx : c0.prog.lookupB c0.freshB with
            | none => rfl
            | some bd => exact absurd (hwf0.blocksBelow _ _ hx) (by omega)
          have hnoneI : c0.prog.lookupB (c0.freshB + 1) = none := by
            cases hx : c0.prog.lookupB (c0.freshB + 1) with
            | none => rfl
            | some bd => exact absurd (hwf0.blocksBelow _ _ hx) (by omega)
          have hnoneE : c0.prog.lookupB (c0.freshB + 2) = none := by
            cases hx : c0.prog.lookupB (c0.freshB + 2) with
            | none => rfl
            | some bd => exact absurd (hwf0.blocksBelow _ _ hx) (by omega)
          have hlk0c : c0.prog.lookupB c0.cur = some ⟨[], [], none⟩ := by
            rw [hcur0]
            exact hlk0
          have hlkW0 : cw.prog.lookupB c0.cur = some ⟨[], [], some (.br c0.freshB)⟩ := by
            rw [hcwprog]
            exact whileProg_lookupB_cur _ _ _ _ _ _ _ _ _ _ [] [] hlk0c
              (by omega) (by omega) (by omega)
          have hlkWlop : cw.prog.lookupB c0.freshB =
              some ⟨(List.range c0.vars.length).map
                  (fun i => (c0.freshR + i, [((c0.vars.get? i).getD (.constV 0), c0.block)])),
                [.icmpEq (c0.freshR + c0.vars.length) (.reg (c0.freshR + pos))
                  (.constV (toU64 n))],
                some (.condBr (.reg (c0.freshR + c0.vars.length)) (c0.freshB + 2)
                  (c0.freshB + 1))⟩ := by
            rw [hcwprog]
            exact whileProg_lookupB_lop _ _ _ _ _ _ _ _ _ _ hnoneL
              (by omega) (by omega) (by omega)
          have hlkWinner : cw.prog.lookupB (c0.freshB + 1) = some ⟨[], [], none⟩ := by
            rw [hcwprog]
            exact whileProg_lookupB_inner _ _ _ _ _ _ _ _ _ _ hnoneI
              (by omega) (by omega) (by omega)
          have hlkWexit : cw.prog.lookupB (c0.freshB + 2) = some ⟨[], [], none⟩ := by
            rw [hcwprog]
            exact whileProg_lookupB_exit _ _ _ _ _ _ _ _ _ _ hnoneE
              (by omega) (by omega) (by omega)
          have hwf_cw : ConvWF cw := by
            refine ⟨⟨[], [], by rw [hcwcur]; exact hlkWinner⟩,
              by rw [hcwblock, hcwcur], ?_, ?_, ?_, ?_⟩
            · intro op hop
              rw [hcwvars] at hop
              rw [hcwfR]
              obtain ⟨r, hr, hrop⟩ := List.mem_map.mp hop
              obtain ⟨i, hi, hir⟩ := List.mem_map.mp hr
              rw [← hrop]
              simp only [OperandBelow]
              have := List.mem_range.mp hi
              omega
            · intro b bd hbd
              rw [hcwprog] at hbd
              rw [hcwfB]
              by_cases h1 : b = c0.cur
              · omega
              by_cases h2 : b = c0.freshB
              · omega
              by_cases h3 : b = c0.freshB + 1
              · omega
              by_cases h4 : b = c0.freshB + 2
              · omega
              rw [whileProg_lookupB_other _ _ _ _ _ _ _ _ _ _ b h1 h2 h3 h4] at hbd
              have := hwf0.blocksBelow b bd hbd
              omega
            · intro nm idx h
              rw [hcwmap] at h
              rw [hcwvlen]
              exact hwf0.mapIdx nm idx h
            · intro nm nm2 idx h1 h2
              rw [hcwmap] at h1 h2
              exact hwf0.mapInj nm nm2 idx h1 h2
          obtain ⟨hwf_cb, hseg, -⟩ :=
            replay_simples [] body order cw cb zeroFrame hsimple hb hwf_cw
          have hcbmap : cb.mapping = c0.mapping := hseg.mapEq.trans hcwmap
          have hcbphis : cb.phis = ((List.range c0.vars.length).map
              (fun i => c0.freshR + i), (c0.freshB, c0.freshB + 2)) :: c0.phis :=
            hseg.phisEq.trans hcwphis
          have hcbvlen : cb.vars.length = c0.vars.length := hseg.varsLen.trans hcwvlen
          have hcbcur : cb.cur = c0.freshB + 1 ∨ c0.freshB + 3 ≤ cb.cur := by
            rcases hseg.curNew with h | h
            · left
              rw [h, hcwcur]
            · right
              rw [hcwfB] at h
              exact h
          have hcbblock : cb.block = cb.cur := hwf_cb.blockEq
          have hothB : ∀ b bd, cw.prog.lookupB b = some bd → b ≠ c0.freshB + 1 →
              cb.prog.lookupB b = some bd := by
            intro b bd h1 h2
            refine hseg.others b bd h1 ?_
            rw [hcwcur]
            exact h2
          have hlkB0 : cb.prog.lookupB c0.cur = some ⟨[], [], some (.br c0.freshB)⟩ :=
            hothB _ _ hlkW0 (by omega)
          have hlkBlop : cb.prog.lookupB c0.freshB =
              some ⟨(List.range c0.vars.length).map
                  (fun i => (c0.freshR + i, [((c0.vars.get? i).getD (.constV 0), c0.block)])),
                [.icmpEq (c0.freshR + c0.vars.length) (.reg (c0.freshR + pos))
                  (.constV (toU64 n))],
                some (.condBr (.reg (c0.freshR + c0.vars.length)) (c0.freshB + 2)
                  (c0.freshB + 1))⟩ :=
            hothB _ _ hlkWlop (by omega)
          have hlkBexit : cb.prog.lookupB (c0.freshB + 2) = some ⟨[], [], none⟩ :=
            hothB _ _ hlkWexit (by omega)
          -- close_while
          have hphis_cb2 : cb.phis = ((List.range c0.vars.length).map
              (fun i => c0.freshR + i), (c0.freshB, c0.freshB + 2)) :: [] := by
            rw [hcbphis, hphis0]
          have hce : ce = { cb with
              prog := endProg cb.prog cb.cur cb.block c0.freshB
                ((List.range c0.vars.length).map (fun i => c0.freshR + i)) cb.vars
              vars := ((List.range c0.vars.length).map (fun i => c0.freshR + i)).map
                Operand.reg
              phis := []
              block := c0.freshB + 2
              cur := c0.freshB + 2 } :=
            Except.ok.inj (hend.symm.trans (add_end_eq cb _ _ _ _ hphis_cb2))
          have hceprog : ce.prog = endProg cb.prog cb.cur cb.block c0.freshB
              ((List.range c0.vars.length).map (fun i => c0.freshR + i)) cb.vars := by
            rw [hce]
          have hcevars : ce.vars = ((List.range c0.vars.length).map
              (fun i => c0.freshR + i)).map Operand.reg := by rw [hce]
          have hcemap : ce.mapping = c0.mapping := by rw [hce]; exact hcbmap
          have hcecur : ce.cur = c0.freshB + 2 := by rw [hce]
          have hcevlen : ce.vars.length = c0.vars.length := by
            rw [hcevars]
            simp
          have hcbcur_ne_lop : cb.cur ≠ c0.freshB := by omega
          have hcbcur_ne_exit : cb.cur ≠ c0.freshB + 2 := by omega
          have hcbcur_ne_0 : cb.cur ≠ c0.cur := by omega
          obtain ⟨phC, insC, hlkCb⟩ := hwf_cb.curOpen
          have hlkEcur : ce.prog.lookupB cb.cur =
              some ⟨phC, insC, some (.br c0.freshB)⟩ := by
            rw [hceprog]
            simp only [endProg]
            rw [foldl_addPhiEdge_other cb.block c0.freshB _ _ cb.cur hcbcur_ne_lop,
              lookupB_setTerm, if_pos rfl, hlkCb]
            rfl
          have hothE : ∀ b, b ≠ cb.cur → b ≠ c0.freshB →
              ce.prog.lookupB b = cb.prog.lookupB b := by
            intro b h1 h2
            rw [hceprog]
            simp only [endProg]
            rw [foldl_addPhiEdge_other cb.block c0.freshB _ _ b h2,
              lookupB_setTerm, if_neg h1]
          have hlkE0 : ce.prog.lookupB c0.cur = some ⟨[], [], some (.br c0.freshB)⟩ := by
            rw [hothE c0.cur (by omega) (by omega)]
            exact hlkB0
          have hlkEexit : ce.prog.lookupB (c0.freshB + 2) = some ⟨[], [], none⟩ := by
            rw [hothE (c0.freshB + 2) (by omega) (by omega)]
            exact hlkBexit
          have hphiRegsLen : ((List.range c0.vars.length).map
              (fun i => c0.freshR + i)).length = c0.vars.length := by simp
          have hlkElop : ce.prog.lookupB c0.freshB =
              some ⟨(List.range c0.vars.length).map
                  (fun i => (c0.freshR + i,
                    [((c0.vars.get? i).getD (.constV 0), c0.block),
                     ((cb.vars.get? i).getD (.constV 0), cb.block)])),
                [.icmpEq (c0.freshR + c0.vars.length) (.reg (c0.freshR + pos))
                  (.constV (toU64 n))],
                some (.condBr (.reg (c0.freshR + c0.vars.length)) (c0.freshB + 2)
                  (c0.freshB + 1))⟩ := by
            rw [hceprog]
            simp only [endProg]
            have hbase : (cb.prog.setTerm cb.cur (.br c0.freshB)).lookupB c0.freshB =
                some ⟨[] ++ (List.range c0.vars.length).map
                    (fun i => (c0.freshR + i,
                      [((c0.vars.get? i).getD (.constV 0), c0.block)])),
                  [.icmpEq (c0.freshR + c0.vars.length) (.reg (c0.freshR + pos))
                    (.constV (toU64 n))],
                  some (.condBr (.reg (c0.freshR + c0.vars.length)) (c0.freshB + 2)
                    (c0.freshB + 1))⟩ := by
              rw [lookupB_setTerm, if_neg (Ne.symm hcbcur_ne_lop)]
              simpa using hlkBlop
            have hres := foldl_addPhiEdge_start cb.block c0.freshB
              (((List.range c0.vars.length).map (fun i => c0.freshR + i)).zip cb.vars)
              (cb.prog.setTerm cb.cur (.br c0.freshB)) []
              ((List.range c0.vars.length).map
                (fun i => (c0.freshR + i, [((c0.vars.get? i).getD (.constV 0), c0.block)])))
              [.icmpEq (c0.freshR + c0.vars.length) (.reg (c0.freshR + pos))
                (.constV (toU64 n))]
              (some (.condBr (.reg (c0.freshR + c0.vars.length)) (c0.freshB + 2)
                (c0.freshB + 1)))
              hbase
              (by
                rw [List.map_fst_zip _ cb.vars (by rw [hphiRegsLen, hcbvlen])]
                simp [List.map_map])
              (by intro x hx y hy; simp at hx)
              (by
                rw [List.map_fst_zip _ cb.vars (by rw [hphiRegsLen, hcbvlen])]
                exact (List.nodup_range _).map (fun a b h2 => by omega))
            rw [hres]
            rw [zip_mapRange (fun i => c0.freshR + i) cb.vars c0.vars.length hcbvlen,
              zipWith_range_norm]
            rfl
          -- index-to-name view of frames
          have hGname : ∀ (F : Frame) (nm idx), lookupName c0.mapping nm = some idx →
              frameRegs c0.mapping F idx = F nm := by
            intro F nm idx h
            obtain ⟨nm2, hfind, hlknm2⟩ := hnames idx (hwf0.mapIdx nm idx h)
            simp only [frameRegs]
            rw [hfind, hwf0.mapInj nm2 nm idx hlknm2 h]
          -- the finaliser
          have hbndO : ∀ e ∈ order, e.2 < ce.vars.length := by
            intro e he
            rw [hcevlen]
            exact hwf0.mapIdx e.1 e.2 (horder e he)
          have hphisE : ce.phis = [] := by rw [hce]
          have hcf : cfx = { ce with prog := ((reportInstrs ce.vars order).foldl
              (fun pr i => pr.appendInstr ce.cur i) ce.prog).setTerm ce.cur .ret } :=
            add_eof_ok ce cfx order hphisE hbndO heof
          have hcfprog : cfx.prog = ((reportInstrs ce.vars order).foldl
              (fun pr i => pr.appendInstr ce.cur i) ce.prog).setTerm ce.cur .ret := by
            rw [hcf]
          have hothF : ∀ b, b ≠ c0.freshB + 2 →
              cfx.prog.lookupB b = ce.prog.lookupB b := by
            intro b hb
            have hb2 : b ≠ ce.cur := by rw [hcecur]; exact hb
            rw [hcfprog, lookupB_setTerm, if_neg hb2,
              lookupB_foldl_appendInstr, if_neg hb2]
          have hlkFexit : cfx.prog.lookupB (c0.freshB + 2) =
              some ⟨[], reportInstrs ce.vars order, some .ret⟩ := by
            have hb2 : c0.freshB + 2 = ce.cur := hcecur.symm
            rw [hcfprog, lookupB_setTerm, if_pos hb2, lookupB_foldl_appendInstr,
              if_pos hb2, hlkEexit]
            rfl
          have hlkF0 : cfx.prog.lookupB c0.cur =
              some ⟨[], [], some (.br c0.freshB)⟩ := by
            rw [hothF c0.cur (by omega)]
            exact hlkE0
          have hlkFlop : cfx.prog.lookupB c0.freshB =
              some ⟨(List.range c0.vars.length).map
                  (fun i => (c0.freshR + i,
                    [((c0.vars.get? i).getD (.constV 0), c0.block),
                     ((cb.vars.get? i).getD (.constV 0), cb.block)])),
                [.icmpEq (c0.freshR + c0.vars.length) (.reg (c0.freshR + pos))
                  (.constV (toU64 n))],
                some (.condBr (.reg (c0.freshR + c0.vars.length)) (c0.freshB + 2)
                  (c0.freshB + 1))⟩ := by
            rw [hothF c0.freshB (by omega)]
            exact hlkElop
          have hlkFcb : cfx.prog.lookupB cb.cur =
              some ⟨phC, insC, some (.br c0.freshB)⟩ := by
            rw [hothF cb.cur (by omega)]
            exact hlkEcur
          have hpx : ProgExtends cb.prog cfx.prog cb.cur := by
            intro b bd hbd hbne
            by_cases hb1 : b = c0.freshB
            · subst hb1
              have hbdval := Option.some.inj (hbd.symm.trans hlkBlop)
              refine ⟨⟨(List.range c0.vars.length).map
                  (fun i => (c0.freshR + i,
                    [((c0.vars.get? i).getD (.constV 0), c0.block),
                     ((cb.vars.get? i).getD (.constV 0), cb.block)])),
                [.icmpEq (c0.freshR + c0.vars.length) (.reg (c0.freshR + pos))
                  (.constV (toU64 n))],
                some (.condBr (.reg (c0.freshR + c0.vars.length)) (c0.freshB + 2)
                  (c0.freshB + 1))⟩, hlkFlop, ?_⟩
              rw [hbdval]
              have hf2 : ∀ (l : List Nat),
                  List.Forall₂ PhiExtends
                    (l.map (fun i => (c0.freshR + i,
                      [((c0.vars.get? i).getD (.constV 0), c0.block)])))
                    (l.map (fun i => (c0.freshR + i,
                      [((c0.vars.get? i).getD (.constV 0), c0.block),
                       ((cb.vars.get? i).getD (.constV 0), cb.block)]))) := by
                intro l
                induction l with
                | nil => exact List.Forall₂.nil
                | cons a rest ih =>
                  exact List.Forall₂.cons
                    ⟨rfl, [((cb.vars.get? a).getD (.constV 0), cb.block)], rfl⟩ ih
              exact ⟨hf2 _, Or.inr ⟨rfl, rfl⟩⟩
            by_cases hb2 : b = c0.freshB + 2
            · subst hb2
              have hbdval := Option.some.inj (hbd.symm.trans hlkBexit)
              refine ⟨⟨[], reportInstrs ce.vars order, some .ret⟩, hlkFexit, ?_⟩
              rw [hbdval]
              exact ⟨List.Forall₂.nil, Or.inl rfl⟩
            · refine ⟨bd, ?_, blockExtends_refl bd⟩
              rw [hothF b hb2, hothE b hbne hb1]
              exact hbd
          -- counting helpers
          have hsingleCnt : ∀ (l : List Nat) (b I : Nat), b ≠ I →
              (l ++ [b]).count I = l.count I := by
            intro l b I hbI
            rw [List.count_append]
            have h0 : List.count I [b] = 0 :=
              List.count_eq_zero.mpr (by
                intro hmem
                exact hbI (List.mem_singleton.mp hmem).symm)
            rw [h0]
            omega
          have hsnocEq : ∀ (l : List Nat) (I : Nat),
              (l ++ [I]).count I = l.count I + 1 := by
            intro l I
            rw [List.count_append, List.count_singleton]
            simp
          have hdeltaCnt : ∀ (Δ : List Nat) (I lo : Nat), I < lo →
              (∀ b ∈ Δ, lo ≤ b) → Δ.count I = 0 := by
            intro Δ I lo hI hall
            refine List.count_eq_zero.mpr ?_
            intro hmem
            have := hall I hmem
            omega
          -- evaluating the loop-header phis from either predecessor
          have hphiRun : ∀ (F : Frame) (env : Env) (pv : Nat),
              (∀ i, i < c0.vars.length →
                ∃ ed, ([((c0.vars.get? i).getD (.constV 0), c0.block),
                    ((cb.vars.get? i).getD (.constV 0), cb.block)]).find?
                    (fun e2 => e2.2 == pv) = some ed ∧
                  evalOp [] env ed.1 = some (frameRegs c0.mapping F i)) →
              runPhis [] env pv ((List.range c0.vars.length).map
                  (fun i => (c0.freshR + i,
                    [((c0.vars.get? i).getD (.constV 0), c0.block),
                     ((cb.vars.get? i).getD (.constV 0), cb.block)]))) =
                some ((List.range c0.vars.length).map
                  (fun i => (c0.freshR + i, frameRegs c0.mapping F i))) := by
            intro F env pv hev
            exact runPhis_mapRange [] env pv c0.freshR _ _ _
              (fun i hi => hev i (List.mem_range.mp hi))
          have hregEval : ∀ (F : Frame) (env : Env) (i : Nat), i < c0.vars.length →
              evalOp [] (((List.range c0.vars.length).map
                  (fun j => (c0.freshR + j, frameRegs c0.mapping F j))) ++ env)
                (.reg (c0.freshR + i)) = some (frameRegs c0.mapping F i) := by
            intro F env i hi
            simp only [evalOp]
            exact lookup_append_some _ env _ _
              (lookup_mapRange (fun j => frameRegs c0.mapping F j) c0.freshR
                (List.range c0.vars.length) i (List.mem_range.mpr hi))
          -- the loop: kk remaining iterations from frame F
          have hloop : ∀ (kk : Nat) (F : Frame) (env : Env) (pv : Nat) (tr : List Nat),
              (iterFold (specFold body) kk F) v = toU64 n →
              (∀ j, j < kk → (iterFold (specFold body) j F) v ≠ toU64 n) →
              (∀ i, i < c0.vars.length →
                ∃ ed, ([((c0.vars.get? i).getD (.constV 0), c0.block),
                    ((cb.vars.get? i).getD (.constV 0), cb.block)]).find?
                    (fun e2 => e2.2 == pv) = some ed ∧
                  evalOp [] env ed.1 = some (frameRegs c0.mapping F i)) →
              ∃ g trX,
                execF g cfx.prog [] pv c0.freshB env [] tr =
                  .finished (order.map (fun e =>
                    (e.1, (iterFold (specFold body) kk F) e.1))) trX ∧
                trX.count (c0.freshB + 1) = tr.count (c0.freshB + 1) + kk := by
            intro kk
            induction kk with
            | zero =>
              intro F env pv tr hk0 hmin0 hev
              have hph := hphiRun F env pv hev
              have hxeq : frameRegs c0.mapping F pos = toU64 n := by
                rw [hGname F v pos hposlk]
                exact hk0
              have e1 := execF_openBlock (0 + 1) cfx.prog [] pv c0.freshB env [] tr
                _ _ _ hlkFlop _ hph [] _ rfl _ [] rfl
              have e2 := execRest_icmp_condBr (0 + 1) cfx.prog [] c0.freshB
                (c0.freshR + c0.vars.length) (.reg (c0.freshR + pos)) (toU64 n)
                (c0.freshB + 2) (c0.freshB + 1)
                (((List.range c0.vars.length).map
                  (fun j => (c0.freshR + j, frameRegs c0.mapping F j))) ++ env) []
                (tr ++ [c0.freshB]) (frameRegs c0.mapping F pos)
                (hregEval F env pos hposlt)
              rw [if_pos hxeq, if_neg (by omega : ¬(1 = 0))] at e2
              have hrep : ∀ e ∈ order, ∃ op, ce.vars.get? e.2 = some op ∧
                  evalOp [] ((c0.freshR + c0.vars.length, 1) ::
                    (((List.range c0.vars.length).map
                      (fun j => (c0.freshR + j, frameRegs c0.mapping F j))) ++ env)) op =
                    some (F e.1) := by
                intro e he
                have hlk := horder e he
                have hlt : e.2 < c0.vars.length := hwf0.mapIdx e.1 e.2 hlk
                refine ⟨.reg (c0.freshR + e.2), ?_, ?_⟩
                · rw [hcevars, List.get?_eq_getElem?]
                  simp [List.getElem?_map, List.getElem?_range, hlt]
                · simp only [evalOp]
                  rw [lookup_cons_nat,
                    if_neg (by omega : ¬(c0.freshR + e.2 = c0.freshR + c0.vars.length)),
                    lookup_append_some _ env _ _
                      (lookup_mapRange (fun j => frameRegs c0.mapping F j) c0.freshR
                        (List.range c0.vars.length) e.2 (List.mem_range.mpr hlt))]
                  show some (frameRegs c0.mapping F e.2) = some (F e.1)
                  rw [hGname F e.1 e.2 hlk]
              have hins3 := runInstrs_reports [] F ce.vars order
                ((c0.freshR + c0.vars.length, 1) ::
                  (((List.range c0.vars.length).map
                    (fun j => (c0.freshR + j, frameRegs c0.mapping F j))) ++ env)) []
                hrep
              have e3 := execF_openBlock 0 cfx.prog [] c0.freshB (c0.freshB + 2)
                ((c0.freshR + c0.vars.length, 1) ::
                  (((List.range c0.vars.length).map
                    (fun j => (c0.freshR + j, frameRegs c0.mapping F j))) ++ env)) []
                (tr ++ [c0.freshB]) [] (reportInstrs ce.vars order) (some .ret)
                hlkFexit [] rfl (reportInstrs ce.vars order) []
                (List.append_nil _).symm _ _ hins3
              refine ⟨0 + 1 + 1, (tr ++ [c0.freshB]) ++ [c0.freshB + 2], ?_, ?_⟩
              · rw [e1, e2, e3]
                rfl
              · rw [hsingleCnt (tr ++ [c0.freshB]) (c0.freshB + 2) (c0.freshB + 1)
                  (by omega), hsingleCnt tr c0.freshB (c0.freshB + 1) (by omega)]
                omega
            | succ m ih =>
              intro F env pv tr hk1 hmin1 hev
              have hph := hphiRun F env pv hev
              have hxne : frameRegs c0.mapping F pos ≠ toU64 n := by
                rw [hGname F v pos hposlk]
                exact hmin1 0 (by omega)
              obtain ⟨-, -, hT⟩ :=
                replay_simples [] body order cw cb F hsimple hb hwf_cw
              obtain ⟨δi, δt, ph₀, ins₀, hT0, hT1, hTc, hTsem⟩ := hT
              have hT0' := hT0
              rw [hcwcur] at hT0'
              have hid0 := Option.some.inj (hT0'.symm.trans hlkWinner)
              injection hid0 with hph0 hins0 htm0
              subst hph0
              subst hins0
              rw [hcwcur] at hT1
              have hVars : VarsEval []
                  ((c0.freshR + c0.vars.length, 0) ::
                    (((List.range c0.vars.length).map
                      (fun j => (c0.freshR + j, frameRegs c0.mapping F j))) ++ env))
                  cw F := by
                have hVE := varsEval_phiEnv2 [] env c0.freshR c0.vars.length 0
                  (fun j => frameRegs c0.mapping F j) cw F hcwvars
                  (fun nm idx h => by
                    rw [hcwmap] at h
                    exact hwf0.mapIdx nm idx h)
                  (fun nm idx h => by
                    rw [hcwmap] at h
                    exact hGname F nm idx h)
                rw [List.cons_append] at hVE
                exact hVE
              have hcont : ∀ (env2 : Env) (tr2 : List Nat),
                  VarsEval [] env2 cb (specFold body F) →
                  (∃ pre, env2 = pre ++ ((c0.freshR + c0.vars.length, 0) ::
                    (((List.range c0.vars.length).map
                      (fun j => (c0.freshR + j, frameRegs c0.mapping F j))) ++ env)) ∧
                    EnvKeysGE pre cw.freshR) →
                  (∃ Δ, tr2 = ((tr ++ [c0.freshB]) ++ [c0.freshB + 1]) ++ Δ ∧
                    ∀ b ∈ Δ, cw.freshB ≤ b ∧ b < cb.freshB) →
                  RestReaches cfx.prog [] cb.cur [] (some (.br c0.freshB)) env2 [] tr2
                    (fun o => ∃ trX, o = .finished (order.map (fun e =>
                        (e.1, iterFold (specFold body) (m + 1) F e.1))) trX ∧
                      trX.count (c0.freshB + 1) =
                        tr.count (c0.freshB + 1) + (m + 1)) := by
                intro env2 tr2 hv2 _ hΔ
                obtain ⟨Δ, htr2, hΔlo⟩ := hΔ
                have hev2 : ∀ i, i < c0.vars.length →
                    ∃ ed, ([((c0.vars.get? i).getD (.constV 0), c0.block),
                        ((cb.vars.get? i).getD (.constV 0), cb.block)]).find?
                        (fun e2 => e2.2 == cb.cur) = some ed ∧
                      evalOp [] env2 ed.1 =
                        some (frameRegs c0.mapping (specFold body F) i) := by
                  intro i hi
                  refine ⟨((cb.vars.get? i).getD (.constV 0), cb.block), ?_, ?_⟩
                  · rw [List.find?_cons_of_neg _ (by
                        simp only [hblock0, beq_iff_eq]
                        omega),
                      List.find?_cons_of_pos _ (by
                        simp [hcbblock])]
                  · obtain ⟨nm, hfind, hlknm⟩ := hnames i hi
                    have hGv : frameRegs c0.mapping (specFold body F) i =
                        (specFold body F) nm := by
                      simp only [frameRegs]
                      rw [hfind]
                    obtain ⟨op, hop, hevop⟩ := hv2 nm i (by
                      rw [hcbmap]
                      exact hlknm)
                    rw [hop, hGv]
                    exact hevop
                have hm1 : (iterFold (specFold body) m (specFold body F)) v =
                    toU64 n := hk1
                have hmin1b : ∀ j, j < m →
                    (iterFold (specFold body) j (specFold body F)) v ≠ toU64 n := by
                  intro j hj
                  exact hmin1 (j + 1) (by omega)
                obtain ⟨g2, trX, hrunIH, hcntIH⟩ :=
                  ih (specFold body F) env2 cb.cur tr2 hm1 hmin1b hev2
                refine ⟨g2, trX, hrunIH, ?_⟩
                have hc1 : tr2.count (c0.freshB + 1) = tr.count (c0.freshB + 1) + 1 := by
                  rw [htr2, List.count_append,
                    hdeltaCnt Δ (c0.freshB + 1) cw.freshB (by omega)
                      (fun b hbm => (hΔlo b hbm).1),
                    hsnocEq (tr ++ [c0.freshB]) (c0.freshB + 1),
                    hsingleCnt tr c0.freshB (c0.freshB + 1) (by omega)]
                omega
              have hlkFcb2 : cfx.prog.lookupB cb.cur =
                  some ⟨phC, insC ++ [], some (.br c0.freshB)⟩ := by
                rw [List.append_nil]
                exact hlkFcb
              have hsem := hTsem ((c0.freshR + c0.vars.length, 0) ::
                  (((List.range c0.vars.length).map
                    (fun j => (c0.freshR + j, frameRegs c0.mapping F j))) ++ env)) []
                  ((tr ++ [c0.freshB]) ++ [c0.freshB + 1]) hVars cfx.prog []
                  (some (.br c0.freshB)) phC insC phC
                  (fun o => ∃ trX, o = .finished (order.map (fun e =>
                      (e.1, iterFold (specFold body) (m + 1) F e.1))) trX ∧
                    trX.count (c0.freshB + 1) = tr.count (c0.freshB + 1) + (m + 1))
                  hlkCb hpx (List.forall₂_same.mpr (fun ph _ => ⟨rfl, [], by simp⟩))
                  hlkFcb2 hcont
              have e1 := execF_openBlock 0 cfx.prog [] pv c0.freshB env [] tr
                _ _ _ hlkFlop _ hph [] _ rfl _ [] rfl
              have e2 := execRest_icmp_condBr 0 cfx.prog [] c0.freshB
                (c0.freshR + c0.vars.length) (.reg (c0.freshR + pos)) (toU64 n)
                (c0.freshB + 2) (c0.freshB + 1)
                (((List.range c0.vars.length).map
                  (fun j => (c0.freshR + j, frameRegs c0.mapping F j))) ++ env) []
                (tr ++ [c0.freshB]) (frameRegs c0.mapping F pos)
                (hregEval F env pos hposlt)
              rw [if_neg hxne, if_pos rfl] at e2
              cases δt with
              | none =>
                have hcbeq : cb.cur = c0.freshB + 1 := by
                  rw [hTc rfl, hcwcur]
                rw [hcwcur] at hsem
                rw [List.append_nil] at hsem
                obtain ⟨g2, hg2⟩ := hsem
                obtain ⟨trX, hfin, hcnt⟩ := hg2
                have hblkI : cfx.prog.lookupB (c0.freshB + 1) =
                    some ⟨phC, insC, some (.br c0.freshB)⟩ := by
                  rw [← hcbeq]
                  exact hlkFcb
                have hlkCb2 := hlkCb
                rw [hcbeq] at hlkCb2
                have hid1 := Option.some.inj (hlkCb2.symm.trans hT1)
                injection hid1 with hph1 hins1 htm1
                have e1b := execF_openBlock (g2 + 1) cfx.prog [] pv c0.freshB env [] tr
                  _ _ _ hlkFlop _ hph [] _ rfl _ [] rfl
                have e2b := execRest_icmp_condBr (g2 + 1) cfx.prog [] c0.freshB
                  (c0.freshR + c0.vars.length) (.reg (c0.freshR + pos)) (toU64 n)
                  (c0.freshB + 2) (c0.freshB + 1)
                  (((List.range c0.vars.length).map
                    (fun j => (c0.freshR + j, frameRegs c0.mapping F j))) ++ env) []
                  (tr ++ [c0.freshB]) (frameRegs c0.mapping F pos)
                  (hregEval F env pos hposlt)
                rw [if_neg hxne, if_pos rfl] at e2b
                have e3 := execF_openBlock g2 cfx.prog [] c0.freshB (c0.freshB + 1)
                  ((c0.freshR + c0.vars.length, 0) ::
                    (((List.range c0.vars.length).map
                      (fun j => (c0.freshR + j, frameRegs c0.mapping F j))) ++ env)) []
                  (tr ++ [c0.freshB]) phC insC (some (.br c0.freshB)) hblkI []
                  (by rw [hph1]; rfl) [] insC rfl _ [] rfl
                refine ⟨g2 + 1 + 1, trX, ?_, hcnt⟩
                rw [e1b, e2b, e3, hins1]
                exact hfin
              | some t =>
                have hnecb : c0.freshB + 1 ≠ cb.cur := by
                  intro he
                  rw [← he] at hlkCb
                  have hid1 := Option.some.inj (hlkCb.symm.trans hT1)
                  injection hid1 with hph1 hins1 htm1
                  exact Option.noConfusion htm1
                have hblkI : cfx.prog.lookupB (c0.freshB + 1) =
                    some ⟨[], [] ++ δi, some t⟩ := by
                  rw [hothF (c0.freshB + 1) (by omega),
                    hothE (c0.freshB + 1) hnecb (by omega)]
                  exact hT1
                rw [hcwcur] at hsem
                obtain ⟨g2, hg2⟩ := hsem
                obtain ⟨trX, hfin, hcnt⟩ := hg2
                have e1b := execF_openBlock (g2 + 1) cfx.prog [] pv c0.freshB env [] tr
                  _ _ _ hlkFlop _ hph [] _ rfl _ [] rfl
                have e2b := execRest_icmp_condBr (g2 + 1) cfx.prog [] c0.freshB
                  (c0.freshR + c0.vars.length) (.reg (c0.freshR + pos)) (toU64 n)
                  (c0.freshB + 2) (c0.freshB + 1)
                  (((List.range c0.vars.length).map
                    (fun j => (c0.freshR + j, frameRegs c0.mapping F j))) ++ env) []
                  (tr ++ [c0.freshB]) (frameRegs c0.mapping F pos)
                  (hregEval F env pos hposlt)
                rw [if_neg hxne, if_pos rfl] at e2b
                have e3 := execF_openBlock g2 cfx.prog [] c0.freshB (c0.freshB + 1)
                  ((c0.freshR + c0.vars.length, 0) ::
                    (((List.range c0.vars.length).map
                      (fun j => (c0.freshR + j, frameRegs c0.mapping F j))) ++ env)) []
                  (tr ++ [c0.freshB]) [] ([] ++ δi) (some t) hblkI []
                  rfl [] ([] ++ δi) rfl _ [] rfl
                refine ⟨g2 + 1 + 1, trX, ?_, hcnt⟩
                rw [e1b, e2b, e3]
                exact hfin
          -- entry glue and conclusion
          have hvars0 : c0.vars = List.replicate
              (varTable ([.whileS v n] ++ body ++ [.endS, .eofS])).length
              (.constV 0) := by rw [hc0]
          have hev0 : ∀ (env : Env) (i : Nat), i < c0.vars.length →
              ∃ ed, ([((c0.vars.get? i).getD (.constV 0), c0.block),
                  ((cb.vars.get? i).getD (.constV 0), cb.block)]).find?
                  (fun e2 => e2.2 == (0 : Nat)) = some ed ∧
                evalOp [] env ed.1 = some (frameRegs c0.mapping zeroFrame i) := by
            intro env i hi
            refine ⟨((c0.vars.get? i).getD (.constV 0), c0.block), ?_, ?_⟩
            · rw [List.find?_cons_of_pos _ (by simp [hblock0])]
            · have hci : c0.vars.get? i = some (.constV 0) := by
                cases hq : c0.vars.get? i with
                | none =>
                  rw [List.get?_eq_getElem?, List.getElem?_eq_none_iff] at hq
                  omega
                | some op =>
                  have hm := List.get?_mem hq
                  rw [hvars0] at hm
                  rw [List.eq_of_mem_replicate hm]
              rw [hci]
              show evalOp [] env (.constV 0) = some (frameRegs c0.mapping zeroFrame i)
              simp only [evalOp, frameRegs]
              cases c0.mapping.find? (fun e => e.2 == i) <;> rfl
          obtain ⟨g, trX, hrun, hcnt⟩ :=
            hloop k zeroFrame ([] ++ []) 0 [0] hk hmin (hev0 ([] ++ []))
          have hlkF0lit : cfx.prog.lookupB 0 =
              some ⟨[], [], some (.br c0.freshB)⟩ := by
            rw [← hcur0]
            exact hlkF0
          have e0 := execF_openBlock g cfx.prog [] 0 0 [] [] [] [] []
            (some (.br c0.freshB)) hlkF0lit [] rfl [] [] rfl _ [] rfl
          refine ⟨pos, hposlk, ?_, ?_, ?_⟩
          · have h := hlkFlop
            rw [hfB0, hfR0] at h
            simp only [Nat.zero_add] at h
            exact ⟨_, h⟩
          · constructor
            · intro h0
              by_contra hk0
              exact hmin 0 (Nat.pos_of_ne_zero hk0) h0
            · intro hk0
              subst hk0
              exact hk
          · refine ⟨g + 1, trX, ?_, ?_⟩
            · show execF (g + 1) cfx.prog [] 0 0 [] [] [] = _
              rw [e0]
              exact hrun
            · have h01 : ([0] : List Nat).count (c0.freshB + 1) = 0 := by
                rw [hfB0]
                decide
              rw [show (2 : Nat) = c0.freshB + 1 from by omega]
              omega

/-- The loop fixture: `while x 3 do incr x end` — the body must run three
times before `x` first equals the bound. -/
def convC2new : Converter :=
  (Converter.new (varTable ([.whileS ['x'] 3] ++ [.oneParam ['x'] .incr] ++
    [.endS, .eofS])) []).toOption.getD convFixture

def convC2fin : Converter :=
  ((Converter.new (varTable ([.whileS ['x'] 3] ++ [.oneParam ['x'] .incr] ++
    [.endS, .eofS])) []).bind
    (replay [(['x'], 0)] ([.whileS ['x'] 3] ++ [.oneParam ['x'] .incr] ++
      [.endS, .eofS]))).toOption.getD convFixture

/-- Witness for C2: in `while x 3 do incr x end` the header compares the
phi of `x` against 3 before the body; the body block is entered exactly 3
times, and `x` is reported as 3. -/
theorem while_equality_bound_semantics_witness :
    ∃ pos, lookupName convC2new.mapping ['x'] = some pos ∧
      (∃ phs, convC2fin.prog.lookupB 1 = some ⟨phs,
        [.icmpEq convC2new.vars.length (.reg pos) (.constV (toU64 3))],
        some (.condBr (.reg convC2new.vars.length) 3 2)⟩) ∧
      (zeroFrame ['x'] = toU64 3 ↔ (3 : Nat) = 0) ∧
      ∃ fuel tr, runProg fuel convC2fin.prog [] =
        .finished ([(['x'], 0)].map (fun e =>
          (e.1, iterFold (specFold [.oneParam ['x'] .incr]) 3 zeroFrame e.1))) tr ∧
        tr.count 2 = 3 :=
  while_equality_bound_semantics ['x'] 3 3 [.oneParam ['x'] .incr] [(['x'], 0)]
    convC2new convC2fin
    (by intro s hs; fin_cases hs <;> trivial)
    rfl rfl (by decide)
    (by
      intro i hi
      have h2 : convC2new.vars.length = 1 := by decide
      have h1 : i = 0 := by omega
      subst h1
      exact ⟨['x'], by decide, by decide⟩)
    (by decide) (by decide)

end BBVM
